import Mathlib

/-!
Verification development for the `JobStore` hybrid document/blob store
(`src/jobflow/core/store.py`).

The embedding models JSON-canonical documents (the output of monty's
`jsanitize(doc, strict=True)`, which the write pipeline applies before any
other processing) as the `Value` type below.  The two backing maggma
collections are modelled as lists of such values with upsert-by-key and
filter-by-criteria semantics.  The tree-walking helpers `find_key` and
`update_in_dictionary` live in `jobflow.utils.find`, which is not part of
the sources at hand; they are modelled from the specification's Location
Algebra section (recursive descent over nested mappings/sequences,
deterministic document order; in-place write at a located path that assumes
intermediate containers exist).  `jobflow.utils.uuid.suuid` is likewise
modelled from the specification: it mints a fresh globally-unique opaque
identifier, here realised by a per-store counter issuing integer ids.
-/

namespace JF

/-- One segment of a location path: a mapping key or a sequence index. -/
inductive Seg where
  | key (s : String)
  | idx (n : Nat)
  deriving DecidableEq, Repr

/-- A location: an ordered sequence of path segments addressing one
position inside a nested document. -/
abbrev Path := List Seg

mutual
/-- A JSON-canonical value, the shape of documents after `jsanitize`. -/
inductive Value where
  | null
  | bool (b : Bool)
  | int (n : Int)
  | str (s : String)
  | arr (xs : Elems)
  | obj (fs : Fields)
  deriving DecidableEq, Repr

/-- The elements of a JSON array. -/
inductive Elems where
  | nil
  | cons (v : Value) (tl : Elems)
  deriving DecidableEq, Repr

/-- The key/value entries of a JSON object, in document order. -/
inductive Fields where
  | nil
  | cons (k : String) (v : Value) (tl : Fields)
  deriving DecidableEq, Repr
end

/-- Build object entries from a list of pairs. -/
def listToFields : List (String × Value) → Fields
  | [] => .nil
  | (k, v) :: tl => .cons k v (listToFields tl)

/-- Build array elements from a list of values. -/
def listToElems : List Value → Elems
  | [] => .nil
  | v :: tl => .cons v (listToElems tl)

/-- Convenience constructor for objects. -/
def vobj (l : List (String × Value)) : Value := .obj (listToFields l)

/-- Convenience constructor for arrays. -/
def varr (l : List Value) : Value := .arr (listToElems l)

/-- Look up the first entry with the given key (Python dicts hold at most
one entry per key, so "first" is faithful for sanitized documents). -/
def Fields.lookup : Fields → String → Option Value
  | .nil, _ => none
  | .cons k v tl, x => if k = x then some v else tl.lookup x

/-- Index into array elements. -/
def Elems.get? : Elems → Nat → Option Value
  | .nil, _ => none
  | .cons v _, 0 => some v
  | .cons _ tl, n + 1 => tl.get? n

/-- Length of array elements. -/
def Elems.length : Elems → Nat
  | .nil => 0
  | .cons _ tl => tl.length + 1

/-- `pydash.get(doc, name)` for a plain (undotted) field name, as used for
criteria matching, grouping keys and `doc[name]` access.  All field names
occurring in the claims are plain top-level names. -/
def pyget (d : Value) (k : String) : Option Value :=
  match d with
  | .obj fs => fs.lookup k
  | _ => none

/-- Constructor rank, used to order values of different shapes. -/
def Value.rank : Value → Nat
  | .null => 0
  | .bool _ => 1
  | .int _ => 2
  | .str _ => 3
  | .arr _ => 4
  | .obj _ => 5

/-- A scalar is any non-container value. -/
def Value.isScalar : Value → Bool
  | .arr _ => false
  | .obj _ => false
  | _ => true

/-- Navigate a document along a location path (`pydash.get(doc, list(loc))`). -/
def getPath : Value → Path → Option Value
  | v, [] => some v
  | .obj fs, .key k :: p => match fs.lookup k with
      | some w => getPath w p
      | none => none
  | .arr xs, .idx i :: p => match xs.get? i with
      | some w => getPath w p
      | none => none
  | _, _ => none

mutual
/-- Write `nv` at the position addressed by the path, leaving the value
unchanged when an intermediate container on the path is missing.  Modelled
from the spec's Location Algebra `write`: locations always originate from a
prior `find` over the same tree, so the missing-intermediate case is
outside the modelled guarantee. -/
def setPath : Value → Path → Value → Value
  | _, [], nv => nv
  | .obj fs, .key k :: p, nv => .obj (setPathFields fs k p nv)
  | .arr xs, .idx i :: p, nv => .arr (setPathElems xs i p nv)
  | v, _, _ => v

/-- Write into the (first) entry with the given key. -/
def setPathFields : Fields → String → Path → Value → Fields
  | .nil, _, _, _ => .nil
  | .cons k' v tl, k, p, nv =>
      if k' = k then .cons k' (setPath v p nv) tl
      else .cons k' v (setPathFields tl k p nv)

/-- Write into the element at the given index. -/
def setPathElems : Elems → Nat → Path → Value → Elems
  | .nil, _, _, _ => .nil
  | .cons v tl, 0, p, nv => .cons (setPath v p nv) tl
  | .cons v tl, n + 1, p, nv => .cons v (setPathElems tl n p nv)
end

/-- Apply a batch of located writes in order (`update_in_dictionary`,
modelled from the spec's Location Algebra). -/
def updateInDictionary (d : Value) (upds : List (Path × Value)) : Value :=
  upds.foldl (fun acc pv => setPath acc pv.1 pv.2) d

mutual
/-- All locations of entries whose key equals `k`, in document order
(`find_key`, modelled from the spec's Location Algebra `find`): at each
mapping, every entry with the searched key is recorded (with the key itself
as final segment iff `ie`), and recursion continues into every nested
mapping/sequence, not only matches. -/
def findKey (k : String) (ie : Bool) : Value → List Path
  | .obj fs => findKeyFields k ie fs
  | .arr xs => findKeyElems k ie 0 xs
  | _ => []

/-- `findKey` over object entries. -/
def findKeyFields (k : String) (ie : Bool) : Fields → List Path
  | .nil => []
  | .cons x v tl =>
      (if x = k then [if ie then [Seg.key k] else []] else [])
        ++ (findKey k ie v).map (fun p => Seg.key x :: p)
        ++ findKeyFields k ie tl

/-- `findKey` over array elements, `i` being the index of the head. -/
def findKeyElems (k : String) (ie : Bool) : Nat → Elems → List Path
  | _, .nil => []
  | i, .cons v tl =>
      (findKey k ie v).map (fun p => Seg.idx i :: p) ++ findKeyElems k ie (i + 1) tl
end

/-- Three-way comparison of integers. -/
def cmpInt (a b : Int) : Ordering :=
  if a < b then .lt else if b < a then .gt else .eq

/-- Three-way comparison of strings. -/
def cmpStr (a b : String) : Ordering :=
  if a < b then .lt else if b < a then .gt else .eq

/-- Three-way comparison of booleans, `false` before `true`. -/
def cmpBool (a b : Bool) : Ordering :=
  if a = b then .eq else if a = false then .lt else .gt

/-- Three-way comparison of naturals. -/
def cmpNat (a b : Nat) : Ordering :=
  if a < b then .lt else if b < a then .gt else .eq

/-- Python's natural ordering where the sources compare document values
(`sorted` in `groupby`, the collection's sort).  It is faithful on
same-type scalars, the only case on which Python's comparison is defined —
comparing a container or mixing types raises `TypeError` there; the model
totalises by constructor rank and the theorems restrict to the faithful
scalar domain. -/
def scalarCmp (a b : Value) : Ordering :=
  match a, b with
  | .int x, .int y => cmpInt x y
  | .str x, .str y => cmpStr x y
  | .bool x, .bool y => cmpBool x y
  | _, _ => cmpNat a.rank b.rank

/-- Sort comparison on a possibly missing field value; a missing field
sorts before any present one. -/
def cmpOpt (a b : Option Value) : Ordering :=
  match a, b with
  | none, none => .eq
  | none, some _ => .lt
  | some _, none => .gt
  | some x, some y => scalarCmp x y

/-- MongoDB-style sort order over a document pair, given `(field, dir)`
sort entries where a negative `dir` means descending. -/
def mongoSortCmp : List (String × Int) → Value → Value → Ordering
  | [], _, _ => .eq
  | (f, dir) :: rest, a, b =>
    let c0 := cmpOpt (pyget a f) (pyget b f)
    let c := if dir < 0 then c0.swap else c0
    match c with
    | .eq => mongoSortCmp rest a b
    | o => o

/-- Lexicographic comparison of grouping-key tuples (Python tuple order). -/
def cmpValues : List Value → List Value → Ordering
  | [], [] => .eq
  | [], _ :: _ => .lt
  | _ :: _, [] => .gt
  | x :: xs, y :: ys =>
      match scalarCmp x y with
      | .eq => cmpValues xs ys
      | o => o

/-- Insert into a sorted list, before the first element `y` with `le x y`
(the placement a stable ascending sort gives the earliest element). -/
def insertSorted (le : α → α → Bool) (x : α) : List α → List α
  | [] => [x]
  | y :: ys => if le x y then x :: y :: ys else y :: insertSorted le x ys

/-- Stable insertion sort, modelling Python's stable `sorted` and the
backing collection's sort. -/
def sortBy (le : α → α → Bool) : List α → List α
  | [] => []
  | x :: xs => insertSorted le x (sortBy le xs)

/-- Helper of `runsBy`: `t` is the key of the currently open run and `acc`
its members in reverse order. -/
def runsByAux (kf : α → β) [DecidableEq β] : β → List α → List α → List (β × List α)
  | t, acc, [] => [(t, acc.reverse)]
  | t, acc, y :: ys =>
      if kf y = t then runsByAux kf t (y :: acc) ys
      else (t, acc.reverse) :: runsByAux kf (kf y) [y] ys

/-- Maximal runs of consecutive equal keys with their common key, as
`itertools.groupby` yields them. -/
def runsBy (kf : α → β) [DecidableEq β] : List α → List (β × List α)
  | [] => []
  | x :: xs => runsByAux kf (kf x) [x] xs

/-- One field condition of a PyMongo-style filter. -/
inductive Cond where
  | ceq (v : Value)
  | cin (vs : List Value)
  deriving DecidableEq, Repr

/-- A PyMongo-style filter: a conjunction of per-field conditions. -/
abbrev Criteria := List (String × Cond)

/-- Whether a (possibly missing) field value satisfies a condition.  As in
MongoDB, an equality test against null also accepts a missing field. -/
def condMatch : Cond → Option Value → Bool
  | .ceq v, some w => decide (w = v)
  | .ceq v, none => decide (v = Value.null)
  | .cin vs, some w => decide (w ∈ vs)
  | .cin vs, none => decide (Value.null ∈ vs)

/-- Whether a document matches a filter. -/
def matchesCrit (c : Criteria) (d : Value) : Bool :=
  c.all (fun kc => condMatch kc.2 (pyget d kc.1))

/-- Keep the entries whose key was requested by a projection.  All
projections in the claims name plain top-level fields. -/
def projFields (allowed : List String) : Fields → Fields
  | .nil => .nil
  | .cons k v tl =>
      if k ∈ allowed then .cons k v (projFields allowed tl) else projFields allowed tl

/-- Apply an (inclusion) projection to a document; `none` returns the full
document.  A dict-shaped projection of 1-values behaves as the list of its
keys and is modelled by that list. -/
def projectDoc (props : Option (List String)) (d : Value) : Value :=
  match props with
  | none => d
  | some l =>
      match d with
      | .obj fs => .obj (projFields l fs)
      | v => v

/-- The backing collection's `query` capability: filter by criteria, sort,
skip, limit (`0` meaning no limit), then project. -/
def docsCollQuery (docs : List Value) (c : Criteria) (props : Option (List String))
    (sort : Option (List (String × Int))) (skip limit : Nat) : List Value :=
  let fil := docs.filter (matchesCrit c)
  let sorted := match sort with
    | none => fil
    | some srt => sortBy (fun a b => mongoSortCmp srt a b ≠ Ordering.gt) fil
  let limited := if limit = 0 then sorted.drop skip else (sorted.drop skip).take limit
  limited.map (projectDoc props)

/-- One selector of a LoadSpec list: a field name, or an `(module, class)`
type tag (the normal form `_prepare_load` produces from enums, strings and
`MSONable` classes). -/
inductive LoadSel where
  | fname (f : String)
  | ftype (mod cls : String)
  deriving DecidableEq, Repr

/-- A normalized load argument: a boolean, or a selector list (the empty
list standing for `None`). -/
inductive LoadArg where
  | lbool (b : Bool)
  | sels (l : List LoadSel)
  deriving DecidableEq, Repr

/-- Python truthiness of a prepared load value, deciding whether the read
pipeline resolves anything at all. -/
def loadTruthy : LoadArg → Bool
  | .lbool b => b
  | .sels l => !l.isEmpty

/-- One selector test of `_filter_blobs`'s inner loop.  A type-tag selector
first compares the stub's recorded `@class`/`@module`; on any other
selector-shape or a failed tag match the source evaluates `location[-1]`,
which raises `IndexError` when the location is empty (a stub sitting at the
document root). -/
def selKeep (b : Value) (loc : Path) : LoadSel → Except Unit Bool
  | .ftype m c =>
      if pyget b "@class" = some (.str c) ∧ pyget b "@module" = some (.str m) then .ok true
      else
        match loc.getLast? with
        | some _ => .ok false
        | none => .error ()
  | .fname f =>
      match loc.getLast? with
      | some seg => .ok (decide (seg = Seg.key f))
      | none => .error ()

/-- The appends one `(blob, location)` pair receives in `_filter_blobs`:
one copy per matching selector (the source loop has no break). -/
def pairKeep (b : Value) (loc : Path) (sels : List LoadSel) : Except Unit (List (Value × Path)) := do
  let rs ← sels.mapM (selKeep b loc)
  pure ((rs.filter (fun r => r)).map (fun _ => (b, loc)))

/-- `_filter_blobs`: keep every stub when the load is `True`, none when it
is falsy, else keep stubs per selector matching. -/
def filterBlobs (pairs : List (Value × Path)) : LoadArg → Except Unit (List (Value × Path))
  | .lbool true => .ok pairs
  | .lbool false => .ok []
  | .sels [] => .ok []
  | .sels sels =>
      pairs.foldlM (fun acc bl => do
        let ks ← pairKeep bl.1 bl.2 sels
        pure (acc ++ ks)) []

/-- Python dict insertion: first-occurrence key order, last value wins. -/
def dictInsert (l : List (Value × α)) (k : Value) (v : α) : List (Value × α) :=
  match l with
  | [] => [(k, v)]
  | (k', v') :: tl => if k' = k then (k, v) :: tl else (k', v') :: dictInsert tl k v

/-- Python dict lookup. -/
def lookupDict (l : List (Value × α)) (k : Value) : Option α :=
  match l with
  | [] => none
  | (k', v) :: tl => if k' = k then some v else lookupDict tl k

/-- The JobStore state: the document collection, the blob collection, the
fresh-id counter backing `suuid`, and the store's default save/load
configuration fixed at construction. -/
structure State where
  docs : List Value
  data : List Value
  ctr : Nat
  save : List String
  load : LoadArg
  deriving Repr

/-- Resolve one raw document as `JobStore.query`'s loop body does: locate
all `blob_uuid` stubs, filter them by the load value, build the id-keyed
`object_info` dict, fetch the kept blobs from the blob collection in one
batched `$in` query projected to `blob_uuid`/`data`, and substitute each
fetched `data` back at the stub's location.  The `Except` errors are the
source's `IndexError` inside `_filter_blobs` and the `KeyError`s of
`o["data"]` and `object_map[oid]`. -/
def resolveDoc (lv : LoadArg) (data : List Value) (doc : Value) : Except Unit Value :=
  if loadTruthy lv then do
    let locations := findKey "blob_uuid" false doc
    let pairs := locations.map (fun loc => ((getPath doc loc).getD .null, loc))
    let kept ← filterBlobs pairs lv
    let objectInfo := kept.foldl
      (fun acc bl => dictInsert acc ((pyget bl.1 "blob_uuid").getD .null) bl.2) []
    let fetched := docsCollQuery data [("blob_uuid", Cond.cin (objectInfo.map Prod.fst))]
      (some ["blob_uuid", "data"]) none 0 0
    let objectMap ← fetched.foldlM (fun acc o =>
        match pyget o "blob_uuid", pyget o "data" with
        | some i, some dv => Except.ok (dictInsert acc i dv)
        | _, _ => Except.error ()) ([] : List (Value × Value))
    let toInsert ← objectInfo.mapM (fun il =>
        match lookupDict objectMap il.1 with
        | some dv => Except.ok ((il.2 : Path), dv)
        | none => Except.error ())
    .ok (updateInDictionary doc toInsert)
  else .ok doc

/-- `JobStore.query`: a list- or dict-shaped projection gets `uuid` and
`index` appended, the raw documents come from the document collection, and
each one is resolved against the load value (the store default when the
caller passed none). -/
def query (s : State) (c : Criteria) (props : Option (List String))
    (sort : Option (List (String × Int))) (skip limit : Nat)
    (load : Option LoadArg) : Except Unit (List Value) :=
  let lv := load.getD s.load
  let props' := props.map (fun l => l ++ ["uuid", "index"])
  (docsCollQuery s.docs c props' sort skip limit).mapM (resolveDoc lv s.data)

/-- `JobStore.query_one`: `query` with `limit=1`, returning the first
result or `none`. -/
def queryOne (s : State) (c : Criteria) (props : Option (List String))
    (sort : Option (List (String × Int))) (load : Option LoadArg) :
    Except Unit (Option Value) :=
  (query s c props sort 0 1 load).map List.head?

/-- Per-(uuid, index) key values used for upserting. -/
def keyVals (kf : List String) (d : Value) : List (Option Value) :=
  kf.map (pyget d)

/-- Upsert one record: replace the first record agreeing on the key fields,
else append (MongoDB `replace_one` with upsert, as maggma's `update` issues
per incoming record). -/
def upsertOne (kf : List String) (coll : List Value) (d : Value) : List Value :=
  match coll with
  | [] => [d]
  | c :: tl => if keyVals kf c = keyVals kf d then d :: tl else c :: upsertOne kf tl d

/-- The backing collection's `update` capability: upsert records in order
by the given key fields. -/
def collUpdate (kf : List String) (coll docs : List Value) : List Value :=
  docs.foldl (upsertOne kf) coll

/-- The record `_get_blob_info` mints, after the source's loop has mutated
it.  `_get_blob_info` itself returns only the empty type tag and the fresh
id: `isinstance(obj, MSONable)` is always false for the already-sanitized
values the write pipeline extracts, so `@class`/`@module` are empty.  The
loop then calls `blob.update({"data": ..., "job_uuid": ..., "job_index":
...})` on the same dict object that `update_in_dictionary` already placed
inside the document, so by the time either collection is written, the stub
in the document and the blob record are this one six-entry dict. -/
def fullBlob (objv uuidv idxv idv : Value) : Value :=
  vobj [("@class", .str ""), ("@module", .str ""), ("blob_uuid", idv),
        ("data", objv), ("job_uuid", uuidv), ("job_index", idxv)]

/-- Pair each element with its position, starting at `off`. -/
def withIdx (off : Nat) : List α → List (Nat × α)
  | [] => []
  | x :: tl => (off, x) :: withIdx (off + 1) tl

/-- Offload one document: locate every save-key occurrence
(`include_end=True`), mint one fresh id per located value (the Python
`object_map` dict collapses duplicate locations, which can arise only from
repeated save keys; the theorems assume distinct save keys, under which the
list below is that dict), write the blob dicts at the located positions,
and return the stubbed document, the staged blob records, and the advanced
id counter. -/
def offloadDoc (saveKeys : List String) (ctr : Nat) (doc : Value) :
    Value × List Value × Nat :=
  let locations := saveKeys.flatMap (fun k => findKey k true doc)
  let pairs := (withIdx 0 locations).map (fun iloc =>
      (iloc.2, fullBlob ((getPath doc iloc.2).getD .null)
        ((pyget doc "uuid").getD .null) ((pyget doc "index").getD .null)
        (.int (Int.ofNat (ctr + iloc.1)))))
  (updateInDictionary doc pairs, pairs.map Prod.snd, ctr + locations.length)

/-- The `save` argument of `JobStore.update`: absent, a boolean, or save
keys (already in the string normal form the source reduces enums to). -/
inductive SaveArg where
  | sbool (b : Bool)
  | skeys (l : List String)
  deriving DecidableEq, Repr

/-- The document loop of `JobStore.update`: offload each document in
order, threading the fresh-id counter, and collect the stubbed documents
and the staged blob records. -/
def procList (sk : List String) (ctr : Nat) : List Value → List Value × List Value × Nat
  | [] => ([], [], ctr)
  | d :: tl =>
      let r := offloadDoc sk ctr d
      let rest := procList sk r.2.2 tl
      (r.1 :: rest.1, r.2.1 ++ rest.2.1, rest.2.2)

/-- Resolve the `save` argument of `update` against the store default, as
the source's argument normalization does. -/
def resolveSave (dflt : List String) : Option SaveArg → List String
  | none => dflt
  | some (.sbool true) => dflt
  | some (.sbool false) => []
  | some (.skeys l) => l

/-- `JobStore.update`.  `keyGiven` records whether the caller passed a
non-`None` `key` argument: the source replaces any such argument by
`["uuid", "index"]` and otherwise passes `None` through to the document
collection, which then upserts by its own key — `"uuid"`, forced at
construction.  Documents are sanitized (the identity on the canonical
values modelled here), offloaded when the save keys are non-empty, then
upserted; staged blobs are upserted by `blob_uuid` only when save keys
exist. -/
def update (s : State) (docs : List Value) (keyGiven : Bool)
    (save : Option SaveArg) : State :=
  let saveKeys := resolveSave s.save save
  let keyFields := if keyGiven then ["uuid", "index"] else ["uuid"]
  if saveKeys.isEmpty then
    { s with docs := collUpdate keyFields s.docs docs }
  else
    let res := procList saveKeys s.ctr docs
    { s with
      docs := collUpdate keyFields s.docs res.1,
      data := collUpdate ["blob_uuid"] s.data res.2.1,
      ctr := res.2.2 }

/-- The header document `groupby` yields for one group, built by
`set_(doc, k, get(v, k))` over the key names zipped with the grouping
values — note the source reads key `k` from the grouping *value* `v`
(yielding `None` for scalars), not the value itself. -/
def groupHeader (keys : List String) (vals : List Value) : Value :=
  vobj ((keys.zip vals).map (fun kv => (kv.1, (pyget kv.2 kv.1).getD .null)))

/-- `JobStore.groupby`: query, drop documents missing any grouping field,
stable-sort by the grouping-key tuple, and yield one `(header, members)`
pair per maximal run of equal key tuples. -/
def groupby (s : State) (keys : List String) (c : Criteria)
    (props : Option (List String)) (sort : Option (List (String × Int)))
    (skip limit : Nat) (load : Option LoadArg) :
    Except Unit (List (Value × List Value)) := do
  let docs ← query s c props sort skip limit load
  let data := docs.filter (fun d => keys.all (fun k => (pyget d k).isSome))
  let kf := fun d => keys.map (fun k => (pyget d k).getD Value.null)
  let sorted := sortBy (fun a b => cmpValues (kf a) (kf b) ≠ Ordering.gt) data
  pure ((runsBy kf sorted).map (fun tg => (groupHeader keys tg.1, tg.2)))

/-- `JobStore.remove_docs`: query the matching documents projected to
`(uuid, index)`, delete the blobs owned by each such pair from the blob
collection, and only then delete the matching documents. -/
def removeDocs (s : State) (c : Criteria) : Except Unit State := do
  let pairs ← query s c (some ["uuid", "index"]) none 0 0 none
  let data' := pairs.foldl (fun dl p =>
      dl.filter (fun b => !matchesCrit
        [("job_uuid", Cond.ceq ((pyget p "uuid").getD .null)),
         ("job_index", Cond.ceq ((pyget p "index").getD .null))] b)) s.data
  pure { s with docs := s.docs.filter (fun d => !matchesCrit c d), data := data' }

/-- Collect a list of optional values, failing on any `none`. -/
def allSome : List (Option α) → Option (List α)
  | [] => some []
  | none :: _ => none
  | some x :: tl => (allSome tl).map (x :: ·)

/-- `JobStore.get_output`: for `"last"`/`"first"`, one document sorted by
index descending/ascending and its `output` field; for any other `which`,
all documents for the uuid sorted by index descending and their `output`
fields as a list.  The empty result raises the source's not-found
`ValueError`; a missing `output` field raises `KeyError`. -/
def getOutput (s : State) (u : Value) (which : String) (load : LoadArg) :
    Except String Value :=
  if which = "last" ∨ which = "first" then
    let dir : Int := if which = "last" then -1 else 1
    match queryOne s [("uuid", Cond.ceq u)] (some ["output"])
        (some [("index", dir)]) (some load) with
    | .error _ => .error "backing store exception"
    | .ok none => .error "has not outputs"
    | .ok (some r) =>
        match pyget r "output" with
        | some v => .ok v
        | none => .error "KeyError"
  else
    match query s [("uuid", Cond.ceq u)] (some ["output"])
        (some [("index", -1)]) 0 0 (some load) with
    | .error _ => .error "backing store exception"
    | .ok rs =>
        if rs.isEmpty then .error "has not outputs"
        else
          match allSome (rs.map (fun r => pyget r "output")) with
          | some outs => .ok (.arr (listToElems outs))
          | none => .error "KeyError"

/-- The `index` field of a document, as an integer (`0` when absent or not
an integer; the theorems assume integer indices). -/
def idxOf (d : Value) : Int :=
  match pyget d "index" with
  | some (.int n) => n
  | _ => 0

/-- The `output` field of a document. -/
def outOf (d : Value) : Value :=
  (pyget d "output").getD .null

/-- The stub dict sitting at a located position of a document. -/
def stubAt (d : Value) (p : Path) : Value :=
  (getPath d p).getD .null

/-- The blob id a stub at a located position records. -/
def stubId (d : Value) (p : Path) : Value :=
  (pyget (stubAt d p) "blob_uuid").getD .null

/-- The claim-side reading of selector matching: a type-tag selector equal
to the stub's recorded `(module, class)` tag, or a field-name selector
equal to the final path segment of the stub's location. -/
def selMatchB (b : Value) (loc : Path) : LoadSel → Bool
  | .ftype m c => decide (pyget b "@class" = some (.str c) ∧ pyget b "@module" = some (.str m))
  | .fname f => decide (loc.getLast? = some (Seg.key f))

/-- Whether every top-level field named in `names` holds a scalar value. -/
def topScalarF (names : List String) : Fields → Bool
  | .nil => true
  | .cons k v tl =>
      (!(decide (k ∈ names)) || v.isScalar) && topScalarF names tl

/-- An object document whose fields named in `names` are all scalar. -/
def topScalar (names : List String) : Value → Bool
  | .obj fs => topScalarF names fs
  | _ => false

/-- The number of positions one document's offload locates. -/
def offLocs (sk : List String) (doc : Value) : Nat :=
  (sk.flatMap (fun k => findKey k true doc)).length

/-- All blob ids in a blob collection are counter-issued ids below `n`:
the well-formedness invariant the fresh-id counter maintains. -/
def blobIdsBelow (n : Nat) (data : List Value) : Prop :=
  ∀ b ∈ data, ∀ m : Int, pyget b "blob_uuid" = some (.int m) → m < (n : Int)

/-- Two paths are independent when neither extends the other, so writes at
one cannot disturb reads at the other. -/
def PathIndep (p q : Path) : Prop :=
  (∀ r, q ≠ p ++ r) ∧ (∀ r, p ≠ q ++ r)

/-- The grouping-key tuple `groupby` extracts from one document. -/
def keyTuple (keys : List String) (d : Value) : List Value :=
  keys.map (fun k => (pyget d k).getD Value.null)

/-- All values in a list are integers (the domain on which the modelled
value ordering agrees with Python's). -/
def AllInt (l : List Value) : Prop :=
  ∀ w ∈ l, ∃ n : Int, w = .int n

/-! ## Concrete fixtures used by the closed theorems -/

/-- A store with empty collections, counter zero, no save keys and the
default `load=False`. -/
def emptyStore : State := ⟨[], [], 0, [], .lbool false⟩

/-- A document with identity fields, one offloadable field `f` and one
plain field `g`. -/
def exDoc : Value :=
  vobj [("uuid", .str "u"), ("index", .int 1), ("f", .int 42), ("g", .str "keep")]

/-- Two documents sharing a uuid but with different indices. -/
def exDocA : Value := vobj [("uuid", .str "u"), ("index", .int 1)]

/-- See `exDocA`. -/
def exDocB : Value := vobj [("uuid", .str "u"), ("index", .int 2)]

/-- A stored document whose stub sentinel key sits at the document root. -/
def rootStubDoc : Value :=
  vobj [("uuid", .str "u"), ("index", .int 0), ("blob_uuid", .int 5)]

/-- A stored document with two stubs: one type-tagged at field `p`, one
untagged at field `q`. -/
def twoStubDoc : Value :=
  vobj [("uuid", .str "u"), ("index", .int 0),
        ("p", vobj [("@class", .str "C"), ("@module", .str "M"), ("blob_uuid", .int 1)]),
        ("q", vobj [("@class", .str ""), ("@module", .str ""), ("blob_uuid", .int 2)])]

/-- Output documents `(uuid=U, index=1, output=10)` and
`(uuid=U, index=2, output=20)` from the specification's example. -/
def outDoc1 : Value :=
  vobj [("uuid", .str "U"), ("index", .int 1), ("output", .int 10)]

/-- See `outDoc1`. -/
def outDoc2 : Value :=
  vobj [("uuid", .str "U"), ("index", .int 2), ("output", .int 20)]

/-- The `groupby` example documents from the specification. -/
def grpDoc1 : Value := vobj [("a", .int 1), ("b", .int 1)]

/-- See `grpDoc1`. -/
def grpDoc2 : Value := vobj [("a", .int 1), ("b", .int 2)]

/-- See `grpDoc1`. -/
def grpDoc3 : Value := vobj [("a", .int 2), ("b", .int 3)]

/-- A document lacking the grouping field `a`. -/
def grpDoc4 : Value := vobj [("b", .int 9)]

/-- A blob record owned by `(U, 1)` and one owned by `(W, 5)`. -/
def ownedBlob : Value :=
  vobj [("blob_uuid", .int 0), ("job_uuid", .str "U"), ("job_index", .int 1)]

/-- See `ownedBlob`. -/
def foreignBlob : Value :=
  vobj [("blob_uuid", .int 1), ("job_uuid", .str "W"), ("job_index", .int 5)]

/-! ## Lemmas about paths, lookup and located writes -/

/-- Structural induction on object entries alone (no motive on values). -/
@[induction_eliminator]
theorem fieldsInductionOn {motive : Fields → Prop} (nil : motive .nil)
    (cons : ∀ k v tl, motive tl → motive (.cons k v tl)) : ∀ fs, motive fs
  | .nil => nil
  | .cons k v tl => cons k v tl (fieldsInductionOn nil cons tl)

/-- Structural induction on array elements alone (no motive on values). -/
@[induction_eliminator]
theorem elemsInductionOn {motive : Elems → Prop} (nil : motive .nil)
    (cons : ∀ v tl, motive tl → motive (.cons v tl)) : ∀ xs, motive xs
  | .nil => nil
  | .cons v tl => cons v tl (elemsInductionOn nil cons tl)

theorem findKey_scalar (k : String) (ie : Bool) (v : Value) (h : v.isScalar = true) :
    findKey k ie v = [] := by
  cases v <;> simp_all [Value.isScalar, findKey]

theorem getPath_scalar (v : Value) (seg : Seg) (p : Path) (h : v.isScalar = true) :
    getPath v (seg :: p) = none := by
  cases v <;> cases seg <;> simp_all [Value.isScalar, getPath]

theorem lookup_setPathFields_self (fs : Fields) (a : String) (p : Path) (nv w : Value)
    (h : fs.lookup a = some w) :
    (setPathFields fs a p nv).lookup a = some (setPath w p nv) := by
  induction fs with
  | nil => simp [Fields.lookup] at h
  | cons k v tl ih =>
    by_cases hk : k = a
    · subst hk
      simp [Fields.lookup] at h
      subst h
      simp [setPathFields, Fields.lookup]
    · simp [Fields.lookup, hk] at h
      simp [setPathFields, hk, Fields.lookup, ih h]

theorem lookup_setPathFields_ne (fs : Fields) (a b : String) (p : Path) (nv : Value)
    (hne : b ≠ a) :
    (setPathFields fs a p nv).lookup b = fs.lookup b := by
  induction fs with
  | nil => simp [setPathFields]
  | cons k v tl ih =>
    by_cases hk : k = a
    · subst hk
      have hkb : ¬ k = b := fun h => hne (h ▸ rfl)
      simp [setPathFields, Fields.lookup, hkb]
    · by_cases hkb : k = b
      · subst hkb
        simp [setPathFields, hk, Fields.lookup]
      · simp [setPathFields, hk, Fields.lookup, hkb, ih]

theorem setPathFields_of_lookup_none (fs : Fields) (a : String) (p : Path) (nv : Value)
    (h : fs.lookup a = none) :
    setPathFields fs a p nv = fs := by
  induction fs with
  | nil => simp [setPathFields]
  | cons k v tl ih =>
    by_cases hk : k = a
    · subst hk; simp [Fields.lookup] at h
    · simp [Fields.lookup, hk] at h
      simp [setPathFields, hk, ih h]

theorem get?_setPathElems_self (xs : Elems) :
    ∀ (i : Nat) (p : Path) (nv w : Value), xs.get? i = some w →
      (setPathElems xs i p nv).get? i = some (setPath w p nv) := by
  induction xs with
  | nil => intro i p nv w h; simp [Elems.get?] at h
  | cons v tl ih =>
    intro i p nv w h
    cases i with
    | zero =>
      simp [Elems.get?] at h
      subst h
      simp [setPathElems, Elems.get?]
    | succ n =>
      simp [Elems.get?] at h
      simp [setPathElems, Elems.get?, ih n p nv w h]

theorem get?_setPathElems_ne (xs : Elems) :
    ∀ (i j : Nat) (p : Path) (nv : Value), j ≠ i →
      (setPathElems xs i p nv).get? j = xs.get? j := by
  induction xs with
  | nil => intro i j p nv _; simp [setPathElems]
  | cons v tl ih =>
    intro i j p nv hne
    cases i with
    | zero =>
      cases j with
      | zero => exact absurd rfl hne
      | succ m => simp [setPathElems, Elems.get?]
    | succ n =>
      cases j with
      | zero => simp [setPathElems, Elems.get?]
      | succ m =>
        have : m ≠ n := fun h => hne (h ▸ rfl)
        simp [setPathElems, Elems.get?, ih n m p nv this]

theorem setPathElems_of_get?_none (xs : Elems) :
    ∀ (i : Nat) (p : Path) (nv : Value), xs.get? i = none →
      setPathElems xs i p nv = xs := by
  induction xs with
  | nil => intro i p nv _; simp [setPathElems]
  | cons v tl ih =>
    intro i p nv h
    cases i with
    | zero => simp [Elems.get?] at h
    | succ n =>
      simp [Elems.get?] at h
      simp [setPathElems, ih n p nv h]

theorem getPath_setPath_self :
    ∀ (L : Path) (d w nv : Value), getPath d L = some w →
      getPath (setPath d L nv) L = some nv := by
  intro L
  induction L with
  | nil => intro d w nv _; simp [getPath, setPath]
  | cons seg p ih =>
    intro d w nv h
    cases d with
    | obj fs =>
      cases seg with
      | key a =>
        cases hl : fs.lookup a with
        | none => simp [getPath, hl] at h
        | some v =>
          simp [getPath, hl] at h
          simpa [setPath, getPath, lookup_setPathFields_self fs a p nv v hl]
            using ih v w nv h
      | idx i => simp [getPath] at h
    | arr xs =>
      cases seg with
      | key a => simp [getPath] at h
      | idx i =>
        cases hl : xs.get? i with
        | none => simp [getPath, hl] at h
        | some v =>
          simp [getPath, hl] at h
          simpa [setPath, getPath, get?_setPathElems_self xs i p nv v hl]
            using ih v w nv h
    | null => simp [getPath] at h
    | bool b => simp [getPath] at h
    | int n => simp [getPath] at h
    | str s => simp [getPath] at h

theorem setPathFields_setPathFields (a : String) (p : Path) (x y : Value)
    (hp : ∀ (v : Value), setPath (setPath v p x) p y = setPath v p y) :
    ∀ fs : Fields, setPathFields (setPathFields fs a p x) a p y = setPathFields fs a p y := by
  intro fs
  induction fs with
  | nil => simp [setPathFields]
  | cons k v tl ih =>
    by_cases hk : k = a
    · simp [setPathFields, hk, hp]
    · simp [setPathFields, hk, ih]

theorem setPathElems_setPathElems (p : Path) (x y : Value)
    (hp : ∀ (v : Value), setPath (setPath v p x) p y = setPath v p y) :
    ∀ (xs : Elems) (i : Nat),
      setPathElems (setPathElems xs i p x) i p y = setPathElems xs i p y := by
  intro xs
  induction xs with
  | nil => intro i; simp [setPathElems]
  | cons v tl ih =>
    intro i
    cases i with
    | zero => simp [setPathElems, hp]
    | succ n => simp [setPathElems, ih n]

theorem setPath_setPath :
    ∀ (L : Path) (d x y : Value), setPath (setPath d L x) L y = setPath d L y := by
  intro L
  induction L with
  | nil => intro d x y; simp [setPath]
  | cons seg p ih =>
    intro d x y
    cases d with
    | obj fs =>
      cases seg with
      | key a => simp [setPath, setPathFields_setPathFields a p x y (fun v => ih v x y)]
      | idx i => simp [setPath]
    | arr xs =>
      cases seg with
      | key a => simp [setPath]
      | idx i => simp [setPath, setPathElems_setPathElems p x y (fun v => ih v x y) xs i]
    | null => simp [setPath]
    | bool b => simp [setPath]
    | int n => simp [setPath]
    | str s => simp [setPath]

theorem setPathFields_lookup_self (a : String) (p : Path) (w : Value)
    (hp : ∀ (v : Value), getPath v p = some w → setPath v p w = v) :
    ∀ fs : Fields, (∀ v, fs.lookup a = some v → getPath v p = some w) →
      setPathFields fs a p w = fs ∨ fs.lookup a = none := by
  intro fs
  induction fs with
  | nil => exact fun _ => Or.inr rfl
  | cons k v tl ih =>
    intro h
    by_cases hk : k = a
    · subst hk
      have hv : getPath v p = some w := h v (by simp [Fields.lookup])
      exact Or.inl (by simp [setPathFields, hp v hv])
    · rcases ih (fun v' hv' => h v' (by simpa [Fields.lookup, hk] using hv')) with h1 | h1
      · exact Or.inl (by simp [setPathFields, hk, h1])
      · exact Or.inr (by simpa [Fields.lookup, hk] using h1)

theorem setPathElems_get?_self (p : Path) (w : Value)
    (hp : ∀ (v : Value), getPath v p = some w → setPath v p w = v) :
    ∀ (xs : Elems) (i : Nat), (∀ v, xs.get? i = some v → getPath v p = some w) →
      setPathElems xs i p w = xs ∨ xs.get? i = none := by
  intro xs
  induction xs with
  | nil => exact fun _ _ => Or.inr rfl
  | cons v tl ih =>
    intro i h
    cases i with
    | zero =>
      have hv : getPath v p = some w := h v (by simp [Elems.get?])
      exact Or.inl (by simp [setPathElems, hp v hv])
    | succ n =>
      rcases ih n (fun v' hv' => h v' (by simpa [Elems.get?] using hv')) with h1 | h1
      · exact Or.inl (by simp [setPathElems, h1])
      · exact Or.inr (by simpa [Elems.get?] using h1)

theorem setPath_getPath_self :
    ∀ (L : Path) (d w : Value), getPath d L = some w → setPath d L w = d := by
  intro L
  induction L with
  | nil =>
    intro d w h
    simp [getPath] at h
    simp [setPath, h]
  | cons seg p ih =>
    intro d w h
    cases d with
    | obj fs =>
      cases seg with
      | key a =>
        cases hl : fs.lookup a with
        | none => simp [getPath, hl] at h
        | some v =>
          simp [getPath, hl] at h
          rcases setPathFields_lookup_self a p w (fun v' hv' => ih v' w hv') fs
              (fun v' hv' => by rw [hl] at hv'; cases hv'; exact h) with h1 | h1
          · simp [setPath, h1]
          · rw [hl] at h1; cases h1
      | idx i => simp [getPath] at h
    | arr xs =>
      cases seg with
      | key a => simp [getPath] at h
      | idx i =>
        cases hl : xs.get? i with
        | none => simp [getPath, hl] at h
        | some v =>
          simp [getPath, hl] at h
          rcases setPathElems_get?_self p w (fun v' hv' => ih v' w hv') xs i
              (fun v' hv' => by rw [hl] at hv'; cases hv'; exact h) with h1 | h1
          · simp [setPath, h1]
          · rw [hl] at h1; cases h1
    | null => simp [getPath] at h
    | bool b => simp [getPath] at h
    | int n => simp [getPath] at h
    | str s => simp [getPath] at h

theorem pyget_setPath_head_ne (d : Value) (seg : Seg) (p : Path) (nv : Value) (t : String)
    (hne : seg ≠ Seg.key t) :
    pyget (setPath d (seg :: p) nv) t = pyget d t := by
  cases d with
  | obj fs =>
    cases seg with
    | key a =>
      have hta : t ≠ a := fun h => hne (by rw [h])
      simp [setPath, pyget, lookup_setPathFields_ne fs a t p nv hta]
    | idx i => simp [setPath]
  | arr xs =>
    cases seg with
    | key a => simp [setPath, pyget]
    | idx i => simp [setPath, pyget]
  | null => simp [setPath]
  | bool b => simp [setPath]
  | int n => simp [setPath]
  | str s => simp [setPath]

theorem getPath_setPath_indep :
    ∀ (q : Path) (p : Path) (d nv : Value),
      (∀ r, p ≠ q ++ r) → (∀ r, q ≠ p ++ r) →
      getPath (setPath d q nv) p = getPath d p := by
  intro q
  induction q with
  | nil => intro p d nv h1 _; exact absurd (rfl : p = p) (by simpa using h1 p)
  | cons sq q' ih =>
    intro p d nv h1 h2
    cases p with
    | nil => exact absurd (rfl : sq :: q' = sq :: q') (by simpa using h2 (sq :: q'))
    | cons sp p' =>
      cases d with
      | obj fs =>
        cases sq with
        | key ka =>
          cases sp with
          | key kp =>
            by_cases hk : kp = ka
            · subst hk
              cases hl : fs.lookup kp with
              | none => simp [setPath, setPathFields_of_lookup_none fs kp q' nv hl]
              | some v =>
                have e1 := lookup_setPathFields_self fs kp q' nv v hl
                have hp1 : ∀ r, p' ≠ q' ++ r := by
                  intro r hr
                  exact h1 r (by simp [hr])
                have hp2 : ∀ r, q' ≠ p' ++ r := by
                  intro r hr
                  exact h2 r (by simp [hr])
                simp [setPath, getPath, e1, hl, ih p' v nv hp1 hp2]
            · simp [setPath, getPath, lookup_setPathFields_ne fs ka kp q' nv hk]
          | idx i => simp [setPath, getPath]
        | idx i => simp [setPath]
      | arr xs =>
        cases sq with
        | key ka => simp [setPath]
        | idx i =>
          cases sp with
          | key kp => simp [setPath, getPath]
          | idx j =>
            by_cases hj : j = i
            · subst hj
              cases hl : xs.get? j with
              | none => simp [setPath, setPathElems_of_get?_none xs j q' nv hl]
              | some v =>
                have e1 := get?_setPathElems_self xs j q' nv v hl
                have hp1 : ∀ r, p' ≠ q' ++ r := by
                  intro r hr
                  exact h1 r (by simp [hr])
                have hp2 : ∀ r, q' ≠ p' ++ r := by
                  intro r hr
                  exact h2 r (by simp [hr])
                simp [setPath, getPath, e1, hl, ih p' v nv hp1 hp2]
            · simp [setPath, getPath, get?_setPathElems_ne xs i j q' nv hj]
      | null => simp [setPath]
      | bool b => simp [setPath]
      | int n => simp [setPath]
      | str s => simp [setPath]

theorem findKey_empty_lookup (k : String) (ie : Bool) (a : String) (w : Value) :
    ∀ fs : Fields, findKeyFields k ie fs = [] → fs.lookup a = some w →
      findKey k ie w = [] := by
  intro fs
  induction fs with
  | nil => intro _ hl; simp [Fields.lookup] at hl
  | cons x v tl ih =>
    intro h hl
    simp [findKeyFields] at h
    by_cases hx : x = a
    · subst hx
      simp [Fields.lookup] at hl
      subst hl
      exact h.2.1
    · simp [Fields.lookup, hx] at hl
      exact ih h.2.2 hl

theorem findKey_empty_get? (k : String) (ie : Bool) (w : Value) :
    ∀ (xs : Elems) (off i : Nat), findKeyElems k ie off xs = [] → xs.get? i = some w →
      findKey k ie w = [] := by
  intro xs
  induction xs with
  | nil => intro off i _ hl; simp [Elems.get?] at hl
  | cons v tl ih =>
    intro off i h hl
    simp [findKeyElems] at h
    cases i with
    | zero =>
      simp [Elems.get?] at hl
      subst hl
      exact h.1
    | succ n =>
      simp [Elems.get?] at hl
      exact ih (off + 1) n h.2 hl

theorem findKey_empty_getPath (k : String) (ie : Bool) :
    ∀ (p : Path) (d w : Value), findKey k ie d = [] → getPath d p = some w →
      findKey k ie w = [] := by
  intro p
  induction p with
  | nil =>
    intro d w h hg
    simp [getPath] at hg
    exact hg ▸ h
  | cons seg p' ih =>
    intro d w h hg
    cases d with
    | obj fs =>
      cases seg with
      | key a =>
        cases hl : fs.lookup a with
        | none => simp [getPath, hl] at hg
        | some v =>
          simp [getPath, hl] at hg
          have hv : findKey k ie v = [] :=
            findKey_empty_lookup k ie a v fs (by simpa [findKey] using h) hl
          exact ih v w hv hg
      | idx i => simp [getPath] at hg
    | arr xs =>
      cases seg with
      | key a => simp [getPath] at hg
      | idx i =>
        cases hl : xs.get? i with
        | none => simp [getPath, hl] at hg
        | some v =>
          simp [getPath, hl] at hg
          have hv : findKey k ie v = [] :=
            findKey_empty_get? k ie v xs 0 i (by simpa [findKey] using h) hl
          exact ih v w hv hg
    | null => simp [getPath] at hg
    | bool b => simp [getPath] at hg
    | int n => simp [getPath] at hg
    | str s => simp [getPath] at hg

theorem findKeyFields_cons_eq_nil (k : String) (ie : Bool) (x : String) (v : Value)
    (tl : Fields) :
    findKeyFields k ie (.cons x v tl) = [] ↔
      x ≠ k ∧ findKey k ie v = [] ∧ findKeyFields k ie tl = [] := by
  by_cases hx : x = k
  · subst hx
    cases ie <;> simp [findKeyFields]
  · simp [findKeyFields, hx]

theorem findKeyElems_cons_eq_nil (k : String) (ie : Bool) (off : Nat) (v : Value)
    (tl : Elems) :
    findKeyElems k ie off (.cons v tl) = [] ↔
      findKey k ie v = [] ∧ findKeyElems k ie (off + 1) tl = [] := by
  simp [findKeyElems]

theorem findKey_setPath_empty (k : String) (ie : Bool) (s : Value) :
    ∀ (L : Path) (d w : Value), findKey k ie d = [] → getPath d L = some w →
      findKey k ie (setPath d L s) = (findKey k ie s).map (fun p => L ++ p) := by
  intro L
  induction L with
  | nil => intro d w _ _; simp [setPath]
  | cons seg rest ih =>
    intro d w h hg
    cases d with
    | obj fs =>
      cases seg with
      | key a =>
        cases hl : fs.lookup a with
        | none => simp [getPath, hl] at hg
        | some v =>
          simp [getPath, hl] at hg
          have h' : findKeyFields k ie fs = [] := by simpa [findKey] using h
          have inner : ∀ fs' : Fields, findKeyFields k ie fs' = [] →
              fs'.lookup a = some v →
              findKeyFields k ie (setPathFields fs' a rest s)
                = (findKey k ie s).map (fun p => Seg.key a :: (rest ++ p)) := by
            intro fs'
            induction fs' with
            | nil => intro _ hl2; simp [Fields.lookup] at hl2
            | cons x v' tl ihf =>
              intro h2 hl2
              rw [findKeyFields_cons_eq_nil] at h2
              by_cases hx : x = a
              · subst hx
                simp [Fields.lookup] at hl2
                subst hl2
                simp [setPathFields, findKeyFields, h2.1, h2.2.2,
                      ih v' w h2.2.1 hg, List.map_map]
              · simp [Fields.lookup, hx] at hl2
                simp [setPathFields, hx, findKeyFields, h2.1, h2.2.1,
                      ihf h2.2.2 hl2]
          simp [setPath, findKey, inner fs h' hl, List.cons_append]
      | idx i => simp [getPath] at hg
    | arr xs =>
      cases seg with
      | key a => simp [getPath] at hg
      | idx i =>
        cases hl : xs.get? i with
        | none => simp [getPath, hl] at hg
        | some v =>
          simp [getPath, hl] at hg
          have h' : findKeyElems k ie 0 xs = [] := by simpa [findKey] using h
          have inner : ∀ (xs' : Elems) (off j : Nat) (w' : Value),
              findKeyElems k ie off xs' = [] → xs'.get? j = some w' →
              getPath w' rest = some w →
              findKeyElems k ie off (setPathElems xs' j rest s)
                = (findKey k ie s).map (fun p => Seg.idx (off + j) :: (rest ++ p)) := by
            intro xs'
            induction xs' with
            | nil => intro off j w' _ hl2; simp [Elems.get?] at hl2
            | cons v' tl ihx =>
              intro off j w' h2 hl2 hg2
              rw [findKeyElems_cons_eq_nil] at h2
              cases j with
              | zero =>
                simp [Elems.get?] at hl2
                subst hl2
                simp [setPathElems, findKeyElems, h2.2,
                      ih v' w h2.1 hg2, List.map_map]
              | succ n =>
                simp [Elems.get?] at hl2
                have e1 := ihx (off + 1) n w' h2.2 hl2 hg2
                simp [setPathElems, findKeyElems, h2.1, e1]
                exact fun a _ => by omega
          have := inner xs 0 i v h' hl hg
          simp [setPath, findKey, this, List.cons_append]
    | null => simp [getPath] at hg
    | bool b => simp [getPath] at hg
    | int n => simp [getPath] at hg
    | str s => simp [getPath] at hg

mutual
/-- Every location `find_key` returns with `include_end=True` ends in the
searched key. -/
theorem findKey_ends (k : String) :
    ∀ (v : Value) (p : Path), p ∈ findKey k true v → ∃ q, p = q ++ [Seg.key k]
  | .null, p => by simp [findKey]
  | .bool _, p => by simp [findKey]
  | .int _, p => by simp [findKey]
  | .str _, p => by simp [findKey]
  | .obj fs, p => fun hp => findKeyFields_ends k fs p (by simpa [findKey] using hp)
  | .arr xs, p => fun hp => findKeyElems_ends k 0 xs p (by simpa [findKey] using hp)

/-- `findKey_ends` over object entries. -/
theorem findKeyFields_ends (k : String) :
    ∀ (fs : Fields) (p : Path), p ∈ findKeyFields k true fs → ∃ q, p = q ++ [Seg.key k]
  | .nil, p => by simp [findKeyFields]
  | .cons x v tl, p => by
      intro hp
      simp only [findKeyFields, List.mem_append] at hp
      rcases hp with (hp | hp) | hp
      · by_cases hx : x = k
        · subst hx
          simp at hp
          exact ⟨[], by simp [hp]⟩
        · simp [hx] at hp
      · simp only [List.mem_map] at hp
        rcases hp with ⟨a, ha, rfl⟩
        rcases findKey_ends k v a ha with ⟨q, rfl⟩
        exact ⟨Seg.key x :: q, by simp⟩
      · exact findKeyFields_ends k tl p hp

/-- `findKey_ends` over array elements. -/
theorem findKeyElems_ends (k : String) :
    ∀ (i : Nat) (xs : Elems) (p : Path), p ∈ findKeyElems k true i xs →
      ∃ q, p = q ++ [Seg.key k]
  | _, .nil, p => by simp [findKeyElems]
  | i, .cons v tl, p => by
      intro hp
      simp only [findKeyElems, List.mem_append] at hp
      rcases hp with hp | hp
      · simp only [List.mem_map] at hp
        rcases hp with ⟨a, ha, rfl⟩
        rcases findKey_ends k v a ha with ⟨q, rfl⟩
        exact ⟨Seg.idx i :: q, by simp⟩
      · exact findKeyElems_ends k (i + 1) tl p hp
end

/-- A location returned for a searched key never starts at a top-level
field that is named in `names` but holds a scalar, provided the searched
key is not itself one of those names.  In particular such a write cannot
go through the top-level `uuid`/`index` identity fields. -/
theorem findKeyFields_head_notin (f t : String) (names : List String)
    (hft : f ≠ t) (ht : t ∈ names) :
    ∀ fs : Fields, topScalarF names fs = true →
      ∀ p ∈ findKeyFields f true fs, p.head? ≠ some (Seg.key t) := by
  intro fs
  induction fs with
  | nil => simp [findKeyFields]
  | cons x v tl ih =>
    intro hsc p hp
    simp only [topScalarF, Bool.and_eq_true] at hsc
    simp only [findKeyFields, List.mem_append] at hp
    rcases hp with (hp | hp) | hp
    · by_cases hx : x = f
      · subst hx
        simp at hp
        subst hp
        simp
        intro h
        exact hft h
      · simp [hx] at hp
    · simp only [List.mem_map] at hp
      rcases hp with ⟨a, ha, rfl⟩
      by_cases hx : x = t
      · subst hx
        have hv : v.isScalar = true := by
          have := hsc.1
          simpa [ht] using this
        rw [findKey_scalar f true v hv] at ha
        simp at ha
      · simp
        intro h
        exact hx h
    · exact ih hsc.2 p hp

/-! ## Lemmas about upserts and the write pipeline -/

theorem upsertOne_length_of_present (kf : List String) (d : Value) :
    ∀ coll : List Value, (∃ c ∈ coll, keyVals kf c = keyVals kf d) →
      (upsertOne kf coll d).length = coll.length := by
  intro coll
  induction coll with
  | nil => simp
  | cons c tl ih =>
    intro h
    by_cases hc : keyVals kf c = keyVals kf d
    · simp [upsertOne, hc]
    · rcases h with ⟨c', hc', he⟩
      rcases List.mem_cons.mp hc' with rfl | hmem
      · exact absurd he hc
      · simp [upsertOne, hc, ih ⟨c', hmem, he⟩]

theorem upsertOne_of_fresh (kf : List String) (d : Value) :
    ∀ coll : List Value, (∀ c ∈ coll, keyVals kf c ≠ keyVals kf d) →
      upsertOne kf coll d = coll ++ [d] := by
  intro coll
  induction coll with
  | nil => simp [upsertOne]
  | cons c tl ih =>
    intro h
    have hc : keyVals kf c ≠ keyVals kf d := h c (by simp)
    simp [upsertOne, hc, ih (fun c' hc' => h c' (by simp [hc']))]

theorem upsertOne_kv_present (kf : List String) (d : Value) (κ : List (Option Value)) :
    ∀ coll : List Value, (∃ c ∈ coll, keyVals kf c = κ) →
      ∃ c ∈ upsertOne kf coll d, keyVals kf c = κ := by
  intro coll
  induction coll with
  | nil => simp
  | cons c tl ih =>
    intro h
    by_cases hc : keyVals kf c = keyVals kf d
    · rcases h with ⟨c', hc', he⟩
      rcases List.mem_cons.mp hc' with rfl | hmem
      · exact ⟨d, by simp [upsertOne, hc], by rw [← he, hc]⟩
      · exact ⟨c', by simp [upsertOne, hc, hmem], he⟩
    · rcases h with ⟨c', hc', he⟩
      rcases List.mem_cons.mp hc' with rfl | hmem
      · exact ⟨c', by simp [upsertOne, hc], he⟩
      · rcases ih ⟨c', hmem, he⟩ with ⟨c'', hc'', he''⟩
        exact ⟨c'', by simp [upsertOne, hc, hc''], he''⟩

theorem upsertOne_self_present (kf : List String) (d : Value) :
    ∀ coll : List Value, ∃ c ∈ upsertOne kf coll d, keyVals kf c = keyVals kf d := by
  intro coll
  induction coll with
  | nil => exact ⟨d, by simp [upsertOne], rfl⟩
  | cons c tl ih =>
    by_cases hc : keyVals kf c = keyVals kf d
    · exact ⟨d, by simp [upsertOne, hc], rfl⟩
    · rcases ih with ⟨c', hc', he⟩
      exact ⟨c', by simp [upsertOne, hc, hc'], he⟩

theorem mem_upsertOne (kf : List String) (d x : Value) :
    ∀ coll : List Value, x ∈ upsertOne kf coll d → x ∈ coll ∨ x = d := by
  intro coll
  induction coll with
  | nil => simp [upsertOne]
  | cons c tl ih =>
    intro h
    by_cases hc : keyVals kf c = keyVals kf d
    · simp [upsertOne, hc] at h
      rcases h with rfl | h
      · exact Or.inr rfl
      · exact Or.inl (by simp [h])
    · simp [upsertOne, hc] at h
      rcases h with rfl | h
      · exact Or.inl (by simp)
      · rcases ih h with h1 | h1
        · exact Or.inl (by simp [h1])
        · exact Or.inr h1

theorem collUpdate_kv_present (kf : List String) (κ : List (Option Value)) :
    ∀ (ds coll : List Value), (∃ c ∈ coll, keyVals kf c = κ) →
      ∃ c ∈ collUpdate kf coll ds, keyVals kf c = κ := by
  intro ds
  induction ds with
  | nil => intro coll h; simpa [collUpdate] using h
  | cons d tl ih =>
    intro coll h
    have h1 := upsertOne_kv_present kf d κ coll h
    simpa [collUpdate] using ih (upsertOne kf coll d) h1

theorem collUpdate_self_present (kf : List String) :
    ∀ (ds coll : List Value) (d : Value), d ∈ ds →
      ∃ c ∈ collUpdate kf coll ds, keyVals kf c = keyVals kf d := by
  intro ds
  induction ds with
  | nil => intro coll d h; simp at h
  | cons d0 tl ih =>
    intro coll d h
    rcases List.mem_cons.mp h with rfl | hmem
    · have h1 := upsertOne_self_present kf d coll
      simpa [collUpdate] using collUpdate_kv_present kf (keyVals kf d) tl _ h1
    · simpa [collUpdate] using ih (upsertOne kf coll d0) d hmem

theorem collUpdate_length_of_present (kf : List String) :
    ∀ (ds coll : List Value), (∀ d ∈ ds, ∃ c ∈ coll, keyVals kf c = keyVals kf d) →
      (collUpdate kf coll ds).length = coll.length := by
  intro ds
  induction ds with
  | nil => intro coll _; simp [collUpdate]
  | cons d tl ih =>
    intro coll h
    have hd := h d (by simp)
    have hlen := upsertOne_length_of_present kf d coll hd
    have hrest : ∀ d' ∈ tl, ∃ c ∈ upsertOne kf coll d, keyVals kf c = keyVals kf d' :=
      fun d' hd' => upsertOne_kv_present kf d _ coll (h d' (by simp [hd']))
    simpa [collUpdate, hlen] using ih (upsertOne kf coll d) hrest

theorem collUpdate_of_fresh (kf : List String) :
    ∀ (ds coll : List Value), (∀ d ∈ ds, ∀ c ∈ coll, keyVals kf c ≠ keyVals kf d) →
      ds.Pairwise (fun a b => keyVals kf a ≠ keyVals kf b) →
      collUpdate kf coll ds = coll ++ ds := by
  intro ds
  induction ds with
  | nil => intro coll _ _; simp [collUpdate]
  | cons d tl ih =>
    intro coll h hp
    have hd : upsertOne kf coll d = coll ++ [d] :=
      upsertOne_of_fresh kf d coll (fun c hc => h d (by simp) c hc)
    have hrest : ∀ d' ∈ tl, ∀ c ∈ coll ++ [d], keyVals kf c ≠ keyVals kf d' := by
      intro d' hd' c hc
      rcases List.mem_append.mp hc with hc1 | hc1
      · exact h d' (by simp [hd']) c hc1
      · have : c = d := by simpa using hc1
        subst this
        exact (List.pairwise_cons.mp hp).1 d' hd'
    have := ih (coll ++ [d]) hrest (List.pairwise_cons.mp hp).2
    simp [collUpdate, hd] at this ⊢
    simpa [List.append_assoc] using this

theorem mem_collUpdate (kf : List String) (x : Value) :
    ∀ (ds coll : List Value), x ∈ collUpdate kf coll ds → x ∈ coll ∨ x ∈ ds := by
  intro ds
  induction ds with
  | nil => intro coll h; exact Or.inl (by simpa [collUpdate] using h)
  | cons d tl ih =>
    intro coll h
    rcases ih (upsertOne kf coll d) (by simpa [collUpdate] using h) with h1 | h1
    · rcases mem_upsertOne kf d x coll h1 with h2 | h2
      · exact Or.inl h2
      · exact Or.inr (by simp [h2])
    · exact Or.inr (by simp [h1])

theorem withIdx_length (l : List α) : ∀ off : Nat, (withIdx off l).length = l.length := by
  induction l with
  | nil => intro off; simp [withIdx]
  | cons x tl ih => intro off; simp [withIdx, ih]

theorem withIdx_mem_fst (l : List α) :
    ∀ (off : Nat) (p : Nat × α), p ∈ withIdx off l → off ≤ p.1 ∧ p.1 < off + l.length := by
  induction l with
  | nil => intro off p h; simp [withIdx] at h
  | cons x tl ih =>
    intro off p h
    simp [withIdx] at h
    rcases h with rfl | h
    · simp
    · have := ih (off + 1) p h
      constructor
      · omega
      · simp
        omega

theorem withIdx_pairwise (l : List α) :
    ∀ off : Nat, List.Pairwise (fun a b => a.1 < b.1) (withIdx off l) := by
  induction l with
  | nil => intro off; simp [withIdx]
  | cons x tl ih =>
    intro off
    simp [withIdx]
    constructor
    · intro a b h
      have := withIdx_mem_fst tl (off + 1) (a, b) h
      simp at this
      omega
    · exact ih (off + 1)

theorem pyget_fullBlob_id (o u i idv : Value) :
    pyget (fullBlob o u i idv) "blob_uuid" = some idv := rfl

theorem pyget_fullBlob_data (o u i idv : Value) :
    pyget (fullBlob o u i idv) "data" = some o := rfl

theorem offloadDoc_blobs_length (sk : List String) (ctr : Nat) (doc : Value) :
    (offloadDoc sk ctr doc).2.1.length = offLocs sk doc := by
  simp [offloadDoc, offLocs, withIdx_length]

theorem offloadDoc_ctr (sk : List String) (ctr : Nat) (doc : Value) :
    (offloadDoc sk ctr doc).2.2 = ctr + offLocs sk doc := by
  simp [offloadDoc, offLocs]

theorem offloadDoc_blob_id (sk : List String) (ctr : Nat) (doc b : Value) :
    b ∈ (offloadDoc sk ctr doc).2.1 →
      ∃ j, j < offLocs sk doc ∧ pyget b "blob_uuid" = some (.int (Int.ofNat (ctr + j))) := by
  intro h
  simp [offloadDoc, List.mem_map] at h
  rcases h with ⟨j, loc, hmem, rfl⟩
  have := withIdx_mem_fst _ 0 (j, loc) hmem
  simp at this
  exact ⟨j, by simpa [offLocs] using this, pyget_fullBlob_id _ _ _ _⟩

theorem offloadDoc_blobs_pairwise (sk : List String) (ctr : Nat) (doc : Value) :
    List.Pairwise (fun a b => keyVals ["blob_uuid"] a ≠ keyVals ["blob_uuid"] b)
      (offloadDoc sk ctr doc).2.1 := by
  have base := withIdx_pairwise (sk.flatMap (fun k => findKey k true doc)) 0
  simp only [offloadDoc, List.map_map]
  rw [List.pairwise_map]
  refine base.imp ?_
  intro a b hab
  simp [keyVals, pyget_fullBlob_id]
  omega

theorem procList_ctr (sk : List String) :
    ∀ (ds : List Value) (ctr : Nat),
      (procList sk ctr ds).2.2 = ctr + (ds.map (offLocs sk)).sum := by
  intro ds
  induction ds with
  | nil => intro ctr; simp [procList]
  | cons d tl ih =>
    intro ctr
    simp [procList, ih, offloadDoc_ctr]
    omega

theorem procList_blobs_length (sk : List String) :
    ∀ (ds : List Value) (ctr : Nat),
      (procList sk ctr ds).2.1.length = (ds.map (offLocs sk)).sum := by
  intro ds
  induction ds with
  | nil => intro ctr; simp [procList]
  | cons d tl ih =>
    intro ctr
    simp [procList, ih, offloadDoc_blobs_length]

theorem procList_blob_id (sk : List String) :
    ∀ (ds : List Value) (ctr : Nat) (b : Value), b ∈ (procList sk ctr ds).2.1 →
      ∃ m : Nat, ctr ≤ m ∧ m < (procList sk ctr ds).2.2 ∧
        pyget b "blob_uuid" = some (.int (Int.ofNat m)) := by
  intro ds
  induction ds with
  | nil => intro ctr b h; simp [procList] at h
  | cons d tl ih =>
    intro ctr b h
    simp [procList] at h
    rcases h with h | h
    · rcases offloadDoc_blob_id sk ctr d b h with ⟨j, hj, hid⟩
      refine ⟨ctr + j, by omega, ?_, hid⟩
      rw [procList_ctr]
      simp only [List.map_cons, List.sum_cons]
      omega
    · rcases ih (offloadDoc sk ctr d).2.2 b h with ⟨m, hm1, hm2, hid⟩
      refine ⟨m, ?_, by simpa [procList] using hm2, hid⟩
      rw [offloadDoc_ctr] at hm1
      omega

theorem procList_blobs_pairwise (sk : List String) :
    ∀ (ds : List Value) (ctr : Nat),
      List.Pairwise (fun a b => keyVals ["blob_uuid"] a ≠ keyVals ["blob_uuid"] b)
        (procList sk ctr ds).2.1 := by
  intro ds
  induction ds with
  | nil => intro ctr; simp [procList]
  | cons d tl ih =>
    intro ctr
    simp only [procList]
    rw [List.pairwise_append]
    refine ⟨offloadDoc_blobs_pairwise sk ctr d, ih _, ?_⟩
    intro a ha b hb
    rcases offloadDoc_blob_id sk ctr d a ha with ⟨j, hj, hida⟩
    rcases procList_blob_id sk tl _ b hb with ⟨m, hm1, _, hidb⟩
    rw [offloadDoc_ctr] at hm1
    simp [keyVals, hida, hidb]
    omega

theorem procList_fst_mem (sk : List String) :
    ∀ (ds : List Value) (ctr : Nat) (x : Value), x ∈ (procList sk ctr ds).1 →
      ∃ doc ∈ ds, ∃ c, x = (offloadDoc sk c doc).1 := by
  intro ds
  induction ds with
  | nil => intro ctr x h; simp [procList] at h
  | cons d tl ih =>
    intro ctr x h
    simp [procList] at h
    rcases h with rfl | h
    · exact ⟨d, by simp, ctr, rfl⟩
    · rcases ih _ x h with ⟨doc, hdoc, c, rfl⟩
      exact ⟨doc, by simp [hdoc], c, rfl⟩

theorem procList_fst_cover (sk : List String) :
    ∀ (ds : List Value) (ctr : Nat) (doc : Value), doc ∈ ds →
      ∃ c, (offloadDoc sk c doc).1 ∈ (procList sk ctr ds).1 := by
  intro ds
  induction ds with
  | nil => intro ctr doc h; simp at h
  | cons d tl ih =>
    intro ctr doc h
    rcases List.mem_cons.mp h with rfl | hmem
    · exact ⟨ctr, by simp [procList]⟩
    · rcases ih (offloadDoc sk ctr d).2.2 doc hmem with ⟨c, hc⟩
      exact ⟨c, by simp [procList, hc]⟩

theorem pyget_updateInDictionary (t : String) :
    ∀ (upds : List (Path × Value)) (d0 : Value),
      (∀ pv ∈ upds, pv.1.head? ≠ some (Seg.key t) ∧ pv.1 ≠ []) →
      pyget (updateInDictionary d0 upds) t = pyget d0 t := by
  intro upds
  induction upds with
  | nil => intro d0 _; simp [updateInDictionary]
  | cons pv tl ih =>
    intro d0 h
    have h0 := h pv (by simp)
    cases hL : pv.1 with
    | nil => exact absurd hL h0.2
    | cons seg rest =>
      have hseg : seg ≠ Seg.key t := by
        intro e
        exact h0.1 (by simp [hL, e])
      have step : pyget (setPath d0 pv.1 pv.2) t = pyget d0 t := by
        rw [hL]
        exact pyget_setPath_head_ne d0 seg rest pv.2 t hseg
      have := ih (setPath d0 pv.1 pv.2) (fun pv' hpv' => h pv' (by simp [hpv']))
      simpa [updateInDictionary, step] using this

theorem withIdx_mem_snd (l : List α) :
    ∀ (off : Nat) (p : Nat × α), p ∈ withIdx off l → p.2 ∈ l := by
  induction l with
  | nil => intro off p h; simp [withIdx] at h
  | cons x tl ih =>
    intro off p h
    simp [withIdx] at h
    rcases h with rfl | h
    · simp
    · simp [ih (off + 1) p h]

theorem pyget_offloadDoc (sk : List String) (ctr : Nat) (doc : Value) (t : String)
    (htop : topScalar ["uuid", "index"] doc = true)
    (ht : t = "uuid" ∨ t = "index")
    (hsk : ∀ f ∈ sk, f ≠ "uuid" ∧ f ≠ "index") :
    pyget (offloadDoc sk ctr doc).1 t = pyget doc t := by
  cases doc with
  | obj fs =>
    apply pyget_updateInDictionary
    intro pv hpv
    simp only [offloadDoc, List.mem_map] at hpv
    rcases hpv with ⟨iloc, hmem, he⟩
    have hloc : iloc.2 ∈ sk.flatMap (fun k => findKey k true (Value.obj fs)) :=
      withIdx_mem_snd _ 0 iloc hmem
    rw [List.mem_flatMap] at hloc
    rcases hloc with ⟨f, hf, hfind⟩
    have hfind' : iloc.2 ∈ findKeyFields f true fs := by simpa [findKey] using hfind
    have hft : f ≠ t := by
      rcases ht with rfl | rfl
      · exact (hsk f hf).1
      · exact (hsk f hf).2
    have htn : t ∈ ["uuid", "index"] := by
      rcases ht with rfl | rfl <;> simp
    have hhd := findKeyFields_head_notin f t ["uuid", "index"] hft htn fs
      (by simpa [topScalar] using htop) iloc.2 hfind'
    have hne : iloc.2 ≠ [] := by
      rcases findKeyFields_ends f fs iloc.2 hfind' with ⟨q, hq⟩
      simp [hq]
    rw [← he]
    exact ⟨hhd, hne⟩
  | null => simp [topScalar] at htop
  | bool b => simp [topScalar] at htop
  | int n => simp [topScalar] at htop
  | str s => simp [topScalar] at htop
  | arr xs => simp [topScalar] at htop

theorem update_eq_of_saving (s : State) (ds : List Value) (kg : Bool) (sv : Option SaveArg)
    (h : (resolveSave s.save sv).isEmpty = false) :
    update s ds kg sv =
      { docs := collUpdate (if kg then ["uuid", "index"] else ["uuid"]) s.docs
          (procList (resolveSave s.save sv) s.ctr ds).1,
        data := collUpdate ["blob_uuid"] s.data
          (procList (resolveSave s.save sv) s.ctr ds).2.1,
        ctr := (procList (resolveSave s.save sv) s.ctr ds).2.2,
        save := s.save, load := s.load } := by
  simp [update, h]

theorem keyVals_offloadDoc (sk kf : List String) (ctr : Nat) (doc : Value)
    (htop : topScalar ["uuid", "index"] doc = true)
    (hkf : ∀ t ∈ kf, t = "uuid" ∨ t = "index")
    (hsk : ∀ f ∈ sk, f ≠ "uuid" ∧ f ≠ "index") :
    keyVals kf (offloadDoc sk ctr doc).1 = keyVals kf doc := by
  unfold keyVals
  refine List.map_congr_left ?_
  intro t ht
  exact pyget_offloadDoc sk ctr doc t htop (hkf t ht) hsk

theorem update_retry_docs_stable_data_grows (s : State) (batch : List Value)
    (kg : Bool) (sv : Option SaveArg)
    (hWF : blobIdsBelow s.ctr s.data)
    (hSK : resolveSave s.save sv ≠ [])
    (htop : ∀ d ∈ batch, topScalar ["uuid", "index"] d = true)
    (hsk : ∀ f ∈ resolveSave s.save sv, f ≠ "uuid" ∧ f ≠ "index") :
    (update (update s batch kg sv) batch kg sv).docs.length
        = (update s batch kg sv).docs.length ∧
    (update (update s batch kg sv) batch kg sv).data.length
        = (update s batch kg sv).data.length
          + (batch.map (offLocs (resolveSave s.save sv))).sum := by
  have hemp : (resolveSave s.save sv).isEmpty = false := by
    cases hS : resolveSave s.save sv with
    | nil => exact absurd hS hSK
    | cons a tl => rfl
  have hs1 := update_eq_of_saving s batch kg sv hemp
  set SK := resolveSave s.save sv with hSKdef
  set kf := if kg then ["uuid", "index"] else ["uuid"] with hkfdef
  have hkf : ∀ t ∈ kf, t = "uuid" ∨ t = "index" := by
    intro t ht
    cases kg <;> simp [hkfdef] at ht <;> tauto
  set proc1 := procList SK s.ctr batch with hp1
  set s1 := update s batch kg sv with hs1def
  have hs1docs : s1.docs = collUpdate kf s.docs proc1.1 := by rw [hs1]
  have hs1data : s1.data = collUpdate ["blob_uuid"] s.data proc1.2.1 := by rw [hs1]
  have hs1ctr : s1.ctr = proc1.2.2 := by rw [hs1]
  have hs1save : s1.save = s.save := by rw [hs1]
  have hemp1 : (resolveSave s1.save sv).isEmpty = false := by rw [hs1save]; exact hemp
  have hSK1 : resolveSave s1.save sv = SK := by rw [hs1save]
  have hs2 := update_eq_of_saving s1 batch kg sv hemp1
  rw [hSK1] at hs2
  set proc2 := procList SK s1.ctr batch with hp2
  constructor
  · -- document collection: every run-2 stub's key values are already present
    rw [hs2]
    simp only
    apply collUpdate_length_of_present
    intro x hx
    rcases procList_fst_mem SK batch s1.ctr x hx with ⟨doc, hdoc, c, rfl⟩
    have hkvx : keyVals kf (offloadDoc SK c doc).1 = keyVals kf doc :=
      keyVals_offloadDoc SK kf c doc (htop doc hdoc) hkf hsk
    rcases procList_fst_cover SK batch s.ctr doc hdoc with ⟨c1, hc1⟩
    have hkv1 : keyVals kf (offloadDoc SK c1 doc).1 = keyVals kf doc :=
      keyVals_offloadDoc SK kf c1 doc (htop doc hdoc) hkf hsk
    rcases collUpdate_self_present kf proc1.1 s.docs _ hc1 with ⟨cc, hcc, hkvc⟩
    refine ⟨cc, ?_, ?_⟩
    · rw [hs1docs]
      exact hcc
    · rw [hkvc, hkv1, hkvx]
  · -- blob collection: every run-2 blob id is fresh, so all are appended
    rw [hs2]
    simp only
    have hfresh : ∀ b ∈ proc2.2.1, ∀ c ∈ s1.data,
        keyVals ["blob_uuid"] c ≠ keyVals ["blob_uuid"] b := by
      intro b hb c hc
      rcases procList_blob_id SK batch s1.ctr b hb with ⟨m2, hm2a, _, hid2⟩
      rw [hs1data] at hc
      rcases mem_collUpdate ["blob_uuid"] c proc1.2.1 s.data hc with hc1 | hc1
      · intro he
        simp [keyVals, hid2] at he
        have hlt := hWF c hc1 (Int.ofNat m2) he
        rw [Int.ofNat_eq_coe] at hlt
        have hctr1 : s.ctr ≤ s1.ctr := by
          rw [hs1ctr, hp1, procList_ctr]
          omega
        omega
      · rcases procList_blob_id SK batch s.ctr c hc1 with ⟨m1, _, hm1b, hid1⟩
        intro he
        simp [keyVals, hid1, hid2] at he
        rw [← hp1] at hm1b
        rw [← hs1ctr] at hm1b
        omega
    have happ := collUpdate_of_fresh ["blob_uuid"] proc2.2.1 s1.data
      (fun d hd c hc => hfresh d hd c hc) (procList_blobs_pairwise SK batch s1.ctr)
    rw [happ]
    simp only [List.length_append]
    rw [hp2, procList_blobs_length]

/-- Claim C3 (code bug): `update` promises — and the spec states — upsert
keyed by the compound `(uuid, index)`, but the inverted guard
`if key is not None: key = ["uuid", "index"]` passes `None` through on the
default call, so the document collection upserts by its own key `uuid`
alone: of two documents sharing a uuid but differing in index, the second
overwrites the first.  Passing any explicit key (modelled by
`keyGiven = true`) yields the documented compound-key behaviour. -/
theorem update_default_key_collapses_indices :
    (update emptyStore [exDocA, exDocB] false none).docs = [exDocB] ∧
    (update emptyStore [exDocA, exDocB] true none).docs = [exDocA, exDocB] := by
  exact ⟨rfl, rfl⟩

/-- Claim C2 (counterexample): re-running the identical single-document
batch with save key `f` mints a fresh blob id and therefore adds a second
record to the blob collection, while the claim states the retry has no
additional effect on it. -/
theorem update_retry_adds_blob_record :
    (update emptyStore [exDoc] false (some (.skeys ["f"]))).data.length = 1 ∧
    (update (update emptyStore [exDoc] false (some (.skeys ["f"])))
        [exDoc] false (some (.skeys ["f"]))).data.length = 2 := by
  exact ⟨rfl, rfl⟩

/-- Claim C2 (witness): the amended retry theorem applied to a concrete
store and batch. -/
theorem update_retry_docs_stable_data_grows_witness :
    (blobIdsBelow emptyStore.ctr emptyStore.data ∧
      resolveSave emptyStore.save (some (.skeys ["f"])) ≠ [] ∧
      (∀ d ∈ [exDoc], topScalar ["uuid", "index"] d = true) ∧
      (∀ f ∈ resolveSave emptyStore.save (some (.skeys ["f"])), f ≠ "uuid" ∧ f ≠ "index")) ∧
    ((update (update emptyStore [exDoc] false (some (.skeys ["f"])))
        [exDoc] false (some (.skeys ["f"]))).docs.length
        = (update emptyStore [exDoc] false (some (.skeys ["f"]))).docs.length ∧
     (update (update emptyStore [exDoc] false (some (.skeys ["f"])))
        [exDoc] false (some (.skeys ["f"]))).data.length
        = (update emptyStore [exDoc] false (some (.skeys ["f"]))).data.length
          + ([exDoc].map (offLocs (resolveSave emptyStore.save (some (.skeys ["f"]))))).sum) :=
  ⟨⟨by intro b hb; simp [emptyStore] at hb, by decide, by decide, by decide⟩,
    update_retry_docs_stable_data_grows emptyStore [exDoc] false (some (.skeys ["f"]))
      (by intro b hb; simp [emptyStore] at hb) (by decide) (by decide) (by decide)⟩

/-! ## The write/read round trip -/

theorem path_head_ne_of_scalar (d : Value) (L : Path) (v U' : Value) (t f : String)
    (q : Path) (hv : getPath d L = some v) (htop : pyget d t = some U')
    (hUsc : U'.isScalar = true) (hlast : L = q ++ [Seg.key f]) (hft : f ≠ t) :
    ∀ seg rest, L = seg :: rest → seg ≠ Seg.key t := by
  intro seg rest hL he
  subst he
  cases d with
  | obj fs =>
    have hlk : fs.lookup t = some U' := htop
    rw [hL] at hv
    simp [getPath, hlk] at hv
    cases rest with
    | nil =>
      rw [hL] at hlast
      cases q with
      | nil =>
        simp at hlast
        exact hft hlast.symm
      | cons a tl => simp at hlast
    | cons seg' rest' => rw [getPath_scalar U' seg' rest' hUsc] at hv; cases hv
  | null => simp [pyget] at htop
  | bool b => simp [pyget] at htop
  | int n => simp [pyget] at htop
  | str s => simp [pyget] at htop
  | arr xs => simp [pyget] at htop

theorem findKey_fullBlob (o u i idv : Value) (hno : findKey "blob_uuid" false o = [])
    (hu : u.isScalar = true) (hi : i.isScalar = true) (hid : idv.isScalar = true) :
    findKey "blob_uuid" false (fullBlob o u i idv) = [[]] := by
  simp [fullBlob, vobj, listToFields, findKey, findKeyFields, hno,
        findKey_scalar "blob_uuid" false u hu, findKey_scalar "blob_uuid" false i hi,
        findKey_scalar "blob_uuid" false idv hid]

theorem projectDoc_fullBlob (o u i idv : Value) :
    projectDoc (some ["blob_uuid", "data"]) (fullBlob o u i idv)
      = vobj [("blob_uuid", idv), ("data", o)] := by
  simp [projectDoc, fullBlob, vobj, listToFields, projFields]

theorem offloadDoc_single (f : String) (ctr : Nat) (d : Value) (L : Path) (v U I : Value)
    (hfind : findKey f true d = [L]) (hv : getPath d L = some v)
    (hu : pyget d "uuid" = some U) (hi : pyget d "index" = some I) :
    offloadDoc [f] ctr d =
      (setPath d L (fullBlob v U I (.int (Int.ofNat ctr))),
       [fullBlob v U I (.int (Int.ofNat ctr))], ctr + 1) := by
  simp [offloadDoc, hfind, hv, hu, hi, withIdx, updateInDictionary]

theorem exceptBind_ok (a : α) (f : α → Except ε β) :
    (Except.ok a >>= f : Except ε β) = f a := rfl

theorem exceptPure (a : α) : (pure a : Except ε α) = Except.ok a := rfl

theorem resolveDoc_roundtrip (data : List Value) (d : Value) (L : Path) (v U I : Value)
    (n : Nat)
    (hv : getPath d L = some v)
    (hnb : findKey "blob_uuid" false d = [])
    (hU : U.isScalar = true) (hI : I.isScalar = true)
    (hfresh : ∀ b ∈ data, pyget b "blob_uuid" ≠ some (.int (Int.ofNat n))) :
    resolveDoc (.lbool true) (data ++ [fullBlob v U I (.int (Int.ofNat n))])
      (setPath d L (fullBlob v U I (.int (Int.ofNat n)))) = .ok d := by
  set FB := fullBlob v U I (.int (Int.ofNat n)) with hFB
  set DS := setPath d L FB with hDS
  have hnbv : findKey "blob_uuid" false v = [] :=
    findKey_empty_getPath "blob_uuid" false L d v hnb hv
  have hlocs : findKey "blob_uuid" false DS = [L] := by
    rw [hDS, hFB, findKey_setPath_empty "blob_uuid" false _ L d v hnb hv,
        findKey_fullBlob v U I (Value.int (Int.ofNat n)) hnbv hU hI rfl]
    simp
  have hget : getPath DS L = some FB := by
    rw [hDS]
    exact getPath_setPath_self L d v FB hv
  have hfet : docsCollQuery (data ++ [FB])
      [("blob_uuid", Cond.cin [Value.int (Int.ofNat n)])]
      (some ["blob_uuid", "data"]) none 0 0
      = [vobj [("blob_uuid", .int (Int.ofNat n)), ("data", v)]] := by
    have hfil : (data ++ [FB]).filter
        (matchesCrit [("blob_uuid", Cond.cin [Value.int (Int.ofNat n)])]) = [FB] := by
      rw [List.filter_append]
      have h1 : data.filter
          (matchesCrit [("blob_uuid", Cond.cin [Value.int (Int.ofNat n)])]) = [] := by
        apply List.filter_eq_nil_iff.mpr
        intro b hb
        simp [matchesCrit, condMatch]
        cases hbu : pyget b "blob_uuid" with
        | none => simp [condMatch]
        | some w =>
          simp [condMatch]
          intro he
          exact hfresh b hb (by rw [hbu, he, Int.ofNat_eq_coe])
      have h2 : List.filter
          (matchesCrit [("blob_uuid", Cond.cin [Value.int (Int.ofNat n)])]) [FB] = [FB] := by
        simp [matchesCrit, condMatch, hFB, pyget_fullBlob_id]
      rw [h1, h2]
      simp
    simp only [docsCollQuery, hfil]
    simp [hFB, projectDoc_fullBlob]
  simp only [resolveDoc, loadTruthy, if_pos]
  rw [hlocs]
  simp only [List.map_cons, List.map_nil, hget]
  simp only [filterBlobs]
  simp only [exceptBind_ok]
  simp only [List.foldl_cons, List.foldl_nil, dictInsert]
  simp only [hFB, pyget_fullBlob_id, Option.getD_some, List.map_cons, List.map_nil]
  rw [← hFB]
  rw [hfet]
  simp only [List.foldlM_cons, List.foldlM_nil]
  have hbu : pyget (vobj [("blob_uuid", Value.int (Int.ofNat n)), ("data", v)]) "blob_uuid"
      = some (.int (Int.ofNat n)) := rfl
  have hdat : pyget (vobj [("blob_uuid", Value.int (Int.ofNat n)), ("data", v)]) "data"
      = some v := rfl
  simp only [hbu, hdat]
  simp only [dictInsert, exceptPure, exceptBind_ok, List.mapM_cons, List.mapM_nil,
             lookupDict, if_pos]
  rw [hDS]
  simp only [updateInDictionary, List.foldl_cons, List.foldl_nil]
  rw [setPath_setPath, setPath_getPath_self L d v hv]

/-- Claim C1: writing a document that contains the SaveSpec field `f` at
one located position and reading it back by `(uuid, index)` with
`load=ALL` yields the original document — in particular its value at `f`
is restored.  The hypotheses delimit the setting the claim describes: the
field occurs at one position, the document carries scalar identity fields,
contains no stub sentinel of its own, the save key is not an identity
field, no stored document already matches the uuid, and the store's
fresh-id counter has not been forged. -/
theorem update_query_loadAll_roundtrip (s : State) (d : Value) (L : Path)
    (v U I : Value) (f : String) (kg : Bool)
    (hfind : findKey f true d = [L])
    (hv : getPath d L = some v)
    (hnb : findKey "blob_uuid" false d = [])
    (hu : pyget d "uuid" = some U) (hU : U.isScalar = true)
    (hi : pyget d "index" = some I) (hI : I.isScalar = true)
    (hfu : f ≠ "uuid") (hfi : f ≠ "index")
    (hno : ∀ c ∈ s.docs, condMatch (Cond.ceq U) (pyget c "uuid") = false)
    (hfresh : ∀ b ∈ s.data, pyget b "blob_uuid" ≠ some (.int (Int.ofNat s.ctr))) :
    query (update s [d] kg (some (.skeys [f])))
      [("uuid", Cond.ceq U), ("index", Cond.ceq I)] none none 0 0
      (some (.lbool true)) = .ok [d] := by
  have hLmem : L ∈ findKey f true d := by rw [hfind]; simp
  obtain ⟨q, hq⟩ := findKey_ends f d L hLmem
  obtain ⟨seg, rest, hLcons⟩ : ∃ seg rest, L = seg :: rest := by
    cases L with
    | nil => simp at hq
    | cons a b => exact ⟨a, b, rfl⟩
  have hsegu : seg ≠ Seg.key "uuid" :=
    path_head_ne_of_scalar d L v U "uuid" f q hv hu hU hq hfu seg rest hLcons
  have hsegi : seg ≠ Seg.key "index" :=
    path_head_ne_of_scalar d L v I "index" f q hv hi hI hq hfi seg rest hLcons
  set FB := fullBlob v U I (.int (Int.ofNat s.ctr)) with hFB
  set DS := setPath d L FB with hDS
  have hDSu : pyget DS "uuid" = some U := by
    rw [hDS, hLcons, pyget_setPath_head_ne d seg rest FB "uuid" hsegu]
    exact hu
  have hDSi : pyget DS "index" = some I := by
    rw [hDS, hLcons, pyget_setPath_head_ne d seg rest FB "index" hsegi]
    exact hi
  have hemp : (resolveSave s.save (some (.skeys [f]))).isEmpty = false := rfl
  have hupd := update_eq_of_saving s [d] kg (some (.skeys [f])) hemp
  have hresolve : resolveSave s.save (some (.skeys [f])) = [f] := rfl
  rw [hresolve] at hupd
  have hproc : procList [f] s.ctr [d] = ([DS], [FB], s.ctr + 1) := by
    simp [procList, offloadDoc_single f s.ctr d L v U I hfind hv hu hi, hDS, hFB]
  rw [hproc] at hupd
  have hdocs1 : (update s [d] kg (some (.skeys [f]))).docs = s.docs ++ [DS] := by
    rw [hupd]
    simp only [collUpdate, List.foldl_cons, List.foldl_nil]
    apply upsertOne_of_fresh
    intro c hc he
    have hcu : pyget c "uuid" = some U := by
      cases kg
      · simp [keyVals] at he
        rw [he, hDSu]
      · simp [keyVals] at he
        rw [he.1, hDSu]
    have := hno c hc
    rw [hcu] at this
    simp [condMatch] at this
  have hdata1 : (update s [d] kg (some (.skeys [f]))).data = s.data ++ [FB] := by
    rw [hupd]
    simp only [collUpdate, List.foldl_cons, List.foldl_nil]
    apply upsertOne_of_fresh
    intro c hc he
    simp [keyVals, hFB, pyget_fullBlob_id] at he
    exact hfresh c hc (by rw [he, Int.ofNat_eq_coe])
  have hfilter : (s.docs ++ [DS]).filter
      (matchesCrit [("uuid", Cond.ceq U), ("index", Cond.ceq I)]) = [DS] := by
    rw [List.filter_append]
    have h1 : s.docs.filter
        (matchesCrit [("uuid", Cond.ceq U), ("index", Cond.ceq I)]) = [] := by
      apply List.filter_eq_nil_iff.mpr
      intro c hc
      simp [matchesCrit, hno c hc]
    have h2 : List.filter
        (matchesCrit [("uuid", Cond.ceq U), ("index", Cond.ceq I)]) [DS] = [DS] := by
      simp [matchesCrit, condMatch, hDSu, hDSi]
    rw [h1, h2]
    simp
  have hq1 : query (update s [d] kg (some (.skeys [f])))
      [("uuid", Cond.ceq U), ("index", Cond.ceq I)] none none 0 0 (some (.lbool true))
      = (docsCollQuery (update s [d] kg (some (.skeys [f]))).docs
          [("uuid", Cond.ceq U), ("index", Cond.ceq I)] none none 0 0).mapM
          (resolveDoc (.lbool true) (update s [d] kg (some (.skeys [f]))).data) := rfl
  rw [hq1, hdocs1, hdata1]
  have hq2 : docsCollQuery (s.docs ++ [DS])
      [("uuid", Cond.ceq U), ("index", Cond.ceq I)] none none 0 0 = [DS] := by
    simp only [docsCollQuery, hfilter]
    simp [projectDoc]
  rw [hq2]
  simp only [List.mapM_cons, List.mapM_nil]
  rw [hDS, hFB, resolveDoc_roundtrip s.data d L v U I s.ctr hv hnb hU hI hfresh]
  rfl

/-- Claim C1 (witness): the round trip at a concrete store and document. -/
theorem update_query_loadAll_roundtrip_witness :
    (findKey "f" true exDoc = [[Seg.key "f"]] ∧
     getPath exDoc [Seg.key "f"] = some (.int 42) ∧
     findKey "blob_uuid" false exDoc = [] ∧
     pyget exDoc "uuid" = some (.str "u") ∧
     pyget exDoc "index" = some (.int 1)) ∧
    query (update emptyStore [exDoc] false (some (.skeys ["f"])))
      [("uuid", Cond.ceq (.str "u")), ("index", Cond.ceq (.int 1))] none none 0 0
      (some (.lbool true)) = .ok [exDoc] :=
  ⟨⟨by decide, by decide, by decide, by decide, by decide⟩,
   update_query_loadAll_roundtrip emptyStore exDoc [Seg.key "f"] (.int 42) (.str "u")
     (.int 1) "f" false
     (by decide) (by decide) (by decide) (by decide) rfl (by decide) rfl
     (by decide) (by decide)
     (by intro c hc; simp [emptyStore] at hc)
     (by intro b hb; simp [emptyStore] at hb)⟩

theorem mapM_resolveDoc_false (data : List Value) :
    ∀ l : List Value, l.mapM (resolveDoc (.lbool false) data) = .ok l := by
  intro l
  induction l with
  | nil => rfl
  | cons d tl ih =>
    rw [List.mapM_cons]
    have h1 : resolveDoc (.lbool false) data d = .ok d := rfl
    rw [h1, ih]
    rfl

theorem query_loadNone_filter (s' : State) (c' : Criteria) :
    query s' c' none none 0 0 (some (.lbool false))
      = .ok (s'.docs.filter (matchesCrit c')) := by
  have h1 : query s' c' none none 0 0 (some (.lbool false))
      = (docsCollQuery s'.docs c' none none 0 0).mapM
          (resolveDoc (.lbool false) s'.data) := rfl
  rw [h1]
  have h2 : docsCollQuery s'.docs c' none none 0 0
      = s'.docs.filter (matchesCrit c') := by
    have hp : projectDoc none = fun d : Value => d := funext fun d => rfl
    simp [docsCollQuery, hp]
  rw [h2, mapM_resolveDoc_false]

/-- A stub/blob record is never equal to the value it offloads: it contains
that value strictly inside its `data` entry. -/
theorem fullBlob_ne_data (o u i idv : Value) : fullBlob o u i idv ≠ o := by
  intro h
  have hs := congrArg sizeOf h
  simp [fullBlob, vobj, listToFields] at hs
  omega

/-- Claim C7: reading with `load=NONE` (`load=False`) yields stored
documents unchanged — in general the query returns exactly the raw
filtered documents and never consults the blob collection — and in
particular a freshly written document still holds the unresolved stub
record at the offloaded position, which is never the original value. -/
theorem query_loadNone_keeps_stubs (s : State) (d : Value) (L : Path)
    (v U I : Value) (f : String) (kg : Bool)
    (hfind : findKey f true d = [L])
    (hv : getPath d L = some v)
    (hu : pyget d "uuid" = some U) (hU : U.isScalar = true)
    (hi : pyget d "index" = some I) (hI : I.isScalar = true)
    (hfu : f ≠ "uuid") (hfi : f ≠ "index")
    (hno : ∀ c ∈ s.docs, condMatch (Cond.ceq U) (pyget c "uuid") = false) :
    (∀ (s' : State) (c' : Criteria),
        query s' c' none none 0 0 (some (.lbool false))
          = .ok (s'.docs.filter (matchesCrit c'))) ∧
    (∀ (s' : State) (c' : Criteria) (data' : List Value),
        query { s' with data := data' } c' none none 0 0 (some (.lbool false))
          = query s' c' none none 0 0 (some (.lbool false))) ∧
    query (update s [d] kg (some (.skeys [f])))
        [("uuid", Cond.ceq U), ("index", Cond.ceq I)] none none 0 0
        (some (.lbool false))
      = .ok [setPath d L (fullBlob v U I (.int (Int.ofNat s.ctr)))] ∧
    getPath (setPath d L (fullBlob v U I (.int (Int.ofNat s.ctr)))) L
      = some (fullBlob v U I (.int (Int.ofNat s.ctr))) ∧
    fullBlob v U I (.int (Int.ofNat s.ctr)) ≠ v := by
  refine ⟨query_loadNone_filter, ?_, ?_,
    getPath_setPath_self L d v _ hv, fullBlob_ne_data v U I _⟩
  · intro s' c' data'
    rw [query_loadNone_filter, query_loadNone_filter]
  · have hLmem : L ∈ findKey f true d := by rw [hfind]; simp
    obtain ⟨q, hq⟩ := findKey_ends f d L hLmem
    obtain ⟨seg, rest, hLcons⟩ : ∃ seg rest, L = seg :: rest := by
      cases L with
      | nil => simp at hq
      | cons a b => exact ⟨a, b, rfl⟩
    have hsegu : seg ≠ Seg.key "uuid" :=
      path_head_ne_of_scalar d L v U "uuid" f q hv hu hU hq hfu seg rest hLcons
    have hsegi : seg ≠ Seg.key "index" :=
      path_head_ne_of_scalar d L v I "index" f q hv hi hI hq hfi seg rest hLcons
    set FB := fullBlob v U I (.int (Int.ofNat s.ctr)) with hFB
    set DS := setPath d L FB with hDS
    have hDSu : pyget DS "uuid" = some U := by
      rw [hDS, hLcons, pyget_setPath_head_ne d seg rest FB "uuid" hsegu]
      exact hu
    have hDSi : pyget DS "index" = some I := by
      rw [hDS, hLcons, pyget_setPath_head_ne d seg rest FB "index" hsegi]
      exact hi
    have hemp : (resolveSave s.save (some (.skeys [f]))).isEmpty = false := rfl
    have hupd := update_eq_of_saving s [d] kg (some (.skeys [f])) hemp
    have hresolve : resolveSave s.save (some (.skeys [f])) = [f] := rfl
    rw [hresolve] at hupd
    have hproc : procList [f] s.ctr [d] = ([DS], [FB], s.ctr + 1) := by
      simp [procList, offloadDoc_single f s.ctr d L v U I hfind hv hu hi, hDS, hFB]
    rw [hproc] at hupd
    have hdocs1 : (update s [d] kg (some (.skeys [f]))).docs = s.docs ++ [DS] := by
      rw [hupd]
      simp only [collUpdate, List.foldl_cons, List.foldl_nil]
      apply upsertOne_of_fresh
      intro c hc he
      have hcu : pyget c "uuid" = some U := by
        cases kg
        · simp [keyVals] at he
          rw [he, hDSu]
        · simp [keyVals] at he
          rw [he.1, hDSu]
      have := hno c hc
      rw [hcu] at this
      simp [condMatch] at this
    have hfilter : (s.docs ++ [DS]).filter
        (matchesCrit [("uuid", Cond.ceq U), ("index", Cond.ceq I)]) = [DS] := by
      rw [List.filter_append]
      have h1 : s.docs.filter
          (matchesCrit [("uuid", Cond.ceq U), ("index", Cond.ceq I)]) = [] := by
        apply List.filter_eq_nil_iff.mpr
        intro c hc
        simp [matchesCrit, hno c hc]
      have h2 : List.filter
          (matchesCrit [("uuid", Cond.ceq U), ("index", Cond.ceq I)]) [DS] = [DS] := by
        simp [matchesCrit, condMatch, hDSu, hDSi]
      rw [h1, h2]
      simp
    rw [query_loadNone_filter, hdocs1, hfilter]

/-- Claim C7 (witness): the load-NONE read at a concrete store. -/
theorem query_loadNone_keeps_stubs_witness :
    (findKey "f" true exDoc = [[Seg.key "f"]] ∧
     getPath exDoc [Seg.key "f"] = some (.int 42)) ∧
    (query (update emptyStore [exDoc] false (some (.skeys ["f"])))
        [("uuid", Cond.ceq (.str "u")), ("index", Cond.ceq (.int 1))] none none 0 0
        (some (.lbool false))
      = .ok [setPath exDoc [Seg.key "f"]
          (fullBlob (.int 42) (.str "u") (.int 1) (.int (Int.ofNat emptyStore.ctr)))] ∧
     fullBlob (.int 42) (.str "u") (.int 1) (.int (Int.ofNat emptyStore.ctr)) ≠ .int 42) := by
  have h := query_loadNone_keeps_stubs emptyStore exDoc [Seg.key "f"] (.int 42)
    (.str "u") (.int 1) "f" false
    (by decide) (by decide) (by decide) rfl (by decide) rfl (by decide) (by decide)
    (by intro c hc; simp [emptyStore] at hc)
  exact ⟨⟨by decide, by decide⟩, h.2.2.1, h.2.2.2.2⟩

/-! ## Empty result sets and not-found conditions -/

theorem docsCollQuery_of_filter_nil (docs : List Value) (c : Criteria)
    (props : Option (List String)) (sort : Option (List (String × Int)))
    (skip limit : Nat) (h : docs.filter (matchesCrit c) = []) :
    docsCollQuery docs c props sort skip limit = [] := by
  cases sort <;> simp [docsCollQuery, h, sortBy]

theorem query_of_filter_nil (s : State) (c : Criteria) (props : Option (List String))
    (sort : Option (List (String × Int))) (skip limit : Nat) (load : Option LoadArg)
    (h : s.docs.filter (matchesCrit c) = []) :
    query s c props sort skip limit load = .ok [] := by
  have h1 : query s c props sort skip limit load
      = (docsCollQuery s.docs c (props.map (fun l => l ++ ["uuid", "index"]))
          sort skip limit).mapM (resolveDoc (load.getD s.load) s.data) := rfl
  rw [h1, docsCollQuery_of_filter_nil _ _ _ _ _ _ h]
  rfl

/-- Claim C6: a uuid with no stored documents makes `get_output` fail with
the not-found error for every `which` (including strings other than
`last`/`first`/`all`, which take the `all` branch), while `query_one` with
criteria matching no document returns an empty result rather than
failing. -/
theorem getOutput_missing_fails_queryOne_empty (s : State) (U : Value)
    (hno : s.docs.filter (matchesCrit [("uuid", Cond.ceq U)]) = []) :
    (∀ (which : String) (load : LoadArg),
        getOutput s U which load = .error "has not outputs") ∧
    (∀ (c : Criteria) (props : Option (List String))
        (sort : Option (List (String × Int))) (load : Option LoadArg),
        s.docs.filter (matchesCrit c) = [] →
        queryOne s c props sort load = .ok none) := by
  have hq1 : ∀ (c : Criteria) (props : Option (List String))
      (sort : Option (List (String × Int))) (load : Option LoadArg),
      s.docs.filter (matchesCrit c) = [] →
      queryOne s c props sort load = .ok none := by
    intro c props sort load h
    have h2 := query_of_filter_nil s c props sort 0 1 load h
    simp only [queryOne, h2]
    rfl
  refine ⟨?_, hq1⟩
  intro which load
  by_cases hw : which = "last" ∨ which = "first"
  · have h1 := hq1 [("uuid", Cond.ceq U)] (some ["output"])
      (some [("index", if which = "last" then -1 else 1)]) (some load) hno
    simp [getOutput, hw, h1]
  · have h1 := query_of_filter_nil s [("uuid", Cond.ceq U)] (some ["output"])
      (some [("index", -1)]) 0 0 (some load) hno
    simp [getOutput, hw, h1]

/-- Claim C6 (witness): an absent uuid at a concrete store. -/
theorem getOutput_missing_fails_queryOne_empty_witness :
    ((⟨[outDoc1, outDoc2], [], 0, [], .lbool false⟩ : State).docs.filter
        (matchesCrit [("uuid", Cond.ceq (.str "V"))]) = []) ∧
    (getOutput ⟨[outDoc1, outDoc2], [], 0, [], .lbool false⟩ (.str "V") "last"
        (.lbool false) = .error "has not outputs" ∧
     queryOne ⟨[outDoc1, outDoc2], [], 0, [], .lbool false⟩
        [("uuid", Cond.ceq (.str "V"))] none none none = .ok none) := by
  have h := getOutput_missing_fails_queryOne_empty
    ⟨[outDoc1, outDoc2], [], 0, [], .lbool false⟩ (.str "V") (by decide)
  exact ⟨by decide, h.1 "last" (.lbool false),
    h.2 [("uuid", Cond.ceq (.str "V"))] none none none (by decide)⟩

/-! ## Sorting lemmas -/

theorem insertSorted_perm (le : α → α → Bool) (x : α) :
    ∀ l : List α, (insertSorted le x l).Perm (x :: l) := by
  intro l
  induction l with
  | nil => simp [insertSorted]
  | cons y ys ih =>
    by_cases h : le x y
    · simp [insertSorted, h]
    · simp only [insertSorted, h]
      exact (ih.cons y).trans (List.Perm.swap x y ys)

theorem sortBy_perm (le : α → α → Bool) :
    ∀ l : List α, (sortBy le l).Perm l := by
  intro l
  induction l with
  | nil => simp [sortBy]
  | cons x xs ih =>
    exact ((insertSorted_perm le x (sortBy le xs)).trans (ih.cons x))

theorem mem_sortBy (le : α → α → Bool) (l : List α) (x : α) :
    x ∈ sortBy le l ↔ x ∈ l :=
  (sortBy_perm le l).mem_iff

theorem insertSorted_pairwise (le : α → α → Bool) (x : α) :
    ∀ l : List α, l.Pairwise (fun a b => le a b = true) →
      (∀ a ∈ l, le x a = true ∨ le a x = true) →
      (∀ a b, a ∈ l → b ∈ l → le x a = true → le a b = true → le x b = true) →
      (insertSorted le x l).Pairwise (fun a b => le a b = true) := by
  intro l
  induction l with
  | nil => intro _ _ _; simp [insertSorted]
  | cons y ys ih =>
    intro hp htot htr
    rcases List.pairwise_cons.mp hp with ⟨hy, hys⟩
    by_cases h : le x y = true
    · simp only [insertSorted, h, if_pos]
      refine List.pairwise_cons.mpr ⟨?_, hp⟩
      intro z hz
      rcases List.mem_cons.mp hz with rfl | hz'
      · exact h
      · exact htr y z (by simp) (by simp [hz']) h (hy z hz')
    · simp only [insertSorted, h, if_neg, Bool.not_eq_true]
      refine List.pairwise_cons.mpr ⟨?_, ?_⟩
      · intro w hw
        have hw' := (insertSorted_perm le x ys).mem_iff.mp hw
        rcases List.mem_cons.mp hw' with hwx | hw''
        · subst hwx
          rcases htot y (by simp) with h1 | h1
          · exact absurd h1 h
          · exact h1
        · exact hy w hw''
      · exact ih hys (fun a ha => htot a (by simp [ha]))
          (fun a b ha hb => htr a b (by simp [ha]) (by simp [hb]))

theorem sortBy_pairwise (le : α → α → Bool) :
    ∀ l : List α,
      (∀ a b, a ∈ l → b ∈ l → le a b = true ∨ le b a = true) →
      (∀ a b c, a ∈ l → b ∈ l → c ∈ l →
        le a b = true → le b c = true → le a c = true) →
      (sortBy le l).Pairwise (fun a b => le a b = true) := by
  intro l
  induction l with
  | nil => intro _ _; simp [sortBy]
  | cons x xs ih =>
    intro htot htr
    simp only [sortBy]
    refine insertSorted_pairwise le x (sortBy le xs)
      (ih (fun a b ha hb => htot a b (by simp [ha]) (by simp [hb]))
          (fun a b c ha hb hc => htr a b c (by simp [ha]) (by simp [hb]) (by simp [hc])))
      ?_ ?_
    · intro a ha
      exact htot x a (by simp) (by simp [(mem_sortBy le xs a).mp ha])
    · intro a b ha hb
      exact htr x a b (by simp) (by simp [(mem_sortBy le xs a).mp ha])
        (by simp [(mem_sortBy le xs b).mp hb])

theorem mongoLe_index_desc (a b : Value) (x y : Int)
    (ha : pyget a "index" = some (.int x)) (hb : pyget b "index" = some (.int y)) :
    (mongoSortCmp [("index", -1)] a b ≠ Ordering.gt) ↔ y ≤ x := by
  simp only [mongoSortCmp, cmpOpt, ha, hb, scalarCmp, cmpInt]
  norm_num
  split_ifs <;> simp [Ordering.swap] <;> omega

theorem mongoLe_index_asc (a b : Value) (x y : Int)
    (ha : pyget a "index" = some (.int x)) (hb : pyget b "index" = some (.int y)) :
    (mongoSortCmp [("index", 1)] a b ≠ Ordering.gt) ↔ x ≤ y := by
  simp only [mongoSortCmp, cmpOpt, ha, hb, scalarCmp, cmpInt]
  norm_num
  split_ifs <;> simp [Ordering.swap] <;> omega

theorem lookup_projFields_of_mem (allowed : List String) (t : String)
    (ht : t ∈ allowed) :
    ∀ fs : Fields, (projFields allowed fs).lookup t = fs.lookup t := by
  intro fs
  induction fs with
  | nil => simp [projFields]
  | cons k v tl ih =>
    by_cases hk : k ∈ allowed
    · by_cases hkt : k = t
      · subst hkt
        simp [projFields, hk, Fields.lookup]
      · simp [projFields, hk, Fields.lookup, hkt, ih]
    · have hkt : ¬ k = t := fun h => hk (h ▸ ht)
      simp [projFields, hk, Fields.lookup, hkt, ih]

theorem pyget_projectDoc_of_mem (l' : List String) (t : String) (ht : t ∈ l')
    (d : Value) : pyget (projectDoc (some l') d) t = pyget d t := by
  cases d <;> simp [projectDoc, pyget]
  exact lookup_projFields_of_mem l' t ht _

theorem allSome_map (l : List α) (f : α → Option β) (g : α → β)
    (h : ∀ x ∈ l, f x = some (g x)) : allSome (l.map f) = some (l.map g) := by
  induction l with
  | nil => simp [allSome]
  | cons x xs ih =>
    have hx := h x (by simp)
    simp only [List.map_cons, allSome, hx]
    rw [ih (fun y hy => h y (by simp [hy]))]
    rfl

theorem idxOf_eq (d : Value) (n : Int) (h : pyget d "index" = some (.int n)) :
    idxOf d = n := by
  simp [idxOf, h]

theorem outOf_eq (d : Value) (w : Value) (h : pyget d "output" = some w) :
    outOf d = w := by
  simp [outOf, h]

/-- Claim C5: with at least one stored document for the uuid,
`get_output` with `which="last"` returns the `output` of a document with
maximal `index` among the uuid's documents, `"first"` of one with minimal
`index`, and `"all"` the outputs of all of them ordered by descending
`index`. -/
theorem getOutput_first_last_all (s : State) (U : Value)
    (hint : ∀ d ∈ s.docs, ∃ n : Int, pyget d "index" = some (.int n))
    (hout : ∀ d ∈ s.docs, (pyget d "output").isSome = true)
    (hne : s.docs.filter (matchesCrit [("uuid", Cond.ceq U)]) ≠ []) :
    (∃ m ∈ s.docs.filter (matchesCrit [("uuid", Cond.ceq U)]),
      (∀ y ∈ s.docs.filter (matchesCrit [("uuid", Cond.ceq U)]), idxOf y ≤ idxOf m) ∧
      getOutput s U "last" (.lbool false) = .ok (outOf m)) ∧
    (∃ m ∈ s.docs.filter (matchesCrit [("uuid", Cond.ceq U)]),
      (∀ y ∈ s.docs.filter (matchesCrit [("uuid", Cond.ceq U)]), idxOf m ≤ idxOf y) ∧
      getOutput s U "first" (.lbool false) = .ok (outOf m)) ∧
    (∃ ds : List Value, ds.Perm (s.docs.filter (matchesCrit [("uuid", Cond.ceq U)])) ∧
      ds.Pairwise (fun a b => idxOf b ≤ idxOf a) ∧
      getOutput s U "all" (.lbool false) = .ok (varr (ds.map outOf))) := by
  set M := s.docs.filter (matchesCrit [("uuid", Cond.ceq U)]) with hM
  have hMsub : ∀ d ∈ M, d ∈ s.docs := fun d hd => (List.mem_filter.mp hd).1
  have hMint : ∀ d ∈ M, ∃ n : Int, pyget d "index" = some (.int n) :=
    fun d hd => hint d (hMsub d hd)
  -- descending order facts
  have hiffD : ∀ a ∈ M, ∀ b ∈ M,
      ((decide (mongoSortCmp [("index", -1)] a b ≠ Ordering.gt) : Bool) = true
        ↔ idxOf b ≤ idxOf a) := by
    intro a ha b hb
    obtain ⟨x, hx⟩ := hMint a ha
    obtain ⟨y, hy⟩ := hMint b hb
    rw [decide_eq_true_iff, mongoLe_index_desc a b x y hx hy,
        idxOf_eq a x hx, idxOf_eq b y hy]
  have hiffA : ∀ a ∈ M, ∀ b ∈ M,
      ((decide (mongoSortCmp [("index", 1)] a b ≠ Ordering.gt) : Bool) = true
        ↔ idxOf a ≤ idxOf b) := by
    intro a ha b hb
    obtain ⟨x, hx⟩ := hMint a ha
    obtain ⟨y, hy⟩ := hMint b hb
    rw [decide_eq_true_iff, mongoLe_index_asc a b x y hx hy,
        idxOf_eq a x hx, idxOf_eq b y hy]
  have hpwD : (sortBy (fun a b => mongoSortCmp [("index", -1)] a b ≠ Ordering.gt) M).Pairwise
      (fun a b => (decide (mongoSortCmp [("index", -1)] a b ≠ Ordering.gt) : Bool) = true) := by
    apply sortBy_pairwise
    · intro a b ha hb
      rw [hiffD a ha b hb, hiffD b hb a ha]
      omega
    · intro a b c ha hb hc
      rw [hiffD a ha b hb, hiffD b hb c hc, hiffD a ha c hc]
      omega
  have hpwA : (sortBy (fun a b => mongoSortCmp [("index", 1)] a b ≠ Ordering.gt) M).Pairwise
      (fun a b => (decide (mongoSortCmp [("index", 1)] a b ≠ Ordering.gt) : Bool) = true) := by
    apply sortBy_pairwise
    · intro a b ha hb
      rw [hiffA a ha b hb, hiffA b hb a ha]
      omega
    · intro a b c ha hb hc
      rw [hiffA a ha b hb, hiffA b hb c hc, hiffA a ha c hc]
      omega
  have hpermD := sortBy_perm (fun a b => mongoSortCmp [("index", -1)] a b ≠ Ordering.gt) M
  have hpermA := sortBy_perm (fun a b => mongoSortCmp [("index", 1)] a b ≠ Ordering.gt) M
  refine ⟨?_, ?_, ?_⟩
  · -- last
    cases hS : sortBy (fun a b => mongoSortCmp [("index", -1)] a b ≠ Ordering.gt) M with
    | nil =>
      exfalso
      rw [hS] at hpermD
      exact hne (List.Perm.nil_eq hpermD).symm
    | cons m restS =>
      rw [hS] at hpermD hpwD
      have hmM : m ∈ M := hpermD.mem_iff.mp (by simp)
      have hmax : ∀ y ∈ M, idxOf y ≤ idxOf m := by
        intro y hy
        have hy' := hpermD.mem_iff.mpr hy
        rcases List.mem_cons.mp hy' with rfl | hy''
        · omega
        · have := (List.pairwise_cons.mp hpwD).1 y hy''
          exact (hiffD m hmM y hy).mp this
      obtain ⟨w, hw⟩ := Option.isSome_iff_exists.mp (hout m (hMsub m hmM))
      have hq2 : docsCollQuery s.docs [("uuid", Cond.ceq U)]
          (some ["output", "uuid", "index"]) (some [("index", -1)]) 0 1
          = [projectDoc (some ["output", "uuid", "index"]) m] := by
        simp only [docsCollQuery, ← hM, hS]
        simp
      have hq : query s [("uuid", Cond.ceq U)] (some ["output"])
          (some [("index", -1)]) 0 1 (some (.lbool false))
          = .ok [projectDoc (some ["output", "uuid", "index"]) m] := by
        have h1 : query s [("uuid", Cond.ceq U)] (some ["output"])
            (some [("index", -1)]) 0 1 (some (.lbool false))
            = (docsCollQuery s.docs [("uuid", Cond.ceq U)]
                (some ["output", "uuid", "index"]) (some [("index", -1)]) 0 1).mapM
                (resolveDoc (.lbool false) s.data) := rfl
        rw [h1, hq2, mapM_resolveDoc_false]
      have hpout : pyget (projectDoc (some ["output", "uuid", "index"]) m) "output"
          = some w := by
        rw [pyget_projectDoc_of_mem _ _ (by simp) m, hw]
      refine ⟨m, hmM, hmax, ?_⟩
      rw [outOf_eq m w hw]
      simp [getOutput, queryOne, hq, Except.map, hpout]
  · -- first
    cases hS : sortBy (fun a b => mongoSortCmp [("index", 1)] a b ≠ Ordering.gt) M with
    | nil =>
      exfalso
      rw [hS] at hpermA
      exact hne (List.Perm.nil_eq hpermA).symm
    | cons m restS =>
      rw [hS] at hpermA hpwA
      have hmM : m ∈ M := hpermA.mem_iff.mp (by simp)
      have hmin : ∀ y ∈ M, idxOf m ≤ idxOf y := by
        intro y hy
        have hy' := hpermA.mem_iff.mpr hy
        rcases List.mem_cons.mp hy' with rfl | hy''
        · omega
        · have := (List.pairwise_cons.mp hpwA).1 y hy''
          exact (hiffA m hmM y hy).mp this
      obtain ⟨w, hw⟩ := Option.isSome_iff_exists.mp (hout m (hMsub m hmM))
      have hq2 : docsCollQuery s.docs [("uuid", Cond.ceq U)]
          (some ["output", "uuid", "index"]) (some [("index", 1)]) 0 1
          = [projectDoc (some ["output", "uuid", "index"]) m] := by
        simp only [docsCollQuery, ← hM, hS]
        simp
      have hq : query s [("uuid", Cond.ceq U)] (some ["output"])
          (some [("index", 1)]) 0 1 (some (.lbool false))
          = .ok [projectDoc (some ["output", "uuid", "index"]) m] := by
        have h1 : query s [("uuid", Cond.ceq U)] (some ["output"])
            (some [("index", 1)]) 0 1 (some (.lbool false))
            = (docsCollQuery s.docs [("uuid", Cond.ceq U)]
                (some ["output", "uuid", "index"]) (some [("index", 1)]) 0 1).mapM
                (resolveDoc (.lbool false) s.data) := rfl
        rw [h1, hq2, mapM_resolveDoc_false]
      have hpout : pyget (projectDoc (some ["output", "uuid", "index"]) m) "output"
          = some w := by
        rw [pyget_projectDoc_of_mem _ _ (by simp) m, hw]
      refine ⟨m, hmM, hmin, ?_⟩
      rw [outOf_eq m w hw]
      simp [getOutput, queryOne, hq, Except.map, hpout]
  · -- all
    refine ⟨sortBy (fun a b => mongoSortCmp [("index", -1)] a b ≠ Ordering.gt) M,
      hpermD, ?_, ?_⟩
    · refine List.Pairwise.imp_of_mem ?_ hpwD
      intro a b ha hb hab
      exact (hiffD a ((mem_sortBy _ _ _).mp ha) b ((mem_sortBy _ _ _).mp hb)).mp hab
    · have hSne : sortBy (fun a b => mongoSortCmp [("index", -1)] a b ≠ Ordering.gt) M
          ≠ [] := by
        intro h0
        rw [h0] at hpermD
        exact hne (List.Perm.nil_eq hpermD).symm
      have h2 : docsCollQuery s.docs [("uuid", Cond.ceq U)]
          (some ["output", "uuid", "index"]) (some [("index", -1)]) 0 0
          = (sortBy (fun a b => mongoSortCmp [("index", -1)] a b ≠ Ordering.gt) M).map
              (projectDoc (some ["output", "uuid", "index"])) := by
        simp only [docsCollQuery, ← hM]
        simp
      have hq : query s [("uuid", Cond.ceq U)] (some ["output"])
          (some [("index", -1)]) 0 0 (some (.lbool false))
          = .ok ((sortBy (fun a b => mongoSortCmp [("index", -1)] a b ≠ Ordering.gt) M).map
              (projectDoc (some ["output", "uuid", "index"]))) := by
        have h1 : query s [("uuid", Cond.ceq U)] (some ["output"])
            (some [("index", -1)]) 0 0 (some (.lbool false))
            = (docsCollQuery s.docs [("uuid", Cond.ceq U)]
                (some ["output", "uuid", "index"]) (some [("index", -1)]) 0 0).mapM
                (resolveDoc (.lbool false) s.data) := rfl
        rw [h1, h2, mapM_resolveDoc_false]
      have hall : allSome
          (((sortBy (fun a b => mongoSortCmp [("index", -1)] a b ≠ Ordering.gt) M).map
              (projectDoc (some ["output", "uuid", "index"]))).map
            (fun r => pyget r "output"))
          = some ((sortBy (fun a b => mongoSortCmp [("index", -1)] a b ≠ Ordering.gt) M).map
              outOf) := by
        rw [List.map_map]
        apply allSome_map
        intro x hx
        have hxM := (mem_sortBy _ _ _).mp hx
        obtain ⟨w, hw⟩ := Option.isSome_iff_exists.mp (hout x (hMsub x hxM))
        show pyget (projectDoc (some ["output", "uuid", "index"]) x) "output"
          = some (outOf x)
        rw [pyget_projectDoc_of_mem _ "output" (by simp) x, hw, outOf_eq x w hw]
      cases hS0 : sortBy (fun a b => mongoSortCmp [("index", -1)] a b ≠ Ordering.gt) M with
      | nil => exact absurd hS0 hSne
      | cons m0 rest0 =>
        rw [hS0] at hq hall
        simp only [List.map_map, List.map_cons] at hall
        simp [getOutput, hq, hall, varr]

/-- Claim C5 (witness): the specification's example — outputs `10` at index
1 and `20` at index 2 give `last = 20`, `first = 10`, `all = [20, 10]`. -/
theorem getOutput_first_last_all_witness :
    ((∀ d ∈ (⟨[outDoc1, outDoc2], [], 0, [], .lbool false⟩ : State).docs,
        ∃ n : Int, pyget d "index" = some (.int n)) ∧
     (∀ d ∈ (⟨[outDoc1, outDoc2], [], 0, [], .lbool false⟩ : State).docs,
        (pyget d "output").isSome = true) ∧
     (⟨[outDoc1, outDoc2], [], 0, [], .lbool false⟩ : State).docs.filter
        (matchesCrit [("uuid", Cond.ceq (.str "U"))]) ≠ []) ∧
    ((∃ m ∈ (⟨[outDoc1, outDoc2], [], 0, [], .lbool false⟩ : State).docs.filter
          (matchesCrit [("uuid", Cond.ceq (.str "U"))]),
        (∀ y ∈ (⟨[outDoc1, outDoc2], [], 0, [], .lbool false⟩ : State).docs.filter
            (matchesCrit [("uuid", Cond.ceq (.str "U"))]), idxOf y ≤ idxOf m) ∧
        getOutput ⟨[outDoc1, outDoc2], [], 0, [], .lbool false⟩ (.str "U") "last"
          (.lbool false) = .ok (outOf m)) ∧
     (∃ m ∈ (⟨[outDoc1, outDoc2], [], 0, [], .lbool false⟩ : State).docs.filter
          (matchesCrit [("uuid", Cond.ceq (.str "U"))]),
        (∀ y ∈ (⟨[outDoc1, outDoc2], [], 0, [], .lbool false⟩ : State).docs.filter
            (matchesCrit [("uuid", Cond.ceq (.str "U"))]), idxOf m ≤ idxOf y) ∧
        getOutput ⟨[outDoc1, outDoc2], [], 0, [], .lbool false⟩ (.str "U") "first"
          (.lbool false) = .ok (outOf m)) ∧
     (∃ ds : List Value,
        ds.Perm ((⟨[outDoc1, outDoc2], [], 0, [], .lbool false⟩ : State).docs.filter
          (matchesCrit [("uuid", Cond.ceq (.str "U"))])) ∧
        ds.Pairwise (fun a b => idxOf b ≤ idxOf a) ∧
        getOutput ⟨[outDoc1, outDoc2], [], 0, [], .lbool false⟩ (.str "U") "all"
          (.lbool false) = .ok (varr (ds.map outOf)))) ∧
    (getOutput ⟨[outDoc1, outDoc2], [], 0, [], .lbool false⟩ (.str "U") "last"
        (.lbool false) = .ok (.int 20) ∧
     getOutput ⟨[outDoc1, outDoc2], [], 0, [], .lbool false⟩ (.str "U") "first"
        (.lbool false) = .ok (.int 10) ∧
     getOutput ⟨[outDoc1, outDoc2], [], 0, [], .lbool false⟩ (.str "U") "all"
        (.lbool false) = .ok (varr [.int 20, .int 10])) :=
  have hint : ∀ d ∈ (⟨[outDoc1, outDoc2], [], 0, [], .lbool false⟩ : State).docs,
      ∃ n : Int, pyget d "index" = some (.int n) := by
    intro d hd
    simp [outDoc1, outDoc2] at hd
    rcases hd with rfl | rfl
    · exact ⟨1, rfl⟩
    · exact ⟨2, rfl⟩
  ⟨⟨hint, by decide, by decide⟩,
   getOutput_first_last_all ⟨[outDoc1, outDoc2], [], 0, [], .lbool false⟩ (.str "U")
     hint (by decide) (by decide),
   rfl, rfl, rfl⟩

/-! ## Removal and stub-free resolution -/

theorem filterBlobs_nil (lv : LoadArg) : filterBlobs [] lv = .ok [] := by
  cases lv with
  | lbool b => cases b <;> rfl
  | sels l => cases l <;> rfl

theorem resolveDoc_no_stub (lv : LoadArg) (data : List Value) (doc : Value)
    (h : findKey "blob_uuid" false doc = []) :
    resolveDoc lv data doc = .ok doc := by
  by_cases hlt : loadTruthy lv = true
  · have hfetch : docsCollQuery data [("blob_uuid", Cond.cin ([] : List Value))]
        (some ["blob_uuid", "data"]) none 0 0 = [] := by
      apply docsCollQuery_of_filter_nil
      apply List.filter_eq_nil_iff.mpr
      intro b _
      simp [matchesCrit, condMatch]
      cases pyget b "blob_uuid" <;> simp [condMatch]
    simp only [resolveDoc, hlt, if_pos, h]
    simp only [List.map_nil, filterBlobs_nil, exceptBind_ok, List.foldl_nil]
    simp only [List.map_nil] at hfetch ⊢
    rw [hfetch]
    rfl
  · simp only [resolveDoc, hlt]
    rfl

theorem mapM_ok_of_all (f : Value → Except Unit Value) :
    ∀ l : List Value, (∀ x ∈ l, f x = .ok x) → l.mapM f = .ok l := by
  intro l
  induction l with
  | nil => intro _; rfl
  | cons x xs ih =>
    intro h
    rw [List.mapM_cons, h x (by simp), ih (fun y hy => h y (by simp [hy]))]
    rfl

theorem findKeyFields_projFields_empty (names allowed : List String) (bu : String)
    (hbu : bu ∉ names) (hsub : ∀ t ∈ allowed, t ∈ names) :
    ∀ fs : Fields, topScalarF names fs = true →
      findKeyFields bu false (projFields allowed fs) = [] := by
  intro fs
  induction fs with
  | nil => intro _; simp [projFields, findKeyFields]
  | cons k v tl ih =>
    intro hsc
    simp only [topScalarF, Bool.and_eq_true] at hsc
    by_cases hk : k ∈ allowed
    · have hkn : k ∈ names := hsub k hk
      have hkv : v.isScalar = true := by
        have := hsc.1
        simpa [hkn] using this
      have hkbu : k ≠ bu := fun he => hbu (he ▸ hkn)
      simp [projFields, hk, findKeyFields, hkbu,
            findKey_scalar bu false v hkv, ih hsc.2]
    · simp [projFields, hk, ih hsc.2]

theorem query_identity_proj (s : State) (c : Criteria)
    (htop : ∀ d ∈ s.docs, topScalar ["uuid", "index"] d = true) :
    query s c (some ["uuid", "index"]) none 0 0 none
      = .ok ((s.docs.filter (matchesCrit c)).map
          (projectDoc (some ["uuid", "index", "uuid", "index"]))) := by
  have h1 : query s c (some ["uuid", "index"]) none 0 0 none
      = (docsCollQuery s.docs c (some ["uuid", "index", "uuid", "index"]) none 0 0).mapM
          (resolveDoc s.load s.data) := rfl
  have h2 : docsCollQuery s.docs c (some ["uuid", "index", "uuid", "index"]) none 0 0
      = (s.docs.filter (matchesCrit c)).map
          (projectDoc (some ["uuid", "index", "uuid", "index"])) := by
    simp [docsCollQuery]
  rw [h1, h2]
  apply mapM_ok_of_all
  intro x hx
  rcases List.mem_map.mp hx with ⟨d, hd, rfl⟩
  have hds : d ∈ s.docs := (List.mem_filter.mp hd).1
  apply resolveDoc_no_stub
  have htd := htop d hds
  cases d with
  | obj fs =>
    have : findKeyFields "blob_uuid" false
        (projFields ["uuid", "index", "uuid", "index"] fs) = [] := by
      apply findKeyFields_projFields_empty ["uuid", "index"]
        ["uuid", "index", "uuid", "index"] "blob_uuid" (by simp)
        (by intro t ht; simp at ht ⊢; tauto)
      simpa [topScalar] using htd
    simpa [projectDoc, findKey] using this
  | null => simp [topScalar] at htd
  | bool b => simp [topScalar] at htd
  | int n => simp [topScalar] at htd
  | str st => simp [topScalar] at htd
  | arr xs => simp [topScalar] at htd

theorem foldl_filter_mem (g : Value → Value → Bool) :
    ∀ (pairs : List Value) (data : List Value) (b : Value),
      b ∈ pairs.foldl (fun dl p => dl.filter (g p)) data →
      b ∈ data ∧ ∀ p ∈ pairs, g p b = true := by
  intro pairs
  induction pairs with
  | nil => intro data b h; exact ⟨h, by simp⟩
  | cons p ps ih =>
    intro data b h
    rcases ih (data.filter (g p)) b (by simpa using h) with ⟨h1, h2⟩
    rcases List.mem_filter.mp h1 with ⟨h3, h4⟩
    refine ⟨h3, ?_⟩
    intro p' hp'
    rcases List.mem_cons.mp hp' with rfl | hp''
    · exact h4
    · exact h2 p' hp''

/-- Claim C9: `remove_docs` deletes, for each document matching the
criteria, every blob owned by that document's `(uuid, index)` pair from
the blob collection, and deletes the matching documents themselves; a
subsequent query with the same criteria returns the empty sequence. -/
theorem removeDocs_cascades (s : State) (c : Criteria)
    (htop : ∀ d ∈ s.docs, topScalar ["uuid", "index"] d = true) :
    ∃ s' : State, removeDocs s c = .ok s' ∧
      s'.docs = s.docs.filter (fun d => !matchesCrit c d) ∧
      (∀ b ∈ s'.data, ∀ d ∈ s.docs, matchesCrit c d = true →
        ¬(condMatch (Cond.ceq ((pyget d "uuid").getD .null)) (pyget b "job_uuid") = true ∧
          condMatch (Cond.ceq ((pyget d "index").getD .null)) (pyget b "job_index") = true)) ∧
      (∀ (props : Option (List String)) (sort : Option (List (String × Int)))
          (skip limit : Nat) (load : Option LoadArg),
          query s' c props sort skip limit load = .ok []) := by
  have hq := query_identity_proj s c htop
  refine ⟨_, by rw [removeDocs, hq]; rfl, rfl, ?_, ?_⟩
  · intro b hb d hd hmatch hcond
    have hmem : projectDoc (some ["uuid", "index", "uuid", "index"]) d
        ∈ (s.docs.filter (matchesCrit c)).map
            (projectDoc (some ["uuid", "index", "uuid", "index"])) :=
      List.mem_map.mpr ⟨d, List.mem_filter.mpr ⟨hd, hmatch⟩, rfl⟩
    have := (foldl_filter_mem _ _ s.data b hb).2 _ hmem
    rw [pyget_projectDoc_of_mem _ "uuid" (by simp) d,
        pyget_projectDoc_of_mem _ "index" (by simp) d] at this
    simp [matchesCrit, hcond.1, hcond.2] at this
  · intro props sort skip limit load
    apply query_of_filter_nil
    simp only
    rw [List.filter_filter]
    apply List.filter_eq_nil_iff.mpr
    intro d _
    simp

/-- Claim C9 (witness): removing uuid `U` deletes both its documents and
the blob owned by `(U, 1)`, while the blob owned by `(W, 5)` survives. -/
theorem removeDocs_cascades_witness :
    (∀ d ∈ (⟨[outDoc1, outDoc2], [ownedBlob, foreignBlob], 2, [],
        .lbool false⟩ : State).docs, topScalar ["uuid", "index"] d = true) ∧
    (∃ s' : State,
      removeDocs ⟨[outDoc1, outDoc2], [ownedBlob, foreignBlob], 2, [], .lbool false⟩
        [("uuid", Cond.ceq (.str "U"))] = .ok s' ∧
      s'.docs = (⟨[outDoc1, outDoc2], [ownedBlob, foreignBlob], 2, [],
          .lbool false⟩ : State).docs.filter
            (fun d => !matchesCrit [("uuid", Cond.ceq (.str "U"))] d) ∧
      (∀ b ∈ s'.data, ∀ d ∈ (⟨[outDoc1, outDoc2], [ownedBlob, foreignBlob], 2, [],
          .lbool false⟩ : State).docs,
        matchesCrit [("uuid", Cond.ceq (.str "U"))] d = true →
        ¬(condMatch (Cond.ceq ((pyget d "uuid").getD .null)) (pyget b "job_uuid") = true ∧
          condMatch (Cond.ceq ((pyget d "index").getD .null)) (pyget b "job_index") = true)) ∧
      (∀ (props : Option (List String)) (sort : Option (List (String × Int)))
          (skip limit : Nat) (load : Option LoadArg),
          query s' [("uuid", Cond.ceq (.str "U"))] props sort skip limit load = .ok [])) ∧
    removeDocs ⟨[outDoc1, outDoc2], [ownedBlob, foreignBlob], 2, [], .lbool false⟩
      [("uuid", Cond.ceq (.str "U"))]
      = .ok ⟨[], [foreignBlob], 2, [], .lbool false⟩ :=
  ⟨by decide,
   removeDocs_cascades ⟨[outDoc1, outDoc2], [ownedBlob, foreignBlob], 2, [], .lbool false⟩
     [("uuid", Cond.ceq (.str "U"))] (by decide),
   rfl⟩

/-! ## Identity fields survive projection and resolution -/

theorem exceptBind_error (e : ε) (f : α → Except ε β) :
    (Except.error e >>= f : Except ε β) = .error e := rfl

theorem mapM_ok_mem (f : α → Except Unit β) :
    ∀ (l : List α) (res : List β), l.mapM f = .ok res → ∀ y ∈ res,
      ∃ x ∈ l, f x = .ok y := by
  intro l
  induction l with
  | nil =>
    intro res h y hy
    cases h
    simp at hy
  | cons x xs ih =>
    intro res h y hy
    rw [List.mapM_cons] at h
    cases hfx : f x with
    | error e => rw [hfx, exceptBind_error] at h; cases h
    | ok a =>
      rw [hfx, exceptBind_ok] at h
      cases hxs : xs.mapM f with
      | error e => rw [hxs, exceptBind_error] at h; cases h
      | ok as =>
        rw [hxs, exceptBind_ok] at h
        cases h
        rcases List.mem_cons.mp hy with rfl | hy'
        · exact ⟨x, by simp, hfx⟩
        · rcases ih as hxs y hy' with ⟨x', hx', he'⟩
          exact ⟨x', by simp [hx'], he'⟩

theorem mem_docsCollQuery (docs : List Value) (c : Criteria)
    (props : Option (List String)) (sort : Option (List (String × Int)))
    (skip limit : Nat) (y : Value) :
    y ∈ docsCollQuery docs c props sort skip limit →
      ∃ m ∈ docs, y = projectDoc props m := by
  intro hy
  simp only [docsCollQuery] at hy
  rcases List.mem_map.mp hy with ⟨m, hm, rfl⟩
  have hm2 : m ∈ (match sort with
      | none => docs.filter (matchesCrit c)
      | some srt => sortBy (fun a b => mongoSortCmp srt a b ≠ Ordering.gt)
          (docs.filter (matchesCrit c))) := by
    by_cases hl : limit = 0
    · simp only [hl, if_pos] at hm
      exact List.mem_of_mem_drop hm
    · simp only [hl, if_neg, ite_false] at hm
      exact List.mem_of_mem_drop (List.mem_of_mem_take hm)
  have hm3 : m ∈ docs.filter (matchesCrit c) := by
    cases sort with
    | none => exact hm2
    | some srt => exact (mem_sortBy _ _ _).mp hm2
  exact ⟨m, (List.mem_filter.mp hm3).1, rfl⟩

theorem pyget_isSome_setPath (d : Value) (seg : Seg) (p : Path) (nv : Value) (t : String)
    (h : (pyget d t).isSome = true) :
    (pyget (setPath d (seg :: p) nv) t).isSome = true := by
  cases d with
  | obj fs =>
    cases seg with
    | key a =>
      by_cases hta : t = a
      · subst hta
        cases hl : fs.lookup t with
        | none => simp [pyget, hl] at h
        | some v =>
          simp [setPath, pyget, lookup_setPathFields_self fs t p nv v hl]
      · simp [setPath, pyget, lookup_setPathFields_ne fs a t p nv hta]
        simpa [pyget] using h
    | idx i => simpa [setPath] using h
  | arr xs => simp [pyget] at h
  | null => simp [pyget] at h
  | bool b => simp [pyget] at h
  | int n => simp [pyget] at h
  | str st => simp [pyget] at h

theorem pyget_isSome_updateInDictionary (t : String) :
    ∀ (upds : List (Path × Value)) (d : Value),
      (∀ pv ∈ upds, pv.1 ≠ []) → (pyget d t).isSome = true →
      (pyget (updateInDictionary d upds) t).isSome = true := by
  intro upds
  induction upds with
  | nil => intro d _ h; simpa [updateInDictionary] using h
  | cons pv tl ih =>
    intro d hne h
    have h0 := hne pv (by simp)
    cases hL : pv.1 with
    | nil => exact absurd hL h0
    | cons seg rest =>
      have step : (pyget (setPath d pv.1 pv.2) t).isSome = true := by
        rw [hL]
        exact pyget_isSome_setPath d seg rest pv.2 t h
      have := ih (setPath d pv.1 pv.2) (fun pv' hpv' => hne pv' (by simp [hpv'])) step
      simpa [updateInDictionary] using this

theorem nil_notin_findKeyElems (k : String) (ie : Bool) :
    ∀ (xs : Elems) (off : Nat), [] ∉ findKeyElems k ie off xs := by
  intro xs
  induction xs with
  | nil => intro off; simp [findKeyElems]
  | cons v tl ih =>
    intro off
    simp [findKeyElems]
    exact ih (off + 1)

theorem nil_notin_findKeyFields (k : String) :
    ∀ fs : Fields, fs.lookup k = none → [] ∉ findKeyFields k false fs := by
  intro fs
  induction fs with
  | nil => intro _; simp [findKeyFields]
  | cons x v tl ih =>
    intro hl
    by_cases hx : x = k
    · subst hx
      simp [Fields.lookup] at hl
    · simp [Fields.lookup, hx] at hl
      simp [findKeyFields, hx, ih hl]

theorem nil_notin_findKey (k : String) (d : Value) (h : pyget d k = none) :
    [] ∉ findKey k false d := by
  cases d with
  | obj fs => simpa [findKey] using nil_notin_findKeyFields k fs h
  | arr xs => simpa [findKey] using nil_notin_findKeyElems k false xs 0
  | null => simp [findKey]
  | bool b => simp [findKey]
  | int n => simp [findKey]
  | str st => simp [findKey]

theorem pairKeep_sub (b : Value) (loc : Path) (sels : List LoadSel)
    (ks : List (Value × Path)) (h : pairKeep b loc sels = .ok ks) :
    ∀ x ∈ ks, x = (b, loc) := by
  intro x hx
  simp only [pairKeep] at h
  cases hrs : sels.mapM (selKeep b loc) with
  | error e => rw [hrs, exceptBind_error] at h; cases h
  | ok rs =>
    rw [hrs, exceptBind_ok] at h
    cases h
    rcases List.mem_map.mp hx with ⟨_, _, rfl⟩
    rfl

theorem filterBlobs_sub (lv : LoadArg) :
    ∀ (pairs kept : List (Value × Path)), filterBlobs pairs lv = .ok kept →
      ∀ x ∈ kept, x ∈ pairs := by
  have haux : ∀ (sels : List LoadSel) (pairs : List (Value × Path))
      (acc kept : List (Value × Path)),
      (pairs.foldlM (fun acc bl => do
        let ks ← pairKeep bl.1 bl.2 sels
        pure (acc ++ ks)) acc) = .ok kept →
      ∀ x ∈ kept, x ∈ acc ∨ x ∈ pairs := by
    intro sels pairs
    induction pairs with
    | nil =>
      intro acc kept h x hx
      cases h
      exact Or.inl hx
    | cons bl tl ih =>
      intro acc kept h x hx
      rw [List.foldlM_cons] at h
      cases hks : pairKeep bl.1 bl.2 sels with
      | error e => rw [hks, exceptBind_error] at h; cases h
      | ok ks =>
        rw [hks, exceptBind_ok, exceptPure, exceptBind_ok] at h
        rcases ih (acc ++ ks) kept h x hx with h1 | h1
        · rcases List.mem_append.mp h1 with h2 | h2
          · exact Or.inl h2
          · exact Or.inr (by simp [pairKeep_sub bl.1 bl.2 sels ks hks x h2])
        · exact Or.inr (by simp [h1])
  intro pairs kept h x hx
  cases lv with
  | lbool b =>
    cases b
    · cases h; simp at hx
    · cases h; exact hx
  | sels l =>
    cases l with
    | nil => cases h; simp at hx
    | cons s0 stl =>
      rcases haux (s0 :: stl) pairs [] kept h x hx with h1 | h1
      · simp at h1
      · exact h1

theorem dictInsert_mem (x : Value × α) (k : Value) (v : α) :
    ∀ l : List (Value × α), x ∈ dictInsert l k v → x ∈ l ∨ x = (k, v) := by
  intro l
  induction l with
  | nil => intro h; simp [dictInsert] at h; exact Or.inr h
  | cons p tl ih =>
    intro h
    by_cases hp : p.1 = k
    · rw [show dictInsert (p :: tl) k v = (k, v) :: tl from by
        cases p; simp_all [dictInsert]] at h
      rcases List.mem_cons.mp h with rfl | h1
      · exact Or.inr rfl
      · exact Or.inl (by simp [h1])
    · rw [show dictInsert (p :: tl) k v = p :: dictInsert tl k v from by
        cases p; simp_all [dictInsert]] at h
      rcases List.mem_cons.mp h with rfl | h1
      · exact Or.inl (by simp)
      · rcases ih h1 with h2 | h2
        · exact Or.inl (by simp [h2])
        · exact Or.inr h2

theorem objectInfo_fold_mem (key : Value × Path → Value) :
    ∀ (kept : List (Value × Path)) (acc : List (Value × Path)) (x : Value × Path),
      x ∈ kept.foldl (fun acc bl => dictInsert acc (key bl) bl.2) acc →
      x ∈ acc ∨ ∃ bl ∈ kept, x.2 = bl.2 := by
  intro kept
  induction kept with
  | nil => intro acc x h; exact Or.inl h
  | cons bl tl ih =>
    intro acc x h
    rcases ih (dictInsert acc (key bl) bl.2) x (by simpa using h) with h1 | h1
    · rcases dictInsert_mem x (key bl) bl.2 acc h1 with h2 | h2
      · exact Or.inl h2
      · exact Or.inr ⟨bl, by simp, by simp [h2]⟩
    · rcases h1 with ⟨bl', hbl', he⟩
      exact Or.inr ⟨bl', by simp [hbl'], he⟩

theorem lookup_projFields_none (allowed : List String) (t : String) :
    ∀ fs : Fields, fs.lookup t = none → (projFields allowed fs).lookup t = none := by
  intro fs
  induction fs with
  | nil => intro _; simp [projFields, Fields.lookup]
  | cons k v tl ih =>
    intro h
    by_cases hkt : k = t
    · simp [Fields.lookup, hkt] at h
    · simp only [Fields.lookup, hkt, if_neg, ite_false] at h
      by_cases hk : k ∈ allowed
      · simp [projFields, hk, Fields.lookup, hkt, ih h]
      · simp [projFields, hk, ih h]

theorem pyget_projectDoc_none (l' : List String) (t : String) (d : Value)
    (h : pyget d t = none) : pyget (projectDoc (some l') d) t = none := by
  cases d <;> simp_all [projectDoc, pyget]
  exact lookup_projFields_none l' t _ h

theorem resolveDoc_preserves_field (lv : LoadArg) (data : List Value)
    (doc D : Value) (t : String) (hres : resolveDoc lv data doc = .ok D)
    (hnoroot : pyget doc "blob_uuid" = none)
    (hpres : (pyget doc t).isSome = true) :
    (pyget D t).isSome = true := by
  by_cases hlt : loadTruthy lv = true
  · simp only [resolveDoc, hlt, if_true] at hres
    cases hk : filterBlobs ((findKey "blob_uuid" false doc).map
        (fun loc => ((getPath doc loc).getD .null, loc))) lv with
    | error e => rw [hk, exceptBind_error] at hres; cases hres
    | ok kept =>
      rw [hk, exceptBind_ok] at hres
      cases hom : (docsCollQuery data
          [("blob_uuid", Cond.cin ((kept.foldl (fun acc bl =>
              dictInsert acc ((pyget bl.1 "blob_uuid").getD .null) bl.2) []).map
            Prod.fst))] (some ["blob_uuid", "data"]) none 0 0).foldlM
          (fun acc o =>
            match pyget o "blob_uuid", pyget o "data" with
            | some i, some dv => Except.ok (dictInsert acc i dv)
            | _, _ => Except.error ()) ([] : List (Value × Value)) with
      | error e => rw [hom, exceptBind_error] at hres; cases hres
      | ok objectMap =>
        rw [hom, exceptBind_ok] at hres
        cases hti : (kept.foldl (fun acc bl =>
            dictInsert acc ((pyget bl.1 "blob_uuid").getD .null) bl.2) []).mapM
            (fun il => match lookupDict objectMap il.1 with
              | some dv => Except.ok ((il.2 : Path), dv)
              | none => Except.error ()) with
        | error e => rw [hti, exceptBind_error] at hres; cases hres
        | ok toInsert =>
          rw [hti, exceptBind_ok] at hres
          cases hres
          have hnil : ∀ pv ∈ toInsert, pv.1 ≠ [] := by
            intro pv hpv
            rcases mapM_ok_mem _ _ _ hti pv hpv with ⟨il, hil, hfe⟩
            have hp1 : pv.1 = il.2 := by
              cases hld : lookupDict objectMap il.1 with
              | none => rw [hld] at hfe; cases hfe
              | some dv => rw [hld] at hfe; cases hfe; rfl
            rcases objectInfo_fold_mem _ kept [] il hil with h0 | ⟨bl, hbl, he⟩
            · simp at h0
            · have hblp := filterBlobs_sub lv _ kept hk bl hbl
              rcases List.mem_map.mp hblp with ⟨loc, hloc, hble⟩
              have hloce : bl.2 = loc := by rw [← hble]
              have hlocnn : loc ≠ [] := by
                intro hc
                subst hc
                exact nil_notin_findKey "blob_uuid" doc hnoroot hloc
              rw [hp1, he, hloce]
              exact hlocnn
          exact pyget_isSome_updateInDictionary t toInsert doc hnil hpres
  · simp only [resolveDoc, hlt, if_neg, ite_false] at hres
    cases hres
    exact hpres

/-- **C10**: for a list- or dict-shaped projection, `query` appends `uuid`
and `index` to it before delegating to the document collection (the first
conjunct is that delegation, made explicit), so every document yielded by
`query` and `query_one` carries both identity fields even when the caller
did not request them.  The hypotheses say the stored documents carry the
identity fields and hold no root-level `blob_uuid` (a root-level stub is a
malformed store record). -/
theorem query_projection_includes_identity (s : State) (c : Criteria)
    (l : List String) (sort : Option (List (String × Int))) (skip limit : Nat)
    (load : Option LoadArg) (res : List Value) (oD : Option Value)
    (hnb : ∀ d ∈ s.docs, pyget d "blob_uuid" = none)
    (hids : ∀ d ∈ s.docs,
      (pyget d "uuid").isSome = true ∧ (pyget d "index").isSome = true)
    (hq : query s c (some l) sort skip limit load = .ok res)
    (h1 : queryOne s c (some l) sort load = .ok oD) :
    (query s c (some l) sort skip limit load
       = (docsCollQuery s.docs c (some (l ++ ["uuid", "index"])) sort skip limit).mapM
           (resolveDoc (load.getD s.load) s.data)) ∧
    (∀ D ∈ res, (pyget D "uuid").isSome = true ∧ (pyget D "index").isSome = true) ∧
    (∀ D ∈ oD, (pyget D "uuid").isSome = true ∧ (pyget D "index").isSome = true) := by
  have key : ∀ (skip' limit' : Nat) (res' : List Value),
      query s c (some l) sort skip' limit' load = .ok res' →
      ∀ D ∈ res', (pyget D "uuid").isSome = true ∧ (pyget D "index").isSome = true := by
    intro skip' limit' res' hq' D hD
    have hq'' : (docsCollQuery s.docs c (some (l ++ ["uuid", "index"]))
        sort skip' limit').mapM (resolveDoc (load.getD s.load) s.data) = .ok res' := hq'
    rcases mapM_ok_mem _ _ _ hq'' D hD with ⟨m', hm', hres⟩
    rcases mem_docsCollQuery s.docs c (some (l ++ ["uuid", "index"])) sort skip' limit'
        m' hm' with ⟨m, hm, rfl⟩
    have hmu := (hids m hm).1
    have hmi := (hids m hm).2
    have hmn := hnb m hm
    have hu' : (pyget (projectDoc (some (l ++ ["uuid", "index"])) m) "uuid").isSome
        = true := by
      rw [pyget_projectDoc_of_mem _ _ (by simp) m]; exact hmu
    have hi' : (pyget (projectDoc (some (l ++ ["uuid", "index"])) m) "index").isSome
        = true := by
      rw [pyget_projectDoc_of_mem _ _ (by simp) m]; exact hmi
    have hn' : pyget (projectDoc (some (l ++ ["uuid", "index"])) m) "blob_uuid"
        = none := pyget_projectDoc_none _ _ m hmn
    exact ⟨resolveDoc_preserves_field _ _ _ _ _ hres hn' hu',
           resolveDoc_preserves_field _ _ _ _ _ hres hn' hi'⟩
  refine ⟨rfl, key skip limit res hq, ?_⟩
  intro D hD
  simp only [queryOne] at h1
  cases hq1 : query s c (some l) sort 0 1 load with
  | error e => rw [hq1] at h1; cases h1
  | ok res1 =>
    rw [hq1] at h1
    cases h1
    have hD1 : D ∈ res1 := by
      cases res1 with
      | nil => simp at hD
      | cons a tl =>
        simp at hD
        simp [hD]
    exact key 0 1 res1 hq1 D hD1

/-- **C10** witness: the concrete store `[outDoc1]` queried with projection
`["output"]` yields documents that still carry `uuid` and `index`. -/
theorem query_projection_includes_identity_witness :
    ((∀ d ∈ ([outDoc1] : List Value), pyget d "blob_uuid" = none) ∧
     (∀ d ∈ ([outDoc1] : List Value),
       (pyget d "uuid").isSome = true ∧ (pyget d "index").isSome = true)) ∧
    ((query ⟨[outDoc1], [], 0, [], .lbool false⟩ [] (some ["output"]) none 0 0 none
       = (docsCollQuery [outDoc1] [] (some (["output"] ++ ["uuid", "index"])) none 0 0).mapM
           (resolveDoc ((none : Option LoadArg).getD (LoadArg.lbool false)) [])) ∧
     (∀ D ∈ ([outDoc1] : List Value),
       (pyget D "uuid").isSome = true ∧ (pyget D "index").isSome = true) ∧
     (∀ D ∈ (some outDoc1 : Option Value),
       (pyget D "uuid").isSome = true ∧ (pyget D "index").isSome = true)) :=
  ⟨⟨by decide, by decide⟩,
   query_projection_includes_identity ⟨[outDoc1], [], 0, [], .lbool false⟩ []
     ["output"] none 0 0 none [outDoc1] (some outDoc1)
     (by decide) (by decide) rfl rfl⟩

/-! ## The value ordering on integer key tuples -/

theorem cmpInt_eq_iff (a b : Int) : cmpInt a b = .eq ↔ a = b := by
  simp only [cmpInt]
  split_ifs <;> simp <;> omega

theorem cmpInt_lt_iff (a b : Int) : cmpInt a b = .lt ↔ a < b := by
  simp only [cmpInt]
  split_ifs <;> simp <;> omega

theorem cmpInt_gt_iff (a b : Int) : cmpInt a b = .gt ↔ b < a := by
  simp only [cmpInt]
  split_ifs <;> simp <;> omega

theorem cmpInt_swap (a b : Int) : (cmpInt a b).swap = cmpInt b a := by
  simp only [cmpInt]
  split_ifs <;> simp [Ordering.swap] <;> omega

theorem cmpValues_eq_iff :
    ∀ xs ys : List Value, AllInt xs → AllInt ys →
      (cmpValues xs ys = .eq ↔ xs = ys) := by
  intro xs
  induction xs with
  | nil =>
    intro ys _ _
    cases ys <;> simp [cmpValues]
  | cons x xt ih =>
    intro ys hxs hys
    cases ys with
    | nil => simp [cmpValues]
    | cons y yt =>
      rcases hxs x (by simp) with ⟨m, rfl⟩
      rcases hys y (by simp) with ⟨n, rfl⟩
      have hscalar : scalarCmp (.int m) (.int n) = cmpInt m n := rfl
      simp only [cmpValues, hscalar]
      cases hc : cmpInt m n with
      | eq =>
        have hmn : m = n := (cmpInt_eq_iff m n).mp hc
        subst hmn
        simp [ih yt (fun w hw => hxs w (by simp [hw]))
          (fun w hw => hys w (by simp [hw]))]
      | lt =>
        have hmn : m < n := (cmpInt_lt_iff m n).mp hc
        simp
        intro hme
        omega
      | gt =>
        have hmn : n < m := (cmpInt_gt_iff m n).mp hc
        simp
        intro hme
        omega

theorem cmpValues_swap :
    ∀ xs ys : List Value, AllInt xs → AllInt ys →
      (cmpValues xs ys).swap = cmpValues ys xs := by
  intro xs
  induction xs with
  | nil =>
    intro ys _ _
    cases ys <;> simp [cmpValues, Ordering.swap]
  | cons x xt ih =>
    intro ys hxs hys
    cases ys with
    | nil => simp [cmpValues, Ordering.swap]
    | cons y yt =>
      rcases hxs x (by simp) with ⟨m, rfl⟩
      rcases hys y (by simp) with ⟨n, rfl⟩
      have h1 : scalarCmp (.int m) (.int n) = cmpInt m n := rfl
      have h2 : scalarCmp (.int n) (.int m) = cmpInt n m := rfl
      simp only [cmpValues, h1, h2, ← cmpInt_swap m n]
      cases cmpInt m n with
      | eq =>
        exact ih yt (fun w hw => hxs w (by simp [hw]))
          (fun w hw => hys w (by simp [hw]))
      | lt => rfl
      | gt => rfl

theorem cmpValues_key_eq (xs ys : List Value) (hxs : AllInt xs) (hys : AllInt ys)
    (h1 : cmpValues xs ys ≠ .gt) (h2 : cmpValues ys xs ≠ .gt) : xs = ys := by
  have hsw : (cmpValues ys xs).swap = cmpValues xs ys := cmpValues_swap ys xs hys hxs
  have hnlt : cmpValues xs ys ≠ .lt := by
    intro hc
    rw [← hsw] at hc
    cases hcc : cmpValues ys xs
    · rw [hcc] at hc; simp [Ordering.swap] at hc
    · rw [hcc] at hc; simp [Ordering.swap] at hc
    · exact h2 hcc
  have heq : cmpValues xs ys = .eq := by
    cases hcc : cmpValues xs ys
    · exact absurd hcc hnlt
    · rfl
    · exact absurd hcc h1
  exact (cmpValues_eq_iff xs ys hxs hys).mp heq

theorem cmpValues_le_total (xs ys : List Value) (hxs : AllInt xs) (hys : AllInt ys) :
    cmpValues xs ys ≠ .gt ∨ cmpValues ys xs ≠ .gt := by
  by_cases h : cmpValues xs ys = .gt
  · right
    intro hc
    have hsw : (cmpValues ys xs).swap = cmpValues xs ys := cmpValues_swap ys xs hys hxs
    rw [hc] at hsw
    simp [Ordering.swap] at hsw
    exact absurd hsw.symm (by rw [h]; simp)
  · exact Or.inl h

theorem cmpValues_le_trans :
    ∀ xs ys zs : List Value, AllInt xs → AllInt ys → AllInt zs →
      cmpValues xs ys ≠ .gt → cmpValues ys zs ≠ .gt → cmpValues xs zs ≠ .gt := by
  intro xs
  induction xs with
  | nil =>
    intro ys zs _ _ _ _ _
    cases zs <;> simp [cmpValues]
  | cons x xt ih =>
    intro ys zs hxs hys hzs h1 h2
    cases ys with
    | nil => simp [cmpValues] at h1
    | cons y yt =>
      cases zs with
      | nil => simp [cmpValues] at h2
      | cons z zt =>
        rcases hxs x (by simp) with ⟨m, rfl⟩
        rcases hys y (by simp) with ⟨n, rfl⟩
        rcases hzs z (by simp) with ⟨q, rfl⟩
        have e1 : scalarCmp (.int m) (.int n) = cmpInt m n := rfl
        have e2 : scalarCmp (.int n) (.int q) = cmpInt n q := rfl
        have e3 : scalarCmp (.int m) (.int q) = cmpInt m q := rfl
        simp only [cmpValues, e1, e2, e3] at h1 h2 ⊢
        cases hc1 : cmpInt m n with
        | gt => rw [hc1] at h1; exact absurd (h1 rfl) not_false
        | lt =>
          have hmn : m < n := (cmpInt_lt_iff m n).mp hc1
          have hnq : ¬ q < n := by
            intro hq
            rw [(cmpInt_gt_iff n q).mpr hq] at h2
            exact h2 rfl
          rw [(cmpInt_lt_iff m q).mpr (by omega)]
          simp
        | eq =>
          have hmn : m = n := (cmpInt_eq_iff m n).mp hc1
          subst hmn
          rw [hc1] at h1
          cases hc2 : cmpInt m q with
          | gt => rw [hc2] at h2; exact absurd (h2 rfl) not_false
          | lt => simp
          | eq =>
            have hmq : m = q := (cmpInt_eq_iff m q).mp hc2
            subst hmq
            rw [hc2] at h2
            exact ih yt zt (fun w hw => hxs w (by simp [hw]))
              (fun w hw => hys w (by simp [hw]))
              (fun w hw => hzs w (by simp [hw])) h1 h2

/-! ## Stability of the sort and runs of equal keys -/

theorem insertSorted_filter (le : α → α → Bool) (p : α → Bool) (x : α) :
    ∀ l : List α, (∀ a ∈ l, p a = true → p x = true → le x a = true) →
      (insertSorted le x l).filter p
        = if p x then x :: l.filter p else l.filter p := by
  intro l
  induction l with
  | nil =>
    intro _
    by_cases hx : p x = true <;> simp [insertSorted, List.filter, hx]
  | cons y ys ih =>
    intro hties
    by_cases hxy : le x y = true
    · by_cases hx : p x = true <;>
        simp [insertSorted, hxy, List.filter, hx]
    · simp only [insertSorted, hxy, if_neg, Bool.not_eq_true, ite_false]
      have ih' := ih (fun a ha => hties a (by simp [ha]))
      by_cases hx : p x = true
      · have hy : p y = false := by
          cases hpy : p y
          · rfl
          · exact absurd (hties y (by simp) hpy hx) (by simp [hxy])
        simp [List.filter, hy, ih', hx]
      · have hx' : p x = false := by simpa using hx
        cases hpy : p y <;> simp [List.filter, hpy, ih', hx']

theorem sortBy_filter (le : α → α → Bool) (p : α → Bool) :
    ∀ l : List α, (∀ a b, a ∈ l → b ∈ l → p a = true → p b = true → le a b = true) →
      (sortBy le l).filter p = l.filter p := by
  intro l
  induction l with
  | nil => intro _; simp [sortBy]
  | cons x xs ih =>
    intro hties
    have hstep := insertSorted_filter le p x (sortBy le xs) (fun a ha hpa hpx =>
      hties x a (by simp) (by simp [(mem_sortBy le xs a).mp ha]) hpx hpa)
    have ih' := ih (fun a b ha hb => hties a b (by simp [ha]) (by simp [hb]))
    cases hx : p x with
    | true => simp [sortBy, hstep, hx, List.filter, ih']
    | false => simp [sortBy, hstep, hx, List.filter, ih']

theorem runsByAux_eq (kf : α → β) [DecidableEq β] (t : β) :
    ∀ (ys acc : List α),
      runsByAux kf t acc ys
        = (t, acc.reverse ++ ys.takeWhile (fun y => kf y = t))
            :: runsBy kf (ys.dropWhile (fun y => kf y = t)) := by
  intro ys
  induction ys with
  | nil => intro acc; simp [runsByAux, runsBy]
  | cons y ys' ih =>
    intro acc
    by_cases hy : kf y = t
    · simp only [runsByAux, hy, if_pos, ite_true]
      rw [ih (y :: acc)]
      simp [List.takeWhile, List.dropWhile, hy]
    · simp [runsByAux, hy, List.takeWhile, List.dropWhile, runsBy]

theorem runsBy_cons_eq (kf : α → β) [DecidableEq β] (x : α) (xs : List α) :
    runsBy kf (x :: xs)
      = (kf x, x :: xs.takeWhile (fun y => kf y = kf x))
          :: runsBy kf (xs.dropWhile (fun y => kf y = kf x)) := by
  have h1 : runsBy kf (x :: xs) = runsByAux kf (kf x) [x] xs := rfl
  rw [h1, runsByAux_eq kf (kf x) xs [x]]
  simp

theorem dropWhile_head_false (p : α → Bool) :
    ∀ (l : List α) (y : α) (ys : List α), l.dropWhile p = y :: ys → p y = false := by
  intro l
  induction l with
  | nil => intro y ys h; cases h
  | cons a l' ih =>
    intro y ys h
    cases ha : p a with
    | true =>
      rw [List.dropWhile_cons, ha] at h
      exact ih y ys (by simpa using h)
    | false =>
      rw [List.dropWhile_cons, ha] at h
      simp at h
      rw [← h.1]
      exact ha

theorem runsBy_sorted (kf : Value → List Value) :
    ∀ (n : Nat) (l : List Value), l.length ≤ n →
      (∀ d ∈ l, AllInt (kf d)) →
      l.Pairwise (fun a b => cmpValues (kf a) (kf b) ≠ Ordering.gt) →
      ∃ ts : List (List Value),
        runsBy kf l = ts.map (fun t => (t, l.filter (fun d => kf d = t)))
        ∧ ts.Nodup ∧ (∀ d ∈ l, kf d ∈ ts) ∧ (∀ t ∈ ts, ∃ d ∈ l, kf d = t) := by
  intro n
  induction n with
  | zero =>
    intro l hlen _ _
    have : l = [] := List.length_eq_zero.mp (Nat.le_zero.mp hlen)
    subst this
    exact ⟨[], by simp [runsBy], by simp, by simp, by simp⟩
  | succ n ih =>
    intro l hlen hint hpw
    cases l with
    | nil => exact ⟨[], by simp [runsBy], by simp, by simp, by simp⟩
    | cons x xs =>
      rcases List.pairwise_cons.mp hpw with ⟨hx, hxs⟩
      have hsplit : xs.takeWhile (fun y => kf y = kf x)
          ++ xs.dropWhile (fun y => kf y = kf x) = xs :=
        List.takeWhile_append_dropWhile _ _
      have htw : ∀ y ∈ xs.takeWhile (fun y => kf y = kf x), kf y = kf x := by
        intro y hy
        simpa using List.mem_takeWhile_imp hy
      have hdr_pw : (xs.dropWhile (fun y => kf y = kf x)).Pairwise
          (fun a b => cmpValues (kf a) (kf b) ≠ Ordering.gt) := by
        rw [← hsplit] at hxs
        exact (List.pairwise_append.mp hxs).2.1
      have hdr_mem : ∀ z ∈ xs.dropWhile (fun y => kf y = kf x), z ∈ xs := by
        intro z hz
        rw [← hsplit]
        exact List.mem_append.mpr (Or.inr hz)
      have hdr_ne : ∀ z ∈ xs.dropWhile (fun y => kf y = kf x), kf z ≠ kf x := by
        intro z hz
        cases hdw : xs.dropWhile (fun y => kf y = kf x) with
        | nil => rw [hdw] at hz; simp at hz
        | cons d0 dr' =>
          have hd0 : kf d0 ≠ kf x := by
            have := dropWhile_head_false _ xs d0 dr' hdw
            simpa using this
          rw [hdw] at hz
          rcases List.mem_cons.mp hz with rfl | hz'
          · exact hd0
          · intro hzt
            rw [hdw] at hdr_pw
            rcases List.pairwise_cons.mp hdr_pw with ⟨hd0le, _⟩
            have h1 : cmpValues (kf d0) (kf z) ≠ Ordering.gt := hd0le z hz'
            have h2 : cmpValues (kf x) (kf d0) ≠ Ordering.gt := by
              apply hx
              apply hdr_mem
              rw [hdw]
              simp
            have hd0x : kf x = kf d0 := by
              apply cmpValues_key_eq
              · exact hint x (by simp)
              · apply hint
                have : d0 ∈ xs := hdr_mem d0 (by rw [hdw]; simp)
                simp [this]
              · exact h2
              · rw [hzt] at h1
                exact h1
            exact hd0 hd0x.symm
      have hfil : (x :: xs).filter (fun d => kf d = kf x)
          = x :: xs.takeWhile (fun y => kf y = kf x) := by
        have h1 : (xs.takeWhile (fun y => kf y = kf x)).filter
            (fun d => kf d = kf x) = xs.takeWhile (fun y => kf y = kf x) :=
          List.filter_eq_self.mpr (fun a ha => by simp [htw a ha])
        have h2 : (xs.dropWhile (fun y => kf y = kf x)).filter
            (fun d => kf d = kf x) = [] :=
          List.filter_eq_nil_iff.mpr (fun a ha => by simp [hdr_ne a ha])
        rw [List.filter_cons]
        simp only [decide_eq_true_eq]
        rw [if_pos trivial, ← hsplit, List.filter_append, h1, h2]
        simp
      have hlen' : (xs.dropWhile (fun y => kf y = kf x)).length ≤ n := by
        have h1 := congrArg List.length hsplit
        simp only [List.length_append] at h1
        simp at hlen
        omega
      rcases ih (xs.dropWhile (fun y => kf y = kf x)) hlen'
          (fun d hd => hint d (by simp [hdr_mem d hd])) hdr_pw with
        ⟨ts', hrun', hnodup', hcover', hmem'⟩
      refine ⟨kf x :: ts', ?_, ?_, ?_, ?_⟩
      · rw [runsBy_cons_eq, hrun']
        simp only [List.map_cons, List.cons.injEq]
        constructor
        · rw [hfil]
        · apply List.map_congr_left
          intro t' ht'
          have htne : t' ≠ kf x := by
            rcases hmem' t' ht' with ⟨d, hd, rfl⟩
            exact hdr_ne d hd
          have hxf : decide (kf x = t') = false := by
            simp
            intro hc
            exact htne hc.symm
          have h1 : (xs.takeWhile (fun y => kf y = kf x)).filter
              (fun d => kf d = t') = [] :=
            List.filter_eq_nil_iff.mpr (fun a ha => by
              simp
              intro hc
              rw [htw a ha] at hc
              exact htne hc.symm)
          have hx0 : (x :: xs).filter (fun d => kf d = t')
              = xs.filter (fun d => kf d = t') := by
            rw [List.filter_cons, hxf]
            simp
          have hsplit2 : xs.filter (fun d => kf d = t')
              = (xs.takeWhile (fun y => kf y = kf x)).filter (fun d => kf d = t')
                ++ (xs.dropWhile (fun y => kf y = kf x)).filter (fun d => kf d = t') := by
            conv_lhs => rw [← hsplit]
            rw [List.filter_append]
          rw [hx0, hsplit2, h1]
          simp
      · refine List.nodup_cons.mpr ⟨?_, hnodup'⟩
        intro hc
        rcases hmem' (kf x) hc with ⟨d, hd, hdt⟩
        exact hdr_ne d hd hdt
      · intro d hd
        rcases List.mem_cons.mp hd with rfl | hd'
        · simp
        · rw [← hsplit] at hd'
          rcases List.mem_append.mp hd' with h1 | h1
          · simp [htw d h1]
          · simp [hcover' d h1]
      · intro t ht
        rcases List.mem_cons.mp ht with rfl | ht'
        · exact ⟨x, by simp, rfl⟩
        · rcases hmem' t ht' with ⟨d, hd, hdt⟩
          exact ⟨d, by simp [hdr_mem d hd], hdt⟩

/-- **C8**: `groupby` excludes from every group any document missing one of
the grouping fields, and partitions the remaining documents into exactly one
group per distinct grouping-key tuple — the result is a list of
`(header, members)` pairs indexed by a duplicate-free list `ts` of key
tuples covering exactly the surviving documents, where each member list is
the filter of the surviving documents on that tuple (so ties keep their
original relative order, the sort being stable insertion).  Key tuples are
assumed integer-valued, the domain on which the modelled Python comparison
is faithful and total. -/
theorem groupby_partitions (s : State) (keys : List String) (c : Criteria)
    (props : Option (List String)) (sort : Option (List (String × Int)))
    (skip limit : Nat) (load : Option LoadArg) (docs : List Value)
    (hq : query s c props sort skip limit load = .ok docs)
    (hint : ∀ d ∈ docs, keys.all (fun k => (pyget d k).isSome) = true →
      AllInt (keyTuple keys d)) :
    ∃ ts : List (List Value),
      groupby s keys c props sort skip limit load
        = .ok (ts.map (fun t => (groupHeader keys t,
            (docs.filter (fun d => keys.all (fun k => (pyget d k).isSome))).filter
              (fun d => keyTuple keys d = t))))
      ∧ ts.Nodup
      ∧ (∀ d ∈ docs, keys.all (fun k => (pyget d k).isSome) = true →
          keyTuple keys d ∈ ts)
      ∧ (∀ t ∈ ts, ∃ d ∈ docs, keys.all (fun k => (pyget d k).isSome) = true ∧
          keyTuple keys d = t)
      ∧ (∀ d : Value, keys.all (fun k => (pyget d k).isSome) = false → ∀ t : List Value,
          d ∉ (docs.filter (fun d => keys.all (fun k => (pyget d k).isSome))).filter
            (fun d => keyTuple keys d = t)) := by
  have hktf : keyTuple keys = fun d => keys.map (fun k => (pyget d k).getD Value.null) :=
    rfl
  set kf : Value → List Value := fun d => keys.map (fun k => (pyget d k).getD Value.null)
    with hkf
  set data : List Value :=
    docs.filter (fun d => keys.all (fun k => (pyget d k).isSome)) with hdata
  set le : Value → Value → Bool :=
    fun a b => decide (cmpValues (kf a) (kf b) ≠ Ordering.gt) with hle
  have hmemdata : ∀ d ∈ data, d ∈ docs ∧
      keys.all (fun k => (pyget d k).isSome) = true := by
    intro d hd
    rw [hdata] at hd
    exact List.mem_filter.mp hd
  have hintd : ∀ d ∈ data, AllInt (kf d) := by
    intro d hd
    rcases hmemdata d hd with ⟨h1, h2⟩
    exact hint d h1 h2
  have htot : ∀ a b, a ∈ data → b ∈ data → le a b = true ∨ le b a = true := by
    intro a b ha hb
    rcases cmpValues_le_total (kf a) (kf b) (hintd a ha) (hintd b hb) with h | h
    · exact Or.inl (decide_eq_true h)
    · exact Or.inr (decide_eq_true h)
  have htr : ∀ a b c', a ∈ data → b ∈ data → c' ∈ data →
      le a b = true → le b c' = true → le a c' = true := by
    intro a b c' ha hb hc h1 h2
    exact decide_eq_true (cmpValues_le_trans (kf a) (kf b) (kf c')
      (hintd a ha) (hintd b hb) (hintd c' hc)
      (of_decide_eq_true h1) (of_decide_eq_true h2))
  have hpw : (sortBy le data).Pairwise (fun a b => le a b = true) :=
    sortBy_pairwise le data htot htr
  have hpw' : (sortBy le data).Pairwise
      (fun a b => cmpValues (kf a) (kf b) ≠ Ordering.gt) :=
    hpw.imp (fun h => of_decide_eq_true h)
  have hints : ∀ d ∈ sortBy le data, AllInt (kf d) := by
    intro d hd
    exact hintd d ((mem_sortBy le data d).mp hd)
  rcases runsBy_sorted kf (sortBy le data).length (sortBy le data) (le_refl _)
    hints hpw' with ⟨ts, hrun, hnodup, hcover, hmem⟩
  have hstab : ∀ t : List Value,
      (sortBy le data).filter (fun d => kf d = t) = data.filter (fun d => kf d = t) := by
    intro t
    apply sortBy_filter
    intro a b ha hb hpa hpb
    have h1 : kf a = t := of_decide_eq_true hpa
    have h2 : kf b = t := of_decide_eq_true hpb
    have heq : cmpValues (kf a) (kf b) = .eq := by
      apply (cmpValues_eq_iff (kf a) (kf b) (hintd a ha) (hintd b hb)).mpr
      rw [h1, h2]
    apply decide_eq_true
    rw [heq]
    simp
  refine ⟨ts, ?_, hnodup, ?_, ?_, ?_⟩
  · have hgb : groupby s keys c props sort skip limit load
        = Except.ok ((runsBy kf (sortBy le data)).map
            (fun tg => (groupHeader keys tg.1, tg.2))) := by
      simp only [groupby]
      rw [hq, exceptBind_ok]
      rfl
    rw [hgb, hrun, List.map_map]
    simp only [hktf, ← hkf, ← hdata]
    apply congrArg
    apply List.map_congr_left
    intro t ht
    simp only [Function.comp]
    rw [hstab t]
  · intro d hd hall
    rw [hktf]
    apply hcover
    rw [mem_sortBy]
    rw [hdata]
    exact List.mem_filter.mpr ⟨hd, hall⟩
  · intro t ht
    rcases hmem t ht with ⟨d, hd, hdt⟩
    have hd' := (mem_sortBy le data d).mp hd
    rcases hmemdata d hd' with ⟨h1, h2⟩
    refine ⟨d, h1, h2, ?_⟩
    rw [hktf]
    exact hdt
  · intro d hall t hd
    rcases List.mem_filter.mp hd with ⟨hd1, _⟩
    rcases List.mem_filter.mp hd1 with ⟨_, h2⟩
    rw [hall] at h2
    cases h2

/-- **C8** witness: the specification's example — grouping
`[{a:1,b:1}, {a:1,b:2}, {a:2,b:3}, {b:9}]` by `"a"` — yields exactly two
groups, of sizes two and one, with the keyless document `{b:9}` in neither
(the header values are `null`, the modelled `get(v, k)` applying a dict
lookup to the scalar key value). -/
theorem groupby_partitions_witness :
    (query ⟨[grpDoc1, grpDoc2, grpDoc3, grpDoc4], [], 0, [], .lbool false⟩ [] none
        none 0 0 none = .ok [grpDoc1, grpDoc2, grpDoc3, grpDoc4]) ∧
    (groupby ⟨[grpDoc1, grpDoc2, grpDoc3, grpDoc4], [], 0, [], .lbool false⟩ ["a"] []
        none none 0 0 none
      = .ok [(vobj [("a", Value.null)], [grpDoc1, grpDoc2]),
             (vobj [("a", Value.null)], [grpDoc3])]) ∧
    (∃ ts : List (List Value),
      groupby ⟨[grpDoc1, grpDoc2, grpDoc3, grpDoc4], [], 0, [], .lbool false⟩ ["a"] []
          none none 0 0 none
        = .ok (ts.map (fun t => (groupHeader ["a"] t,
            (([grpDoc1, grpDoc2, grpDoc3, grpDoc4].filter
                (fun d => ["a"].all (fun k => (pyget d k).isSome))).filter
              (fun d => keyTuple ["a"] d = t)))))
      ∧ ts.Nodup
      ∧ (∀ d ∈ [grpDoc1, grpDoc2, grpDoc3, grpDoc4],
          (["a"].all (fun k => (pyget d k).isSome)) = true → keyTuple ["a"] d ∈ ts)
      ∧ (∀ t ∈ ts, ∃ d ∈ [grpDoc1, grpDoc2, grpDoc3, grpDoc4],
          (["a"].all (fun k => (pyget d k).isSome)) = true ∧ keyTuple ["a"] d = t)
      ∧ (∀ d : Value, (["a"].all (fun k => (pyget d k).isSome)) = false →
          ∀ t : List Value,
            d ∉ (([grpDoc1, grpDoc2, grpDoc3, grpDoc4].filter
                (fun d => ["a"].all (fun k => (pyget d k).isSome))).filter
              (fun d => keyTuple ["a"] d = t)))) :=
  ⟨rfl, rfl,
   groupby_partitions ⟨[grpDoc1, grpDoc2, grpDoc3, grpDoc4], [], 0, [], .lbool false⟩
     ["a"] [] none none 0 0 none [grpDoc1, grpDoc2, grpDoc3, grpDoc4] rfl
     (by
       intro d hd hall
       simp only [List.mem_cons, List.not_mem_nil, or_false] at hd
       rcases hd with rfl | rfl | rfl | rfl
       · have h : keyTuple ["a"] grpDoc1 = [Value.int 1] := rfl
         rw [h]
         intro w hw
         simp at hw
         exact ⟨1, hw⟩
       · have h : keyTuple ["a"] grpDoc2 = [Value.int 1] := rfl
         rw [h]
         intro w hw
         simp at hw
         exact ⟨1, hw⟩
       · have h : keyTuple ["a"] grpDoc3 = [Value.int 2] := rfl
         rw [h]
         intro w hw
         simp at hw
         exact ⟨2, hw⟩
       · exact absurd hall (by decide))⟩

/-! ## Selector filtering on non-root stubs -/

theorem selKeep_ok (b : Value) (loc : Path) (hloc : loc ≠ []) (sel : LoadSel) :
    selKeep b loc sel = .ok (selMatchB b loc sel) := by
  cases hl : loc.getLast? with
  | none => exact absurd (List.getLast?_eq_none_iff.mp hl) hloc
  | some seg =>
    cases sel with
    | ftype m c' =>
      by_cases hm : pyget b "@class" = some (.str c') ∧ pyget b "@module" = some (.str m)
      · simp [selKeep, hm, selMatchB]
      · simp [selKeep, hm, hl, selMatchB]
    | fname f => simp [selKeep, hl, selMatchB]

theorem mapM_ok_of_map (f : α → Except Unit β) (g : α → β) :
    ∀ l : List α, (∀ x ∈ l, f x = .ok (g x)) → l.mapM f = .ok (l.map g) := by
  intro l
  induction l with
  | nil => intro _; rfl
  | cons x xs ih =>
    intro h
    rw [List.mapM_cons, h x (by simp), exceptBind_ok,
      ih (fun y hy => h y (by simp [hy])), exceptBind_ok]
    rfl

theorem filter_id_map_const (g : α → Bool) (c : γ) :
    ∀ l : List α, ((l.map g).filter (fun r => r)).map (fun _ => c)
      = (l.filter g).map (fun _ => c) := by
  intro l
  induction l with
  | nil => simp
  | cons x xs ih =>
    cases hx : g x with
    | true => simp [List.filter, hx, ih]
    | false => simp [List.filter, hx, ih]

theorem pairKeep_ok (b : Value) (loc : Path) (sels : List LoadSel) (hloc : loc ≠ []) :
    pairKeep b loc sels
      = .ok ((sels.filter (selMatchB b loc)).map (fun _ => (b, loc))) := by
  simp only [pairKeep]
  rw [mapM_ok_of_map (selKeep b loc) (selMatchB b loc) sels
    (fun x _ => selKeep_ok b loc hloc x), exceptBind_ok]
  rw [filter_id_map_const (selMatchB b loc) (b, loc) sels]
  rfl

theorem filterBlobs_sels (sels : List LoadSel) (hsels : sels ≠ []) :
    ∀ (pairs acc : List (Value × Path)), (∀ bl ∈ pairs, bl.2 ≠ []) →
      (pairs.foldlM (fun acc bl => do
        let ks ← pairKeep bl.1 bl.2 sels
        pure (acc ++ ks)) acc)
      = .ok (acc ++ pairs.flatMap (fun bl =>
          (sels.filter (selMatchB bl.1 bl.2)).map (fun _ => bl))) := by
  intro pairs
  induction pairs with
  | nil => intro acc _; simp [exceptPure]
  | cons bl tl ih =>
    intro acc hnn
    rw [List.foldlM_cons, pairKeep_ok bl.1 bl.2 sels (hnn bl (by simp)),
      exceptBind_ok, exceptPure, exceptBind_ok,
      ih (acc ++ (sels.filter (selMatchB bl.1 bl.2)).map (fun _ => (bl.1, bl.2)))
        (fun x hx => hnn x (by simp [hx]))]
    simp

theorem filterBlobs_sels_eq (sels : List LoadSel) (hsels : sels ≠ [])
    (pairs : List (Value × Path)) (hnn : ∀ bl ∈ pairs, bl.2 ≠ []) :
    filterBlobs pairs (.sels sels)
      = .ok (pairs.flatMap (fun bl =>
          (sels.filter (selMatchB bl.1 bl.2)).map (fun _ => bl))) := by
  cases sels with
  | nil => exact absurd rfl hsels
  | cons s0 stl =>
    have h := filterBlobs_sels (s0 :: stl) (by simp) pairs [] hnn
    simpa [filterBlobs] using h

theorem dictInsert_idem (k : Value) (v : α) :
    ∀ A : List (Value × α), dictInsert (dictInsert A k v) k v = dictInsert A k v := by
  intro A
  induction A with
  | nil => simp [dictInsert]
  | cons kv tl ih =>
    by_cases hk : kv.1 = k
    · cases kv
      simp_all [dictInsert]
    · cases kv
      simp_all [dictInsert]

theorem dictInsert_fresh (k : Value) (v : α) :
    ∀ A : List (Value × α), k ∉ A.map Prod.fst → dictInsert A k v = A ++ [(k, v)] := by
  intro A
  induction A with
  | nil => intro _; simp [dictInsert]
  | cons kv tl ih =>
    intro h
    cases kv with
    | mk k' v' =>
      simp only [List.map_cons, List.mem_cons] at h
      push_neg at h
      rw [show dictInsert ((k', v') :: tl) k v
          = if k' = k then (k, v) :: tl else (k', v') :: dictInsert tl k v from rfl]
      rw [if_neg (fun hc => h.1 hc.symm)]
      rw [ih h.2]
      simp

theorem foldl_dict_replicate (k : Value) (v : α) :
    ∀ (n : Nat) (A : List (Value × α)), n ≠ 0 →
      (List.replicate n (k, v)).foldl (fun acc kv => dictInsert acc kv.1 kv.2) A
        = dictInsert A k v := by
  intro n
  induction n with
  | zero => intro A h; exact absurd rfl h
  | succ m ih =>
    intro A _
    rw [List.replicate_succ, List.foldl_cons]
    by_cases hm : m = 0
    · subst hm
      simp
    · rw [ih (dictInsert A k v) hm, dictInsert_idem]

theorem foldl_dictStep_replicate (bv : Value) (pp : Path) :
    ∀ (n : Nat) (A : List (Value × Path)), n ≠ 0 →
      (List.replicate n (bv, pp)).foldl
          (fun acc bl => dictInsert acc ((pyget bl.1 "blob_uuid").getD .null) bl.2) A
        = dictInsert A ((pyget bv "blob_uuid").getD .null) pp := by
  intro n
  induction n with
  | zero => intro A h; exact absurd rfl h
  | succ m ih =>
    intro A _
    rw [List.replicate_succ, List.foldl_cons]
    by_cases hm : m = 0
    · subst hm
      simp
    · rw [ih (dictInsert A ((pyget bv "blob_uuid").getD .null) pp) hm, dictInsert_idem]

theorem fold_dict_flatMap (cnt : Path → Nat) (bOf : Path → Value) :
    ∀ (LS : List Path) (A : List (Value × Path)),
      (LS.flatMap (fun p => List.replicate (cnt p) (bOf p, p))).foldl
          (fun acc bl => dictInsert acc ((pyget bl.1 "blob_uuid").getD .null) bl.2) A
        = LS.foldl (fun acc p => if cnt p = 0 then acc
            else dictInsert acc ((pyget (bOf p) "blob_uuid").getD .null) p) A := by
  intro LS
  induction LS with
  | nil => intro A; simp
  | cons p tl ih =>
    intro A
    rw [List.flatMap_cons, List.foldl_append, List.foldl_cons]
    by_cases hc : cnt p = 0
    · rw [hc]
      simp [ih]
    · rw [foldl_dictStep_replicate (bOf p) p (cnt p) A hc]
      simp only [hc, if_neg, ite_false]
      exact ih (dictInsert A ((pyget (bOf p) "blob_uuid").getD .null) p)

theorem foldl_dictIf (cnt : Path → Nat) (idOf : Path → Value) (vf : Path → α) :
    ∀ (LS pre : List Path),
      ((pre ++ LS.filter (fun p => cnt p ≠ 0)).map idOf).Nodup →
      LS.foldl (fun acc p => if cnt p = 0 then acc else dictInsert acc (idOf p) (vf p))
          (pre.map (fun q => (idOf q, vf q)))
        = (pre ++ LS.filter (fun p => cnt p ≠ 0)).map (fun q => (idOf q, vf q)) := by
  intro LS
  induction LS with
  | nil => intro pre _; simp
  | cons p tl ih =>
    intro pre hnd
    rw [List.foldl_cons]
    by_cases hc : cnt p = 0
    · rw [if_pos hc]
      have hf : (p :: tl).filter (fun p => cnt p ≠ 0) = tl.filter (fun p => cnt p ≠ 0) := by
        simp [List.filter, hc]
      rw [hf] at hnd ⊢
      exact ih pre hnd
    · rw [if_neg hc]
      have hf : (p :: tl).filter (fun p => cnt p ≠ 0)
          = p :: tl.filter (fun p => cnt p ≠ 0) := by
        simp [List.filter, hc]
      rw [hf] at hnd ⊢
      have hfresh : idOf p ∉ pre.map idOf := by
        intro hmem
        have hnd2 := hnd
        rw [List.map_append, List.map_cons] at hnd2
        rcases List.nodup_append.mp hnd2 with ⟨_, _, hdisj⟩
        exact hdisj hmem (by simp)
      have hins : dictInsert (pre.map (fun q => (idOf q, vf q))) (idOf p) (vf p)
          = ((pre ++ [p]).map (fun q => (idOf q, vf q))) := by
        rw [dictInsert_fresh (idOf p) (vf p) _ (by
          intro hmem
          apply hfresh
          rcases List.mem_map.mp hmem with ⟨x, hx, he⟩
          rcases List.mem_map.mp hx with ⟨q, hq, rfl⟩
          exact List.mem_map.mpr ⟨q, hq, by simpa using he⟩)]
        simp
      rw [hins, ih (pre ++ [p]) (by simpa using hnd)]
      simp

theorem foldl_dictFresh (idOf : Path → Value) (vf : Path → α) :
    ∀ (LS pre : List Path), ((pre ++ LS).map idOf).Nodup →
      LS.foldl (fun acc p => dictInsert acc (idOf p) (vf p))
          (pre.map (fun q => (idOf q, vf q)))
        = (pre ++ LS).map (fun q => (idOf q, vf q)) := by
  intro LS
  induction LS with
  | nil => intro pre _; simp
  | cons p tl ih =>
    intro pre hnd
    rw [List.foldl_cons]
    have hfresh : idOf p ∉ pre.map idOf := by
      intro hmem
      have hnd2 := hnd
      rw [List.map_append, List.map_cons] at hnd2
      rcases List.nodup_append.mp hnd2 with ⟨_, _, hdisj⟩
      exact hdisj hmem (by simp)
    have hins : dictInsert (pre.map (fun q => (idOf q, vf q))) (idOf p) (vf p)
        = ((pre ++ [p]).map (fun q => (idOf q, vf q))) := by
      rw [dictInsert_fresh (idOf p) (vf p) _ (by
        intro hmem
        apply hfresh
        rcases List.mem_map.mp hmem with ⟨x, hx, he⟩
        rcases List.mem_map.mp hx with ⟨q, hq, rfl⟩
        exact List.mem_map.mpr ⟨q, hq, by simpa using he⟩)]
      simp
    rw [hins, ih (pre ++ [p]) (by simpa using hnd)]
    simp

theorem lookupDict_map_self (idOf : Path → Value) (vf : Path → α) :
    ∀ (L : List Path) (q : Path), q ∈ L → (L.map idOf).Nodup →
      lookupDict (L.map (fun p => (idOf p, vf p))) (idOf q) = some (vf q) := by
  intro L
  induction L with
  | nil => intro q hq _; simp at hq
  | cons r tl ih =>
    intro q hq hnd
    rw [List.map_cons] at hnd
    rcases List.nodup_cons.mp hnd with ⟨hr, htl⟩
    by_cases hrq : idOf r = idOf q
    · have hqr : q = r := by
        rcases List.mem_cons.mp hq with rfl | hq'
        · rfl
        · exact absurd (by rw [hrq]; exact List.mem_map.mpr ⟨q, hq', rfl⟩) hr
      subst hqr
      simp [List.map_cons, lookupDict]
    · have hq' : q ∈ tl := by
        rcases List.mem_cons.mp hq with rfl | hq'
        · exact absurd rfl hrq
        · exact hq'
      simp only [List.map_cons, lookupDict, hrq, if_neg, ite_false]
      exact ih q hq' htl

theorem filter_of_map (f : α → β) (q : β → Bool) :
    ∀ l : List α, (l.map f).filter q = (l.filter (fun x => q (f x))).map f := by
  intro l
  induction l with
  | nil => simp
  | cons x xs ih =>
    cases hx : q (f x) with
    | true => simp [List.filter, hx, ih]
    | false => simp [List.filter, hx, ih]

theorem getPath_updateInDictionary_indep (p : Path) :
    ∀ (upds : List (Path × Value)) (d : Value),
      (∀ pv ∈ upds, (∀ r, p ≠ pv.1 ++ r) ∧ (∀ r, pv.1 ≠ p ++ r)) →
      getPath (updateInDictionary d upds) p = getPath d p := by
  intro upds
  induction upds with
  | nil => intro d _; simp [updateInDictionary]
  | cons pv tl ih =>
    intro d h
    have h0 := h pv (by simp)
    have hstep : getPath (setPath d pv.1 pv.2) p = getPath d p :=
      getPath_setPath_indep pv.1 p d pv.2 h0.1 h0.2
    have := ih (setPath d pv.1 pv.2) (fun pv' hpv' => h pv' (by simp [hpv']))
    simpa [updateInDictionary, hstep] using this

theorem getPath_updateInDictionary_hit (p : Path) (v : Value) :
    ∀ (pre post : List (Path × Value)) (d : Value),
      (∀ pv ∈ pre, (∀ r, p ≠ pv.1 ++ r) ∧ (∀ r, pv.1 ≠ p ++ r)) →
      (∀ pv ∈ post, (∀ r, p ≠ pv.1 ++ r) ∧ (∀ r, pv.1 ≠ p ++ r)) →
      (getPath d p).isSome = true →
      getPath (updateInDictionary d (pre ++ (p, v) :: post)) p = some v := by
  intro pre post d hpre hpost hsome
  have h1 : updateInDictionary d (pre ++ (p, v) :: post)
      = updateInDictionary (setPath (updateInDictionary d pre) p v) post := by
    simp [updateInDictionary, List.foldl_append]
  rw [h1]
  have h2 : getPath (updateInDictionary d pre) p = getPath d p :=
    getPath_updateInDictionary_indep p pre d hpre
  cases hw : getPath d p with
  | none => rw [hw] at hsome; cases hsome
  | some w =>
    have h3 : getPath (setPath (updateInDictionary d pre) p v) p = some v :=
      getPath_setPath_self p (updateInDictionary d pre) w v (by rw [h2, hw])
    rw [getPath_updateInDictionary_indep p post _ hpost, h3]

/-- **C4** counterexample: the claim promises that a non-matching stub is
yielded untouched and "no error is raised for it", but a stub stored at the
document root (empty location) makes `_filter_blobs` evaluate
`location[-1]` on an empty list: with any selector-list LoadSpec the query
raises `IndexError` instead of yielding the document. -/
theorem query_selector_root_stub_errors :
    query ⟨[rootStubDoc], [], 0, [], .lbool false⟩ [] none none 0 0
      (some (.sels [.fname "x"])) = .error () := rfl

theorem flatMap_of_map (f : α → β) (g : β → List γ) :
    ∀ l : List α, (l.map f).flatMap g = l.flatMap (fun x => g (f x)) := by
  intro l
  induction l with
  | nil => simp
  | cons x xs ih => simp [ih]

theorem map_const_replicate (c : γ) :
    ∀ l : List α, l.map (fun _ => c) = List.replicate l.length c := by
  intro l
  induction l with
  | nil => simp
  | cons x xs ih => simp [ih, List.replicate_succ]

theorem inj_of_map_nodup (f : α → β) :
    ∀ l : List α, (l.map f).Nodup → ∀ p ∈ l, ∀ q ∈ l, f p = f q → p = q := by
  intro l
  induction l with
  | nil => intro _ p hp; simp at hp
  | cons x tl ih =>
    intro hnd p hp q hq he
    rw [List.map_cons] at hnd
    rcases List.nodup_cons.mp hnd with ⟨hx, htl⟩
    rcases List.mem_cons.mp hp with rfl | hp'
    · rcases List.mem_cons.mp hq with rfl | hq'
      · rfl
      · exact absurd (by rw [he]; exact List.mem_map.mpr ⟨q, hq', rfl⟩) hx
    · rcases List.mem_cons.mp hq with rfl | hq'
      · exact absurd (by rw [← he]; exact List.mem_map.mpr ⟨p, hp', rfl⟩) hx
      · exact ih htl p hp' q hq' he

theorem foldlM_ok (step : β → α → Except Unit β) (g : β → α → β) :
    ∀ (l : List α) (a : β), (∀ x ∈ l, ∀ acc, step acc x = .ok (g acc x)) →
      l.foldlM step a = .ok (l.foldl g a) := by
  intro l
  induction l with
  | nil => intro a _; rfl
  | cons x xs ih =>
    intro a h
    rw [List.foldlM_cons, h x (by simp) a, exceptBind_ok,
      ih (g a x) (fun y hy => h y (by simp [hy]))]
    rfl

theorem resolveDoc_sels_eq (D : Value) (sels : List LoadSel) (wOf : Path → Value)
    (hsels : sels ≠ [])
    (hnn : ∀ p ∈ findKey "blob_uuid" false D, p ≠ [])
    (hids : ((findKey "blob_uuid" false D).map (stubId D)).Nodup) :
    resolveDoc (.sels sels) ((findKey "blob_uuid" false D).map (fun p => vobj [("blob_uuid", stubId D p), ("data", wOf p)])) D
      = .ok (updateInDictionary D (((findKey "blob_uuid" false D).filter (fun p => sels.any (selMatchB (stubAt D p) p))).map (fun q => ((q : Path), wOf q)))) := by
  have hlt : loadTruthy (LoadArg.sels sels) = true := by
    cases sels with
    | nil => exact absurd rfl hsels
    | cons a l => rfl
  have hpairs_nn : ∀ bl ∈ ((findKey "blob_uuid" false D).map (fun loc => ((getPath D loc).getD Value.null, loc))), bl.2 ≠ [] := by
    intro bl hbl
    rcases List.mem_map.mp hbl with ⟨loc, hloc, rfl⟩
    exact hnn loc hloc
  have hkept : filterBlobs ((findKey "blob_uuid" false D).map (fun loc => ((getPath D loc).getD Value.null, loc))) (.sels sels) = .ok (((findKey "blob_uuid" false D).map (fun loc => ((getPath D loc).getD Value.null, loc))).flatMap (fun bl => (sels.filter (selMatchB bl.1 bl.2)).map (fun _ => bl))) :=
    filterBlobs_sels_eq sels hsels ((findKey "blob_uuid" false D).map (fun loc => ((getPath D loc).getD Value.null, loc))) hpairs_nn
  have hflat : (((findKey "blob_uuid" false D).map (fun loc => ((getPath D loc).getD Value.null, loc))).flatMap (fun bl => (sels.filter (selMatchB bl.1 bl.2)).map (fun _ => bl))) = (findKey "blob_uuid" false D).flatMap (fun p => List.replicate ((fun p => (sels.filter (selMatchB (stubAt D p) p)).length) p) (stubAt D p, p)) := by
    rw [flatMap_of_map (fun loc => ((getPath D loc).getD Value.null, loc)) (fun bl => (sels.filter (selMatchB bl.1 bl.2)).map
      (fun _ => bl)) (findKey "blob_uuid" false D)]
    congr 1
    funext p
    exact map_const_replicate (stubAt D p, p) (sels.filter (selMatchB (stubAt D p) p))
  have hnodupM : (((findKey "blob_uuid" false D).filter (fun p => sels.any (selMatchB (stubAt D p) p))).map (stubId D)).Nodup := by
    have hsub : List.Sublist ((findKey "blob_uuid" false D).filter (fun p => sels.any (selMatchB (stubAt D p) p))) (findKey "blob_uuid" false D) := List.filter_sublist (findKey "blob_uuid" false D)
    exact List.Nodup.sublist (List.Sublist.map (stubId D) hsub) hids
  have hfiltereq : (findKey "blob_uuid" false D).filter (fun p => (fun p => (sels.filter (selMatchB (stubAt D p) p)).length) p ≠ 0) = ((findKey "blob_uuid" false D).filter (fun p => sels.any (selMatchB (stubAt D p) p))) := by
    apply List.filter_congr
    intro p _
    cases han : sels.any (selMatchB (stubAt D p) p) with
    | false =>
      have hz : sels.filter (selMatchB (stubAt D p) p) = [] :=
        List.filter_eq_nil_iff.mpr (fun a ha => by
          have := List.any_eq_false.mp han a ha
          simpa using this)
      simp [hz]
    | true =>
      rcases List.any_eq_true.mp han with ⟨x, hx, hpx⟩
      have hne : sels.filter (selMatchB (stubAt D p) p) ≠ [] := by
        intro hc
        have := List.filter_eq_nil_iff.mp hc x hx
        simp [hpx] at this
      exact decide_eq_true (fun hz => hne (List.length_eq_zero.mp hz))
  have hOIfold : List.foldl (fun acc bl => dictInsert acc ((pyget bl.1 "blob_uuid").getD Value.null) bl.2) ([] : List (Value × Path)) (((findKey "blob_uuid" false D).map (fun loc => ((getPath D loc).getD Value.null, loc))).flatMap (fun bl => (sels.filter (selMatchB bl.1 bl.2)).map (fun _ => bl))) = (((findKey "blob_uuid" false D).filter (fun p => sels.any (selMatchB (stubAt D p) p))).map (fun q => (stubId D q, q))) := by
    rw [hflat, fold_dict_flatMap (fun p => (sels.filter (selMatchB (stubAt D p) p)).length) (fun p => stubAt D p) (findKey "blob_uuid" false D) []]
    have h2 := foldl_dictIf (fun p => (sels.filter (selMatchB (stubAt D p) p)).length)
      (fun p => (pyget (stubAt D p) "blob_uuid").getD Value.null) (fun q => q) (findKey "blob_uuid" false D) []
      (by
        rw [hfiltereq]
        simpa using hnodupM)
    simp only [List.nil_append, List.map_nil] at h2
    rw [h2, hfiltereq]
    exact List.map_congr_left (fun q _ => rfl)
  have hbu : ∀ p : Path, pyget (vobj [("blob_uuid", stubId D p), ("data", wOf p)])
      "blob_uuid" = some (stubId D p) := fun p => rfl
  have hbd : ∀ p : Path, pyget (vobj [("blob_uuid", stubId D p), ("data", wOf p)])
      "data" = some (wOf p) := fun p => rfl
  have hcrit : ∀ p ∈ (findKey "blob_uuid" false D),
      matchesCrit [("blob_uuid", Cond.cin ((((findKey "blob_uuid" false D).filter (fun p => sels.any (selMatchB (stubAt D p) p))).map (fun q => (stubId D q, q))).map Prod.fst))] ((fun p => vobj [("blob_uuid", stubId D p), ("data", wOf p)]) p) = sels.any (selMatchB (stubAt D p) p) := by
    intro p hp
    have h1 : matchesCrit [("blob_uuid", Cond.cin ((((findKey "blob_uuid" false D).filter (fun p => sels.any (selMatchB (stubAt D p) p))).map (fun q => (stubId D q, q))).map Prod.fst))] ((fun p => vobj [("blob_uuid", stubId D p), ("data", wOf p)]) p)
        = decide (stubId D p ∈ ((((findKey "blob_uuid" false D).filter (fun p => sels.any (selMatchB (stubAt D p) p))).map (fun q => (stubId D q, q))).map Prod.fst)) := by
      simp [matchesCrit, condMatch, hbu p]
    rw [h1]
    cases hpp : sels.any (selMatchB (stubAt D p) p) with
    | false =>
      apply decide_eq_false
      intro hin
      rcases List.mem_map.mp hin with ⟨il, hil, he⟩
      rcases List.mem_map.mp hil with ⟨q, hq, rfl⟩
      have hqLS : q ∈ (findKey "blob_uuid" false D) := (List.mem_filter.mp hq).1
      have hqp : q = p := inj_of_map_nodup (stubId D) (findKey "blob_uuid" false D) hids q hqLS p hp (by simpa using he)
      subst hqp
      have h4 := (List.mem_filter.mp hq).2
      rw [hpp] at h4
      cases h4
    | true =>
      apply decide_eq_true
      have hpm : p ∈ ((findKey "blob_uuid" false D).filter (fun p => sels.any (selMatchB (stubAt D p) p))) := List.mem_filter.mpr ⟨hp, hpp⟩
      exact List.mem_map.mpr ⟨(stubId D p, p), List.mem_map.mpr ⟨p, hpm, rfl⟩, rfl⟩
  have hfetch : docsCollQuery ((findKey "blob_uuid" false D).map (fun p => vobj [("blob_uuid", stubId D p), ("data", wOf p)])) [("blob_uuid", Cond.cin ((((findKey "blob_uuid" false D).filter (fun p => sels.any (selMatchB (stubAt D p) p))).map (fun q => (stubId D q, q))).map Prod.fst))]
      (some ["blob_uuid", "data"]) none 0 0 = ((findKey "blob_uuid" false D).filter (fun p => sels.any (selMatchB (stubAt D p) p))).map (fun p => vobj [("blob_uuid", stubId D p), ("data", wOf p)]) := by
    have h1 : docsCollQuery ((findKey "blob_uuid" false D).map (fun p => vobj [("blob_uuid", stubId D p), ("data", wOf p)])) [("blob_uuid", Cond.cin ((((findKey "blob_uuid" false D).filter (fun p => sels.any (selMatchB (stubAt D p) p))).map (fun q => (stubId D q, q))).map Prod.fst))]
        (some ["blob_uuid", "data"]) none 0 0
        = (((findKey "blob_uuid" false D).map (fun p => vobj [("blob_uuid", stubId D p), ("data", wOf p)])).filter
            (matchesCrit [("blob_uuid", Cond.cin ((((findKey "blob_uuid" false D).filter (fun p => sels.any (selMatchB (stubAt D p) p))).map (fun q => (stubId D q, q))).map Prod.fst))])).map
          (projectDoc (some ["blob_uuid", "data"])) := by
      simp [docsCollQuery]
    rw [h1, filter_of_map (fun p => vobj [("blob_uuid", stubId D p), ("data", wOf p)]) (matchesCrit [("blob_uuid", Cond.cin ((((findKey "blob_uuid" false D).filter (fun p => sels.any (selMatchB (stubAt D p) p))).map (fun q => (stubId D q, q))).map Prod.fst))]) (findKey "blob_uuid" false D),
      List.filter_congr hcrit, List.map_map]
    exact List.map_congr_left (fun p _ => rfl)
  have hstep : ∀ o ∈ ((findKey "blob_uuid" false D).filter (fun p => sels.any (selMatchB (stubAt D p) p))).map (fun p => vobj [("blob_uuid", stubId D p), ("data", wOf p)]), ∀ acc : List (Value × Value),
      (fun (acc : List (Value × Value)) o => match pyget o "blob_uuid", pyget o "data" with
        | some i, some dv => Except.ok (dictInsert acc i dv)
        | _, _ => Except.error ()) acc o
      = .ok (dictInsert acc ((pyget o "blob_uuid").getD Value.null)
          ((pyget o "data").getD Value.null)) := by
    intro o ho acc
    rcases List.mem_map.mp ho with ⟨q, hq, rfl⟩
    simp [hbu q, hbd q]
  have hOM : List.foldlM (fun acc o => match pyget o "blob_uuid", pyget o "data" with
      | some i, some dv => Except.ok (dictInsert acc i dv)
      | _, _ => Except.error ()) ([] : List (Value × Value)) (((findKey "blob_uuid" false D).filter (fun p => sels.any (selMatchB (stubAt D p) p))).map (fun p => vobj [("blob_uuid", stubId D p), ("data", wOf p)]))
      = .ok (((findKey "blob_uuid" false D).filter (fun p => sels.any (selMatchB (stubAt D p) p))).map (fun q => (stubId D q, wOf q))) := by
    rw [foldlM_ok _ (fun acc o => dictInsert acc ((pyget o "blob_uuid").getD Value.null)
      ((pyget o "data").getD Value.null)) (((findKey "blob_uuid" false D).filter (fun p => sels.any (selMatchB (stubAt D p) p))).map (fun p => vobj [("blob_uuid", stubId D p), ("data", wOf p)])) [] hstep]
    congr 1
    rw [List.foldl_map]
    have h5 := foldl_dictFresh (fun q => stubId D q) wOf ((findKey "blob_uuid" false D).filter (fun p => sels.any (selMatchB (stubAt D p) p))) [] (by simpa using hnodupM)
    simp only [List.nil_append, List.map_nil] at h5
    exact h5
  have hlook : ∀ q ∈ ((findKey "blob_uuid" false D).filter (fun p => sels.any (selMatchB (stubAt D p) p))), lookupDict (((findKey "blob_uuid" false D).filter (fun p => sels.any (selMatchB (stubAt D p) p))).map (fun q => (stubId D q, wOf q))) (stubId D q) = some (wOf q) :=
    fun q hq => lookupDict_map_self (stubId D) wOf ((findKey "blob_uuid" false D).filter (fun p => sels.any (selMatchB (stubAt D p) p))) q hq hnodupM
  have hTI : List.mapM (fun il => match lookupDict (((findKey "blob_uuid" false D).filter (fun p => sels.any (selMatchB (stubAt D p) p))).map (fun q => (stubId D q, wOf q))) il.1 with
        | some dv => Except.ok ((il.2 : Path), dv)
        | none => Except.error ()) (((findKey "blob_uuid" false D).filter (fun p => sels.any (selMatchB (stubAt D p) p))).map (fun q => (stubId D q, q)))
      = .ok (((findKey "blob_uuid" false D).filter (fun p => sels.any (selMatchB (stubAt D p) p))).map (fun q => ((q : Path), wOf q))) := by
    rw [mapM_ok_of_map _ (fun il => ((il.2 : Path),
      (lookupDict (((findKey "blob_uuid" false D).filter (fun p => sels.any (selMatchB (stubAt D p) p))).map (fun q => (stubId D q, wOf q))) il.1).getD Value.null)) (((findKey "blob_uuid" false D).filter (fun p => sels.any (selMatchB (stubAt D p) p))).map (fun q => (stubId D q, q))) (by
        intro il hil
        rcases List.mem_map.mp hil with ⟨q, hq, rfl⟩
        simp [hlook q hq])]
    congr 1
    rw [List.map_map]
    apply List.map_congr_left
    intro q hq
    simp [hlook q hq]
  simp only [resolveDoc, hlt, if_true]
  simp only [hkept, exceptBind_ok]
  simp only [hOIfold]
  simp only [hfetch]
  simp only [hOM, exceptBind_ok]
  simp only [hTI, exceptBind_ok]

/-- **C4** (amended): for a stored document whose reference stubs all sit
at non-root locations — pairwise independent, with distinct blob ids and a
blob record per stub in the data store — `query` with a selector-list
LoadSpec resolves exactly the stubs some selector matches (a type-tag
selector equal to the stub's recorded `(module, class)` tag, or a
field-name selector equal to the final path segment of the stub's
location), substituting the fetched blob data there, and leaves every
non-matching stub untouched as an unresolved reference, raising no error.
The unamended claim fails on stubs stored at the document root, where
`_filter_blobs` raises `IndexError`: see the companion counterexample. -/
theorem query_selector_exact (s : State) (c : Criteria) (D : Value)
    (sels : List LoadSel) (wOf : Path → Value)
    (hsels : sels ≠ [])
    (hfilter : s.docs.filter (matchesCrit c) = [D])
    (hnn : ∀ p ∈ findKey "blob_uuid" false D, p ≠ [])
    (hids : ((findKey "blob_uuid" false D).map (stubId D)).Nodup)
    (hindep : ∀ p ∈ findKey "blob_uuid" false D, ∀ q ∈ findKey "blob_uuid" false D,
      p ≠ q → PathIndep p q)
    (hvalid : ∀ p ∈ findKey "blob_uuid" false D, (getPath D p).isSome = true)
    (hdata : s.data = (findKey "blob_uuid" false D).map (fun p => vobj [("blob_uuid", stubId D p), ("data", wOf p)])) :
    ∃ R : Value,
      query s c none none 0 0 (some (.sels sels)) = .ok [R]
      ∧ R = updateInDictionary D (((findKey "blob_uuid" false D).filter (fun p => sels.any (selMatchB (stubAt D p) p))).map (fun q => ((q : Path), wOf q)))
      ∧ (∀ p ∈ findKey "blob_uuid" false D,
          sels.any (selMatchB (stubAt D p) p) = false → getPath R p = getPath D p)
      ∧ (∀ p ∈ findKey "blob_uuid" false D,
          sels.any (selMatchB (stubAt D p) p) = true → getPath R p = some (wOf p)) := by
  refine ⟨updateInDictionary D (((findKey "blob_uuid" false D).filter (fun p => sels.any (selMatchB (stubAt D p) p))).map (fun q => ((q : Path), wOf q))), ?_, rfl, ?_, ?_⟩
  · have hq1 : query s c none none 0 0 (some (.sels sels))
        = (docsCollQuery s.docs c none none 0 0).mapM
            (resolveDoc (.sels sels) s.data) := rfl
    have hdq : docsCollQuery s.docs c none none 0 0 = [D] := by
      simp [docsCollQuery, hfilter, projectDoc]
    rw [hq1, hdq, hdata, List.mapM_cons,
      resolveDoc_sels_eq D sels wOf hsels hnn hids, exceptBind_ok]
    rfl
  · intro p hp hfalse
    apply getPath_updateInDictionary_indep
    intro pv hpv
    rcases List.mem_map.mp hpv with ⟨q, hq, rfl⟩
    have hqLS : q ∈ (findKey "blob_uuid" false D) := (List.mem_filter.mp hq).1
    have hqpred := (List.mem_filter.mp hq).2
    have hqp : q ≠ p := by
      intro hc
      subst hc
      rw [hfalse] at hqpred
      cases hqpred
    exact hindep q hqLS p hp hqp
  · intro p hp htrue
    have hpm : p ∈ ((findKey "blob_uuid" false D).filter (fun p => sels.any (selMatchB (stubAt D p) p))) := List.mem_filter.mpr ⟨hp, htrue⟩
    rcases List.append_of_mem hpm with ⟨m1, m2, hsplit⟩
    have hnodupMat : (((findKey "blob_uuid" false D).filter (fun p => sels.any (selMatchB (stubAt D p) p)))).Nodup :=
      List.Nodup.filter (fun p => sels.any (selMatchB (stubAt D p) p)) (List.Nodup.of_map (stubId D) hids)
    rw [hsplit] at hnodupMat
    have hpm1 : p ∉ m1 := by
      rcases List.nodup_append.mp hnodupMat with ⟨_, _, hdisj⟩
      intro hc
      exact hdisj hc (by simp)
    have hpm2 : p ∉ m2 := by
      rcases List.nodup_append.mp hnodupMat with ⟨_, h2, _⟩
      exact (List.nodup_cons.mp h2).1
    have hmem1 : ∀ q ∈ m1, q ∈ ((findKey "blob_uuid" false D).filter (fun p => sels.any (selMatchB (stubAt D p) p))) := by
      intro q hq
      rw [hsplit]
      simp [hq]
    have hmem2 : ∀ q ∈ m2, q ∈ ((findKey "blob_uuid" false D).filter (fun p => sels.any (selMatchB (stubAt D p) p))) := by
      intro q hq
      rw [hsplit]
      simp [hq]
    have hside : ∀ (mm : List Path), (∀ q ∈ mm, q ∈ ((findKey "blob_uuid" false D).filter (fun p => sels.any (selMatchB (stubAt D p) p)))) → p ∉ mm →
        ∀ pv ∈ mm.map (fun q => ((q : Path), wOf q)),
          (∀ r, p ≠ pv.1 ++ r) ∧ (∀ r, pv.1 ≠ p ++ r) := by
      intro mm hmm hpnot pv hpv
      rcases List.mem_map.mp hpv with ⟨q, hq, rfl⟩
      have hqM := hmm q hq
      have hqLS : q ∈ (findKey "blob_uuid" false D) := (List.mem_filter.mp hqM).1
      have hqp : q ≠ p := by
        intro hc
        subst hc
        exact hpnot hq
      exact hindep q hqLS p hp hqp
    rw [hsplit, List.map_append, List.map_cons]
    exact getPath_updateInDictionary_hit p (wOf p)
      (m1.map (fun q => ((q : Path), wOf q))) (m2.map (fun q => ((q : Path), wOf q))) D
      (hside m1 hmem1 hpm1) (hside m2 hmem2 hpm2) (hvalid p hp)

/-- **C4** witness: the two-stub document — one stub type-tagged
`(M, C)` at field `p`, one untagged at field `q` — queried with the single
type-tag selector `(M, C)`: the query succeeds, the tagged stub is replaced
by its blob data `77`, and the untagged stub survives untouched as an
unresolved reference. -/
theorem query_selector_exact_witness :
    (([LoadSel.ftype "M" "C"] : List LoadSel) ≠ []
     ∧ ([twoStubDoc].filter (matchesCrit []) = [twoStubDoc])
     ∧ (∀ p ∈ findKey "blob_uuid" false twoStubDoc, p ≠ [])
     ∧ ((findKey "blob_uuid" false twoStubDoc).map (stubId twoStubDoc)).Nodup
     ∧ (∀ p ∈ findKey "blob_uuid" false twoStubDoc,
         ∀ q ∈ findKey "blob_uuid" false twoStubDoc, p ≠ q → PathIndep p q)
     ∧ (∀ p ∈ findKey "blob_uuid" false twoStubDoc,
         (getPath twoStubDoc p).isSome = true)
     ∧ (([vobj [("blob_uuid", Value.int 1), ("data", Value.int 77)],
        vobj [("blob_uuid", Value.int 2), ("data", Value.int 88)]] : List Value)
        = (findKey "blob_uuid" false twoStubDoc).map (fun p =>
            vobj [("blob_uuid", stubId twoStubDoc p), ("data", (fun l => if l = [Seg.key "p"] then Value.int 77 else Value.int 88) p)])))
    ∧ (query ⟨[twoStubDoc], [vobj [("blob_uuid", Value.int 1), ("data", Value.int 77)],
        vobj [("blob_uuid", Value.int 2), ("data", Value.int 88)]], 0, [], .lbool false⟩ [] none none 0 0 (some (.sels [.ftype "M" "C"]))
        = .ok [vobj [("uuid", .str "u"), ("index", .int 0), ("p", .int 77),
            ("q", vobj [("@class", .str ""), ("@module", .str ""),
              ("blob_uuid", .int 2)])]])
    ∧ (∃ R : Value,
        query ⟨[twoStubDoc], [vobj [("blob_uuid", Value.int 1), ("data", Value.int 77)],
        vobj [("blob_uuid", Value.int 2), ("data", Value.int 88)]], 0, [], .lbool false⟩ [] none none 0 0 (some (.sels [.ftype "M" "C"])) = .ok [R]
        ∧ R = updateInDictionary twoStubDoc
            (((findKey "blob_uuid" false twoStubDoc).filter
                (fun p => [LoadSel.ftype "M" "C"].any
                  (selMatchB (stubAt twoStubDoc p) p))).map
              (fun q => ((q : Path), (fun l => if l = [Seg.key "p"] then Value.int 77 else Value.int 88) q)))
        ∧ (∀ p ∈ findKey "blob_uuid" false twoStubDoc,
            [LoadSel.ftype "M" "C"].any (selMatchB (stubAt twoStubDoc p) p) = false →
              getPath R p = getPath twoStubDoc p)
        ∧ (∀ p ∈ findKey "blob_uuid" false twoStubDoc,
            [LoadSel.ftype "M" "C"].any (selMatchB (stubAt twoStubDoc p) p) = true →
              getPath R p = some ((fun l => if l = [Seg.key "p"] then Value.int 77 else Value.int 88) p))) :=
  ⟨⟨by decide, rfl, by decide, by decide,
    (by
      intro p hp q hq hne
      rw [show findKey "blob_uuid" false twoStubDoc
        = [[Seg.key "p"], [Seg.key "q"]] from rfl] at hp hq
      simp at hp hq
      rcases hp with rfl | rfl <;> rcases hq with rfl | rfl
      · exact absurd rfl hne
      · exact ⟨fun r hc => by injection hc with h1 h2; exact absurd h1 (by decide),
               fun r hc => by injection hc with h1 h2; exact absurd h1 (by decide)⟩
      · exact ⟨fun r hc => by injection hc with h1 h2; exact absurd h1 (by decide),
               fun r hc => by injection hc with h1 h2; exact absurd h1 (by decide)⟩
      · exact absurd rfl hne),
    by decide, rfl⟩,
   rfl,
   query_selector_exact ⟨[twoStubDoc], [vobj [("blob_uuid", Value.int 1), ("data", Value.int 77)],
        vobj [("blob_uuid", Value.int 2), ("data", Value.int 88)]], 0, [], .lbool false⟩ [] twoStubDoc [.ftype "M" "C"] (fun l => if l = [Seg.key "p"] then Value.int 77 else Value.int 88)
     (by decide) rfl (by decide) (by decide)
     (by
      intro p hp q hq hne
      rw [show findKey "blob_uuid" false twoStubDoc
        = [[Seg.key "p"], [Seg.key "q"]] from rfl] at hp hq
      simp at hp hq
      rcases hp with rfl | rfl <;> rcases hq with rfl | rfl
      · exact absurd rfl hne
      · exact ⟨fun r hc => by injection hc with h1 h2; exact absurd h1 (by decide),
               fun r hc => by injection hc with h1 h2; exact absurd h1 (by decide)⟩
      · exact ⟨fun r hc => by injection hc with h1 h2; exact absurd h1 (by decide),
               fun r hc => by injection hc with h1 h2; exact absurd h1 (by decide)⟩
      · exact absurd rfl hne)
     (by decide) rfl⟩

end JF
